import Mathlib

/-!
Iterative histogram equalisation: `histogram_par.cpp`

A shallow embedding of the kernels of `src/src/histogram_par.cpp` and of the
driver `iterative_histogram_equalization`, followed by theorems about them.

Modelling conventions.

* A C array is the list of its elements.  A load `a[i]` is `a.getD i d` and a
  store `a[i] = v` is `a.set i v`; the default `d` only stands for a load
  outside the array, which no loop performs on buffers of the allocated
  sizes.
* `unsigned char` values are naturals below 256, `int` values are integers
  (the counters are bounded by the pixel count, so they never overflow),
  image dimensions are naturals.
* A finite `float`/`double` is the rational it denotes.  Every operation is
  the exact operation followed by the rounding of its format: to the nearest
  number of 24 (`float`) or 53 (`double`) significant bits, ties to even
  (`round_to`).  Each operation is rounded in the format of its operands
  (an `int` operand of a `float` operation is converted to `float`, a byte
  operand of a `double` operation to `double`), and a product is not fused
  with the sum that follows it.  The exponent range is not bounded: the
  quotients, sums and products the kernels form from the pixel counts of an
  image and from bytes are far from the overflow and underflow thresholds of
  the two formats.  The non-finite values that a division by zero produces
  are kept (`CFloat`).
* `prob_exact` and `calculate_cdf_exact` are `prob` and `calculate_cdf`
  without the roundings: the exact arithmetic in which the closed form of
  the CDF is stated.
* An OpenMP work-sharing loop is run under an explicit schedule: the list of
  the chunks of iteration indices, one chunk per thread, in the order in
  which the threads enter the critical section.
-/

namespace cp

/-! ## Floating-point values -/

/-- Value of a floating-point expression: a finite number, an infinity or a
NaN.  Signed zeros are not distinguished; every zero divisor this program can
form (`(float)0`, `1 - 1`) is a positive zero.  The operations below give the
exact result; the rounding to the format is `CFloat.round32`. -/
inductive CFloat where
  | fin (q : ℚ)
  | pinf
  | ninf
  | nan
deriving DecidableEq

namespace CFloat

/-- Unary minus. -/
def neg : CFloat → CFloat
  | fin q => fin (-q)
  | pinf => ninf
  | ninf => pinf
  | nan => nan

/-- Addition: `inf + (-inf)` is a NaN. -/
def add : CFloat → CFloat → CFloat
  | fin a, fin b => fin (a + b)
  | fin _, pinf => pinf
  | fin _, ninf => ninf
  | pinf, fin _ => pinf
  | pinf, pinf => pinf
  | ninf, fin _ => ninf
  | ninf, ninf => ninf
  | _, _ => nan

/-- Subtraction. -/
def sub (a b : CFloat) : CFloat := add a (neg b)

/-- The positive infinity for `true`, the negative one for `false`. -/
def signedInf (positive : Bool) : CFloat := if positive then pinf else ninf

/-- Multiplication: `0 * inf` is a NaN. -/
def mul : CFloat → CFloat → CFloat
  | fin a, fin b => fin (a * b)
  | fin a, pinf => if a = 0 then nan else signedInf (decide (0 < a))
  | fin a, ninf => if a = 0 then nan else signedInf (decide (a < 0))
  | pinf, fin b => if b = 0 then nan else signedInf (decide (0 < b))
  | ninf, fin b => if b = 0 then nan else signedInf (decide (b < 0))
  | pinf, pinf => pinf
  | pinf, ninf => ninf
  | ninf, pinf => ninf
  | ninf, ninf => pinf
  | _, _ => nan

/-- Division: a non-zero number over zero is an infinity, `0 / 0` and
`inf / inf` are NaNs, a finite number over an infinity is zero. -/
def div : CFloat → CFloat → CFloat
  | fin a, fin b =>
      if b = 0 then (if a = 0 then nan else signedInf (decide (0 < a)))
      else fin (a / b)
  | fin _, pinf => fin 0
  | fin _, ninf => fin 0
  | pinf, fin b => signedInf (decide (0 ≤ b))
  | ninf, fin b => signedInf (decide (b < 0))
  | _, _ => nan

/-- The comparison `a < b`; false as soon as one side is a NaN. -/
def lt : CFloat → CFloat → Bool
  | fin a, fin b => decide (a < b)
  | fin _, pinf => true
  | ninf, fin _ => true
  | ninf, pinf => true
  | _, _ => false

/-- The comparison `a <= b`; false as soon as one side is a NaN. -/
def le : CFloat → CFloat → Bool
  | fin a, fin b => decide (a ≤ b)
  | fin _, pinf => true
  | ninf, fin _ => true
  | ninf, pinf => true
  | ninf, ninf => true
  | pinf, pinf => true
  | _, _ => false

/-- `std::min(a, b)`, which is `(b < a) ? b : a`. -/
def min (a b : CFloat) : CFloat := if lt b a then b else a

/-- Conversion of an `int` to `float`. -/
def ofInt (x : Int) : CFloat := fin (x : ℚ)

end CFloat

/-! ## Rounding -/

/-- Number of binary digits of `n`, counted by at most `fuel` halvings; the
count is complete as soon as `n < 2 ^ fuel`, in particular for `fuel = n`. -/
def bit_length : Nat → Nat → Nat
  | 0, _ => 0
  | fuel + 1, n => if n = 0 then 0 else bit_length fuel (n / 2) + 1

/-- Binary exponent of a non-zero rational `x`: the integer `e` with
`2 ^ e <= |x| < 2 ^ (e + 1)`.  The difference of the digit counts of the
numerator and the denominator is `e` or `e + 1`. -/
def ilog2 (x : ℚ) : Int :=
  if (2 : ℚ) ^ ((bit_length x.num.natAbs x.num.natAbs : Int) - (bit_length x.den x.den : Int))
      ≤ |x| then
    (bit_length x.num.natAbs x.num.natAbs : Int) - (bit_length x.den x.den : Int)
  else (bit_length x.num.natAbs x.num.natAbs : Int) - (bit_length x.den x.den : Int) - 1

/-- Nearest integer, a tie going to the even one. -/
def round_half_even (y : ℚ) : Int :=
  if y - ⌊y⌋ < 1 / 2 then ⌊y⌋
  else if 1 / 2 < y - ⌊y⌋ then ⌊y⌋ + 1
  else if ⌊y⌋ % 2 = 0 then ⌊y⌋ else ⌊y⌋ + 1

/-- Rounding to the nearest binary floating-point number of `p` significant
bits, ties to even: `x` is scaled so that its integer part has `p` bits,
rounded to an integer and scaled back. -/
def round_to (p : Nat) (x : ℚ) : ℚ :=
  if x = 0 then 0
  else (round_half_even (x / (2 : ℚ) ^ (ilog2 x - ((p : Int) - 1))) : ℚ)
    * (2 : ℚ) ^ (ilog2 x - ((p : Int) - 1))

/-- Rounding to `float` (binary32, 24 significant bits). -/
def round32 (x : ℚ) : ℚ := round_to 24 x

/-- Rounding to `double` (binary64, 53 significant bits). -/
def round64 (x : ℚ) : ℚ := round_to 53 x

/-- Rounding of the result of a `float` operation; an infinity or a NaN is
kept. -/
def CFloat.round32 : CFloat → CFloat
  | CFloat.fin q => CFloat.fin (cp.round32 q)
  | x => x

/-- Truncation toward zero, the rounding of a floating-to-integer conversion. -/
def truncate (q : ℚ) : Int := if 0 ≤ q then ⌊q⌋ else ⌈q⌉

/-- `static_cast<unsigned char>(q)` for a finite `q`: the fractional part is
discarded.  A truncated value outside `0..255` is not a value of
`unsigned char` and C++ leaves the conversion undefined; here it is reduced
modulo 256, the byte a conversion through a wider integer stores. -/
def to_uchar (q : ℚ) : Nat := (truncate q % 256).toNat

/-- `static_cast<unsigned char>(x)` for a floating-point value that may be
non-finite: the conversion of an infinity or a NaN has no defined result. -/
def CFloat.to_uchar : CFloat → Option Nat
  | CFloat.fin q => some (cp.to_uchar q)
  | _ => none

/-! ## The kernels -/

/-- Number of histogram bins. -/
def HISTOGRAM_LENGTH : Nat := 256

/-- Size of the thread team of the parallel regions. -/
def NUM_THREADS : Nat := 8

/-- `prob`: `(float)x / (float)size`.  The two conversions and the division
round to `float`. -/
def prob (x size : Int) : CFloat :=
  CFloat.round32
    (CFloat.div (CFloat.round32 (CFloat.ofInt x)) (CFloat.round32 (CFloat.ofInt size)))

/-- The quotient `x / size` of `prob` in exact arithmetic. -/
def prob_exact (x size : Int) : CFloat := CFloat.div (CFloat.ofInt x) (CFloat.ofInt size)

/-- `clamp`, on an `unsigned char`. -/
def clamp (x : Nat) : Nat := min (max x 0) 255

/-- `correct_color`: `255 * (cdf_val - cdf_min) / (1 - cdf_min)` in `float`
arithmetic (the two differences, the product and the quotient are rounded);
the quotient is converted to `unsigned char` and the byte is then passed to
`clamp`. -/
def correct_color (cdf_val cdf_min : CFloat) : Option Nat :=
  (CFloat.to_uchar
    (CFloat.round32
      (CFloat.div
        (CFloat.round32
          (CFloat.mul (CFloat.fin 255) (CFloat.round32 (CFloat.sub cdf_val cdf_min))))
        (CFloat.round32 (CFloat.sub (CFloat.fin 1) cdf_min))))).map clamp

/-- `for (int i = lo; i < lo + n; i++) s = body i s`. -/
def for_loop {σ : Type} (body : Nat → σ → σ) : Nat → Nat → σ → σ
  | _, 0, s => s
  | lo, n + 1, s => for_loop body (lo + 1) n (body lo s)

/-- `convert_to_uchar`; the product `255 * input_image_data[i]` is a `float`
product. -/
def convert_to_uchar (input_image_data : List ℚ) (uchar_image : List Nat)
    (size_channels : Nat) : List Nat :=
  for_loop (fun i u => u.set i (to_uchar (round32 (255 * input_image_data.getD i 0))))
    0 size_channels uchar_image

/-- The luma expression `0.21 * r + 0.71 * g + 0.07 * b` converted to
`unsigned char`.  The expression is evaluated in `double`: the three
constants are the doubles nearest to the decimals, the bytes convert exactly,
and the three products and the two sums, taken from left to right, are
rounded. -/
def luma (r g b : Nat) : Nat :=
  to_uchar
    (round64
      (round64 (round64 (round64 (21 / 100) * r) + round64 (round64 (71 / 100) * g))
        + round64 (round64 (7 / 100) * b)))

/-- `convert_to_grayscale`. -/
def convert_to_grayscale (uchar_image : List Nat) (gray_image : List Nat)
    (size : Nat) : List Nat :=
  for_loop
    (fun i g => g.set i
      (luma (uchar_image.getD (3 * i) 0) (uchar_image.getD (3 * i + 1) 0)
        (uchar_image.getD (3 * i + 2) 0)))
    0 size gray_image

/-- `std::fill(histogram, histogram + HISTOGRAM_LENGTH, 0)`. -/
def fill_zero (histogram : List Int) : List Int :=
  for_loop (fun i h => h.set i 0) 0 HISTOGRAM_LENGTH histogram

/-- `int local_histogram[HISTOGRAM_LENGTH] = {0}`. -/
def local_histogram_init : List Int := List.replicate HISTOGRAM_LENGTH 0

/-- The body of the critical section: the thread-local histogram is added
into the shared one, bin by bin. -/
def merge_histogram (histogram local_histogram : List Int) : List Int :=
  for_loop (fun i h => h.set i (h.getD i 0 + local_histogram.getD i 0))
    0 HISTOGRAM_LENGTH histogram

/-- A schedule of a work-sharing loop: the chunk of iteration indices each
thread of the team executes, the threads listed in the order in which they
enter the critical section. -/
abbrev Schedule := List (List Nat)

/-- A schedule of the loop `for (i = 0; i < size; i++)` hands every iteration
`0 .. size - 1` to exactly one thread.  The team may have any number of
threads, in particular the `NUM_THREADS` of the source. -/
def Schedule.Valid (schedule : Schedule) (size : Nat) : Prop :=
  List.Perm schedule.flatten (List.range size)

instance (schedule : Schedule) (size : Nat) : Decidable (Schedule.Valid schedule size) := by
  unfold Schedule.Valid
  infer_instance

/-- The schedule of a team of one thread. -/
def Schedule.sequential (size : Nat) : Schedule := [List.range size]

/-- One thread of `build_histogram`: count the chunk into a zeroed local
histogram, then merge. -/
def build_histogram_thread (gray_image : List Nat) (histogram : List Int)
    (chunk : List Nat) : List Int :=
  merge_histogram histogram
    (chunk.foldl
      (fun l i => l.set (gray_image.getD i 0) (l.getD (gray_image.getD i 0) 0 + 1))
      local_histogram_init)

/-- `build_histogram` under a schedule of its loop over the `size` pixels. -/
def build_histogram (gray_image : List Nat) (histogram : List Int)
    (schedule : Schedule) : List Int :=
  schedule.foldl (build_histogram_thread gray_image) (fill_zero histogram)

/-- The buffers written by `process_image_and_build_histogram`. -/
structure Projected where
  uchar_image : List Nat
  gray_image : List Nat
  histogram : List Int

/-- One iteration of the fused loop, for pixel `i`, on the byte buffer, the
luma buffer and the thread-local histogram. -/
def process_pixel (input_image_data : List ℚ) (i : Nat)
    (s : List Nat × List Nat × List Int) : List Nat × List Nat × List Int :=
  let idx := 3 * i
  let u1 := s.1.set idx (to_uchar (round32 (255 * input_image_data.getD idx 0)))
  let u2 := u1.set (idx + 1) (to_uchar (round32 (255 * input_image_data.getD (idx + 1) 0)))
  let u3 := u2.set (idx + 2) (to_uchar (round32 (255 * input_image_data.getD (idx + 2) 0)))
  let g := s.2.1.set i (luma (u3.getD idx 0) (u3.getD (idx + 1) 0) (u3.getD (idx + 2) 0))
  (u3, g, s.2.2.set (g.getD i 0) (s.2.2.getD (g.getD i 0) 0 + 1))

/-- One thread of the fused kernel: run the chunk with a zeroed local
histogram, then merge it into the shared histogram. -/
def process_thread (input_image_data : List ℚ) (p : Projected) (chunk : List Nat) :
    Projected :=
  let r := chunk.foldl (fun s i => process_pixel input_image_data i s)
    (p.uchar_image, p.gray_image, local_histogram_init)
  { uchar_image := r.1, gray_image := r.2.1,
    histogram := merge_histogram p.histogram r.2.2 }

/-- `process_image_and_build_histogram` under a schedule of its loop over the
`size` pixels (the schedule carries the loop bound).  The threads write
disjoint elements of the byte and luma buffers, so running them one after the
other gives the buffers of any interleaving. -/
def process_image_and_build_histogram (input_image_data : List ℚ)
    (uchar_image gray_image : List Nat) (histogram : List Int)
    (schedule : Schedule) : Projected :=
  schedule.foldl (process_thread input_image_data)
    { uchar_image := uchar_image, gray_image := gray_image,
      histogram := fill_zero histogram }

/-- `calculate_cdf`; every addition rounds to `float`. -/
def calculate_cdf (histogram : List Int) (cdf : List CFloat) (size : Int) :
    List CFloat :=
  for_loop
    (fun i c => c.set i
      (CFloat.round32
        (CFloat.add (c.getD (i - 1) CFloat.nan) (prob (histogram.getD i 0) size))))
    1 (HISTOGRAM_LENGTH - 1) (cdf.set 0 (prob (histogram.getD 0 0) size))

/-- The loop of `calculate_cdf` in exact arithmetic. -/
def calculate_cdf_exact (histogram : List Int) (cdf : List CFloat) (size : Int) :
    List CFloat :=
  for_loop
    (fun i c => c.set i
      (CFloat.add (c.getD (i - 1) CFloat.nan) (prob_exact (histogram.getD i 0) size)))
    1 (HISTOGRAM_LENGTH - 1) (cdf.set 0 (prob_exact (histogram.getD 0 0) size))

/-- `find_cdf_min`.  The reduction is evaluated in index order; on finite
values `min` is associative and commutative, so the order is immaterial. -/
def find_cdf_min (cdf : List CFloat) : CFloat :=
  for_loop (fun i m => CFloat.min m (cdf.getD i CFloat.nan)) 1 (HISTOGRAM_LENGTH - 1)
    (cdf.getD 0 CFloat.nan)

/-- One iteration of the loop of
`apply_histogram_equalization_and_convert_to_float`; `none` when the
conversion inside `correct_color` has no defined result.  The division by
`255.0f` is a `float` division. -/
def apply_sample (cdf : List CFloat) (cdf_min : CFloat) (i : Nat)
    (s : List Nat × List ℚ) : Option (List Nat × List ℚ) :=
  match correct_color (cdf.getD (s.1.getD i 0) CFloat.nan) cdf_min with
  | none => none
  | some c => some (s.1.set i c, s.2.set i (round32 ((c : ℚ) / 255)))

/-- `apply_histogram_equalization_and_convert_to_float`: every iteration
reads and writes only element `i`, so the loop is run in index order. -/
def apply_histogram_equalization_and_convert_to_float (uchar_image : List Nat)
    (output_image_data : List ℚ) (cdf : List CFloat) (cdf_min : CFloat)
    (size_channels : Nat) : Option (List Nat × List ℚ) :=
  for_loop (fun i s => s.bind (apply_sample cdf cdf_min i)) 0 size_channels
    (some (uchar_image, output_image_data))

/-! ## The driver -/

/-- The two float buffers a `float *` of the driver can designate: the pixel
data of the input image and the pixel data of the output image. -/
inductive Buf where
  | input
  | output
deriving DecidableEq

/-- The memory the driver works on. -/
structure Heap where
  input_image : List ℚ
  output_image : List ℚ
  uchar_image : List Nat
  gray_image : List Nat
  histogram : List Int
  cdf : List CFloat

/-- The contents of the buffer a pointer designates. -/
def Heap.read (h : Heap) : Buf → List ℚ
  | Buf.input => h.input_image
  | Buf.output => h.output_image

/-- `histogram_equalization`, reading through `input_image_data` and writing
the output image; `none` when a conversion has no defined result. -/
def histogram_equalization (width height : Nat) (input_image_data : Buf) (h : Heap)
    (schedule : Schedule) : Option Heap :=
  let size := width * height
  let size_channels := size * 3
  let p := process_image_and_build_histogram (h.read input_image_data)
    h.uchar_image h.gray_image h.histogram schedule
  let cdf := calculate_cdf p.histogram h.cdf size
  let cdf_min := find_cdf_min cdf
  (apply_histogram_equalization_and_convert_to_float p.uchar_image h.output_image
      cdf cdf_min size_channels).map
    (fun r =>
      { h with output_image := r.2, uchar_image := r.1, gray_image := p.gray_image,
               histogram := p.histogram, cdf := cdf })

/-- One turn of the loop of the driver: a pass, then
`input_image_data = output_image_data`. -/
def driver_step (width height : Nat) (schedules : Nat → Schedule) (i : Nat)
    (s : Option (Buf × Heap)) : Option (Buf × Heap) :=
  s.bind (fun c =>
    (histogram_equalization width height c.1 c.2 (schedules i)).map
      (fun h => (Buf.output, h)))

/-- `iterative_histogram_equalization`.  `h` is the memory after the
allocations: `h.input_image` is the pixel data of the input image,
`h.output_image` the pixel data of the image `wbImage_new` returned, the other
buffers are uninitialised.  `schedules i` is the schedule of pass `i`.  The
result is the memory on return; the returned image is `output_image`. -/
def iterative_histogram_equalization (width height : Nat) (h : Heap) (iterations : Int)
    (schedules : Nat → Schedule) : Option Heap :=
  (for_loop (driver_step width height schedules) 0 iterations.toNat
    (some (Buf.input, h))).map Prod.snd

/-- Memory of a driver run on an image of one pixel with the samples
`r`, `g`, `b`: the output image is zeroed and the scratch buffers hold
arbitrary values. -/
def one_pixel_heap (r g b : ℚ) : Heap :=
  Heap.mk [r, g, b] [0, 0, 0] [9, 9, 9] [7] (List.replicate 256 5)
    (List.replicate 256 CFloat.nan)

/-- The expression of the spec for the corrected byte,
`clamp(round(255 * (cdf_val - cdf_min) / (1 - cdf_min)), 0, 255)`: rounding to
the nearest integer, then saturation into `[0, 255]`. -/
def corrector_spec (cdf_val cdf_min : ℚ) : Int :=
  max 0 (min 255 (round (255 * (cdf_val - cdf_min) / (1 - cdf_min))))

/-- The value of `255 * (cdf_val - cdf_min) / (1 - cdf_min)` in `float`
arithmetic, for finite arguments and a non-zero divisor: the two differences,
the product and the quotient are rounded. -/
def corrector_quotient (cdf_val cdf_min : ℚ) : ℚ :=
  round32 (round32 (255 * round32 (cdf_val - cdf_min)) / round32 (1 - cdf_min))

/-- A histogram of an image of 6537 x 5133 = 33554421 pixels: 33554084 pixels
of luma `0`, one pixel of each luma `1..167`, two pixels of each luma
`168..252`, and no pixel of a luma above `252`. -/
def wide_histogram : List Int :=
  33554084 :: (List.replicate 167 1 ++ (List.replicate 85 2 ++ List.replicate 3 0))

/-- The lumas of the pixels of `wide_image` that are not black: each luma
`1..167` once, each luma `168..252` twice. -/
def wide_lumas : List Nat :=
  (List.range 167).map (fun j => j + 1) ++ (List.range 170).map (fun j => 168 + j / 2)

/-- Pixel data of an image of 6537 x 5133 pixels whose histogram is
`wide_histogram`: for every luma `v` of `wide_lumas` a grey pixel of the byte
`v + (v + 98) / 99`, whose luma is `v`, then 33554084 black pixels.  The
sample of a byte `b` is the `float` nearest to `b / 255`. -/
def wide_image : List ℚ :=
  wide_lumas.flatMap
      (fun v => List.replicate 3 (round32 (((v + (v + 98) / 99 : Nat) : ℚ) / 255)))
    ++ List.replicate (33554084 * 3) 0

/-- Pixel data of an image of 640 x 480 pixels: a pixel with the three samples
`0.25`, a pixel with the three samples `0.5`, five white pixels and 307193
black pixels. -/
def dark_image : List ℚ :=
  [1 / 4, 1 / 4, 1 / 4, 1 / 2, 1 / 2, 1 / 2] ++ (List.replicate 15 1 ++ List.replicate 921579 0)

/-- Memory of a driver run on `dark_image`: the output image and the scratch
buffers have the allocated sizes and are zeroed. -/
def dark_image_heap : Heap :=
  Heap.mk dark_image (List.replicate 921600 0) (List.replicate 921600 0)
    (List.replicate 307200 0) (List.replicate 256 0) (List.replicate 256 CFloat.nan)

/-- The luma byte the fused loop stores for pixel `i`: the luma of the three
bytes converted from the samples of the pixel. -/
def pixel_luma (input_image_data : List ℚ) (i : Nat) : Nat :=
  luma (to_uchar (round32 (255 * input_image_data.getD (3 * i) 0)))
    (to_uchar (round32 (255 * input_image_data.getD (3 * i + 1) 0)))
    (to_uchar (round32 (255 * input_image_data.getD (3 * i + 2) 0)))

/-- A single sequential count over all pixels: starting from 256 zeroed bins,
`histogram[gray_image[i]]++` for `i = 0 .. size - 1`. -/
def sequential_histogram (gray_image : List Nat) (size : Nat) : List Int :=
  for_loop
    (fun i h => h.set (gray_image.getD i 0) (h.getD (gray_image.getD i 0) 0 + 1))
    0 size (List.replicate HISTOGRAM_LENGTH 0)

/-- One pass of `histogram_equalization` on buffers of its own: the pass reads
`data` as the input image and writes the output image of `buffers`; the
result is the pixel data written. -/
def fresh_pass (width height : Nat) (buffers : Heap) (schedule : Schedule)
    (data : List ℚ) : Option (List ℚ) :=
  (histogram_equalization width height Buf.input { buffers with input_image := data }
    schedule).map Heap.output_image

/-- The single-pass transform applied `n` times in succession, pass `i` on the
buffers `buffers i` and fed the pixel data the previous pass produced. -/
def repeated_passes (width height : Nat) (buffers : Nat → Heap)
    (schedules : Nat → Schedule) : Nat → List ℚ → Option (List ℚ)
  | 0, data => some data
  | n + 1, data =>
      (repeated_passes width height buffers schedules n data).bind
        (fresh_pass width height (buffers n) (schedules n))

/-- The buffers of the driver have the sizes it allocates them with: `3 *
width * height` samples for the output image and the byte buffer, `width *
height` for the luma buffer, 256 entries for the histogram and the CDF. -/
def Heap.Allocated (h : Heap) (width height : Nat) : Prop :=
  h.output_image.length = width * height * 3 ∧
  h.uchar_image.length = width * height * 3 ∧
  h.gray_image.length = width * height ∧
  h.histogram.length = HISTOGRAM_LENGTH ∧
  h.cdf.length = HISTOGRAM_LENGTH

instance (h : Heap) (width height : Nat) : Decidable (h.Allocated width height) := by
  unfold Heap.Allocated
  infer_instance

/-- Memory of a driver run on the image of one row of two pixels, black and
white: the output image is zeroed and the scratch buffers hold arbitrary
values. -/
def two_pixel_heap : Heap :=
  Heap.mk [0, 0, 0, 1, 1, 1] [0, 0, 0, 0, 0, 0] [9, 9, 9, 9, 9, 9] [7, 7]
    (List.replicate 256 5) (List.replicate 256 CFloat.nan)

/-! ## Theorems -/

/-! ### Rounding -/

theorem bit_length_zero (fuel : Nat) : bit_length fuel 0 = 0 := by
  cases fuel <;> simp [bit_length]

/-- With enough fuel `bit_length` is the number of binary digits. -/
theorem bit_length_spec (fuel : Nat) : ∀ n : Nat, n ≠ 0 → n < 2 ^ fuel →
    1 ≤ bit_length fuel n ∧ 2 ^ (bit_length fuel n - 1) ≤ n ∧ n < 2 ^ bit_length fuel n := by
  induction fuel with
  | zero =>
    intro n hn hf
    simp at hf
    omega
  | succ fuel ih =>
    intro n hn hf
    have hbl : bit_length (fuel + 1) n = bit_length fuel (n / 2) + 1 := by
      simp only [bit_length, if_neg hn]
    rw [hbl]
    by_cases h2 : n / 2 = 0
    · rw [h2, bit_length_zero]
      have h1 : n = 1 := by omega
      subst h1
      simp
    · have hlt : n / 2 < 2 ^ fuel := by
        rw [pow_succ] at hf
        omega
      obtain ⟨h1, h3, h4⟩ := ih (n / 2) h2 hlt
      refine ⟨by omega, ?_, ?_⟩
      · rw [Nat.add_sub_cancel]
        have h5 : 2 ^ bit_length fuel (n / 2) = 2 * 2 ^ (bit_length fuel (n / 2) - 1) := by
          conv_lhs => rw [← Nat.sub_add_cancel h1]
          rw [pow_succ]
          ring
        omega
      · rw [pow_succ]
        omega

/-- The digit count of a positive natural, as bounds by powers of two. -/
theorem bit_length_zpow (n : Nat) (hn : n ≠ 0) :
    (2 : ℚ) ^ ((bit_length n n : Int) - 1) ≤ (n : ℚ) ∧
      (n : ℚ) < (2 : ℚ) ^ (bit_length n n : Int) := by
  obtain ⟨h1, h2, h3⟩ := bit_length_spec n n hn (Nat.lt_two_pow n)
  constructor
  · have h4 : ((bit_length n n : Int) - 1) = ((bit_length n n - 1 : Nat) : Int) := by
      omega
    rw [h4, zpow_natCast]
    exact_mod_cast h2
  · rw [zpow_natCast]
    exact_mod_cast h3

theorem abs_eq_natAbs_div_den (x : ℚ) : |x| = (x.num.natAbs : ℚ) / (x.den : ℚ) := by
  have h1 : ((x.num.natAbs : Nat) : ℚ) = |(x.num : ℚ)| := by
    rw [Nat.cast_natAbs, Int.cast_abs]
  rw [h1]
  conv_lhs => rw [← Rat.num_div_den x]
  rw [abs_div, Nat.abs_cast]

/-- `ilog2 x` is the binary exponent of a non-zero `x`. -/
theorem ilog2_spec (x : ℚ) (hx : x ≠ 0) :
    (2 : ℚ) ^ ilog2 x ≤ |x| ∧ |x| < (2 : ℚ) ^ (ilog2 x + 1) := by
  have hn : x.num.natAbs ≠ 0 := by
    rw [Ne, Int.natAbs_eq_zero]
    exact Rat.num_ne_zero.mpr hx
  have hd : x.den ≠ 0 := x.den_nz
  obtain ⟨a1, a2⟩ := bit_length_zpow x.num.natAbs hn
  obtain ⟨b1, b2⟩ := bit_length_zpow x.den hd
  have hdpos : (0 : ℚ) < (x.den : ℚ) := by exact_mod_cast Nat.pos_of_ne_zero hd
  have hnpos : (0 : ℚ) < (x.num.natAbs : ℚ) := by exact_mod_cast Nat.pos_of_ne_zero hn
  have habs := abs_eq_natAbs_div_den x
  have hdef : ilog2 x =
      if (2 : ℚ) ^ ((bit_length x.num.natAbs x.num.natAbs : Int) - (bit_length x.den x.den : Int))
          ≤ |x| then
        (bit_length x.num.natAbs x.num.natAbs : Int) - (bit_length x.den x.den : Int)
      else (bit_length x.num.natAbs x.num.natAbs : Int) - (bit_length x.den x.den : Int) - 1 :=
    rfl
  generalize (bit_length x.num.natAbs x.num.natAbs : Int) = A at a1 a2 hdef
  generalize (bit_length x.den x.den : Int) = B at b1 b2 hdef
  have h2 : (0 : ℚ) < 2 := by norm_num
  have h2ne : (2 : ℚ) ≠ 0 := by norm_num
  have hup : |x| < (2 : ℚ) ^ (A - B + 1) := by
    have e1 : (2 : ℚ) ^ (A - B + 1) = (2 : ℚ) ^ A / (2 : ℚ) ^ (B - 1) := by
      rw [← zpow_sub₀ h2ne]
      congr 1
      ring
    rw [e1, habs]
    calc (x.num.natAbs : ℚ) / (x.den : ℚ)
        ≤ (x.num.natAbs : ℚ) / (2 : ℚ) ^ (B - 1) :=
          div_le_div_of_nonneg_left hnpos.le (zpow_pos h2 _) b1
      _ < (2 : ℚ) ^ A / (2 : ℚ) ^ (B - 1) :=
          div_lt_div_of_pos_right a2 (zpow_pos h2 _)
  have hlo : (2 : ℚ) ^ (A - B - 1) ≤ |x| := by
    have e1 : (2 : ℚ) ^ (A - B - 1) = (2 : ℚ) ^ (A - 1) / (2 : ℚ) ^ B := by
      rw [← zpow_sub₀ h2ne]
      congr 1
      ring
    rw [e1, habs]
    calc (2 : ℚ) ^ (A - 1) / (2 : ℚ) ^ B
        ≤ (2 : ℚ) ^ (A - 1) / (x.den : ℚ) :=
          div_le_div_of_nonneg_left (zpow_pos h2 _).le hdpos b2.le
      _ ≤ (x.num.natAbs : ℚ) / (x.den : ℚ) :=
          div_le_div_of_nonneg_right a1 hdpos.le
  rw [hdef]
  split_ifs with hc
  · exact ⟨hc, hup⟩
  · refine ⟨hlo, ?_⟩
    rw [sub_add_cancel]
    exact lt_of_not_le hc

/-- The binary exponent is determined by the two bounds. -/
theorem ilog2_unique (x : ℚ) (e : Int) (h1 : (2 : ℚ) ^ e ≤ |x|) (h2 : |x| < (2 : ℚ) ^ (e + 1)) :
    ilog2 x = e := by
  have hx : x ≠ 0 := by
    intro h
    rw [h, abs_zero] at h1
    exact absurd h1 (not_le.mpr (zpow_pos (by norm_num) _))
  obtain ⟨s1, s2⟩ := ilog2_spec x hx
  have one_lt : (1 : ℚ) < 2 := by norm_num
  have h3 : e < ilog2 x + 1 := (zpow_lt_zpow_iff_right₀ one_lt).mp (lt_of_le_of_lt h1 s2)
  have h4 : ilog2 x < e + 1 := (zpow_lt_zpow_iff_right₀ one_lt).mp (lt_of_le_of_lt s1 h2)
  omega

/-- `round_half_even` is within one half of its argument. -/
theorem round_half_even_spec (y : ℚ) :
    (round_half_even y : ℚ) - 1 / 2 ≤ y ∧ y ≤ (round_half_even y : ℚ) + 1 / 2 := by
  have h1 := Int.floor_le y
  have h2 := Int.lt_floor_add_one y
  unfold round_half_even
  split_ifs with c1 c2 c3
  · constructor <;> linarith
  · push_cast
    constructor <;> linarith
  · constructor <;> linarith
  · push_cast
    constructor <;> linarith

theorem floor_le_round_half_even (y : ℚ) : ⌊y⌋ ≤ round_half_even y := by
  unfold round_half_even
  split_ifs <;> omega

theorem round_half_even_le_floor_succ (y : ℚ) : round_half_even y ≤ ⌊y⌋ + 1 := by
  unfold round_half_even
  split_ifs <;> omega

theorem round_half_even_intCast (n : Int) : round_half_even (n : ℚ) = n := by
  unfold round_half_even
  rw [Int.floor_intCast]
  norm_num

theorem round_half_even_mono (y z : ℚ) (h : y ≤ z) : round_half_even y ≤ round_half_even z := by
  rcases lt_or_eq_of_le (Int.floor_le_floor h) with hf | hf
  · calc round_half_even y ≤ ⌊y⌋ + 1 := round_half_even_le_floor_succ y
      _ ≤ ⌊z⌋ := hf
      _ ≤ round_half_even z := floor_le_round_half_even z
  · unfold round_half_even
    rw [← hf]
    split_ifs with c1 c2 c3 c4 c5 c6 c7 c8 c9 <;> first | omega | (exfalso; linarith)

theorem round_to_zero (p : Nat) : round_to p 0 = 0 := by
  simp [round_to]

theorem round_to_of_ne (p : Nat) (x : ℚ) (hx : x ≠ 0) :
    round_to p x =
      (round_half_even (x / (2 : ℚ) ^ (ilog2 x - ((p : Int) - 1))) : ℚ)
        * (2 : ℚ) ^ (ilog2 x - ((p : Int) - 1)) := by
  rw [round_to, if_neg hx]

/-- The scale of the rounding times `2 ^ (p - 1)` is the power of two below `|x|`. -/
theorem scale_mul (p : Nat) (e : Int) :
    (2 : ℚ) ^ (e - ((p : Int) - 1)) * ((2 : ℚ) ^ p / 2) = (2 : ℚ) ^ e := by
  have h2ne : (2 : ℚ) ≠ 0 := by norm_num
  have e1 : (2 : ℚ) ^ p / 2 = (2 : ℚ) ^ ((p : Int) - 1) := by
    rw [zpow_sub_one₀ h2ne, zpow_natCast, div_eq_mul_inv]
  rw [e1, ← zpow_add₀ h2ne]
  congr 1
  ring

/-- The rounding error is at most `|x| / 2 ^ p`. -/
theorem round_to_abs_err (p : Nat) (x : ℚ) : |round_to p x - x| ≤ |x| / (2 : ℚ) ^ p := by
  by_cases hx : x = 0
  · rw [hx, round_to_zero]
    simp
  · rw [round_to_of_ne p x hx]
    obtain ⟨s1, _⟩ := ilog2_spec x hx
    have hs : (0 : ℚ) < (2 : ℚ) ^ (ilog2 x - ((p : Int) - 1)) := zpow_pos (by norm_num) _
    have hsm := scale_mul p (ilog2 x)
    generalize (2 : ℚ) ^ (ilog2 x - ((p : Int) - 1)) = s at hs hsm ⊢
    obtain ⟨r1, r2⟩ := round_half_even_spec (x / s)
    have hpp : (0 : ℚ) < (2 : ℚ) ^ p := pow_pos (by norm_num) _
    have e1 : (round_half_even (x / s) : ℚ) * s - x = ((round_half_even (x / s) : ℚ) - x / s) * s := by
      field_simp
    rw [e1, abs_mul, abs_of_pos hs, le_div_iff₀ hpp]
    have h3 : |(round_half_even (x / s) : ℚ) - x / s| ≤ 1 / 2 := by
      rw [abs_le]
      constructor <;> linarith
    calc |(round_half_even (x / s) : ℚ) - x / s| * s * (2 : ℚ) ^ p
        ≤ 1 / 2 * s * (2 : ℚ) ^ p := by
          apply mul_le_mul_of_nonneg_right _ hpp.le
          exact mul_le_mul_of_nonneg_right h3 hs.le
      _ = s * ((2 : ℚ) ^ p / 2) := by ring
      _ = (2 : ℚ) ^ ilog2 x := hsm
      _ ≤ |x| := s1

theorem one_le_two_pow (p : Nat) : (1 : ℚ) ≤ (2 : ℚ) ^ p := one_le_pow₀ (by norm_num)

/-- Rounding a non-negative number loses at most the fraction `1 / 2 ^ p`. -/
theorem round_to_lower (p : Nat) (x : ℚ) (hx : 0 ≤ x) :
    x * (1 - 1 / (2 : ℚ) ^ p) ≤ round_to p x := by
  have h := round_to_abs_err p x
  rw [abs_of_nonneg hx, abs_le] at h
  have e : x * (1 - 1 / (2 : ℚ) ^ p) = x - x / (2 : ℚ) ^ p := by ring
  rw [e]
  linarith [h.1]

/-- Rounding a non-negative number adds at most the fraction `1 / 2 ^ p`. -/
theorem round_to_upper (p : Nat) (x : ℚ) (hx : 0 ≤ x) :
    round_to p x ≤ x * (1 + 1 / (2 : ℚ) ^ p) := by
  have h := round_to_abs_err p x
  rw [abs_of_nonneg hx, abs_le] at h
  have e : x * (1 + 1 / (2 : ℚ) ^ p) = x + x / (2 : ℚ) ^ p := by ring
  rw [e]
  linarith [h.2]

theorem round_to_nonneg (p : Nat) (x : ℚ) (hx : 0 ≤ x) : 0 ≤ round_to p x := by
  refine le_trans ?_ (round_to_lower p x hx)
  apply mul_nonneg hx
  rw [sub_nonneg, div_le_one (pow_pos (by norm_num) _)]
  exact one_le_two_pow p

/-- The scaled value of a positive `x` has `p` binary digits in its integer part. -/
theorem scaled_bounds (p : Nat) (x : ℚ) (hx : 0 < x) :
    (2 : ℚ) ^ p / 2 ≤ x / (2 : ℚ) ^ (ilog2 x - ((p : Int) - 1)) ∧
      x / (2 : ℚ) ^ (ilog2 x - ((p : Int) - 1)) < (2 : ℚ) ^ p := by
  obtain ⟨s1, s2⟩ := ilog2_spec x hx.ne.symm
  rw [abs_of_pos hx] at s1 s2
  have hs : (0 : ℚ) < (2 : ℚ) ^ (ilog2 x - ((p : Int) - 1)) := zpow_pos (by norm_num) _
  have hsm := scale_mul p (ilog2 x)
  have e2 : (2 : ℚ) ^ (ilog2 x + 1) = 2 * (2 : ℚ) ^ ilog2 x := by
    rw [zpow_add_one₀ (by norm_num)]
    ring
  rw [e2] at s2
  generalize (2 : ℚ) ^ (ilog2 x - ((p : Int) - 1)) = s at hs hsm ⊢
  rw [le_div_iff₀ hs, div_lt_iff₀ hs]
  constructor
  · rw [mul_comm, hsm]
    exact s1
  · have : (2 : ℚ) ^ p * s = 2 * (s * ((2 : ℚ) ^ p / 2)) := by ring
    rw [this, hsm]
    exact s2

/-- A positive number rounds to at least the power of two below it. -/
theorem two_zpow_le_round_to (p : Nat) (hp : 1 ≤ p) (x : ℚ) (hx : 0 < x) :
    (2 : ℚ) ^ ilog2 x ≤ round_to p x := by
  rw [round_to_of_ne p x hx.ne.symm]
  obtain ⟨b1, _⟩ := scaled_bounds p x hx
  have hs : (0 : ℚ) < (2 : ℚ) ^ (ilog2 x - ((p : Int) - 1)) := zpow_pos (by norm_num) _
  have hsm := scale_mul p (ilog2 x)
  generalize (2 : ℚ) ^ (ilog2 x - ((p : Int) - 1)) = s at hs hsm b1 ⊢
  have e1 : (2 : ℚ) ^ p / 2 = (((2 : Int) ^ (p - 1) : Int) : ℚ) := by
    obtain ⟨k, rfl⟩ : ∃ k, p = k + 1 := ⟨p - 1, by omega⟩
    rw [Nat.add_sub_cancel, pow_succ]
    push_cast
    ring
  rw [e1] at b1 hsm
  have h3 := round_half_even_mono _ _ b1
  rw [round_half_even_intCast] at h3
  have h4 : (((2 : Int) ^ (p - 1) : Int) : ℚ) ≤ (round_half_even (x / s) : ℚ) := by
    exact_mod_cast h3
  calc (2 : ℚ) ^ ilog2 x = (((2 : Int) ^ (p - 1) : Int) : ℚ) * s := by rw [← hsm]; ring
    _ ≤ (round_half_even (x / s) : ℚ) * s := mul_le_mul_of_nonneg_right h4 hs.le

/-- A positive number rounds to at most the power of two above it. -/
theorem round_to_le_two_zpow (p : Nat) (x : ℚ) (hx : 0 < x) :
    round_to p x ≤ (2 : ℚ) ^ (ilog2 x + 1) := by
  rw [round_to_of_ne p x hx.ne.symm]
  obtain ⟨_, b2⟩ := scaled_bounds p x hx
  have hs : (0 : ℚ) < (2 : ℚ) ^ (ilog2 x - ((p : Int) - 1)) := zpow_pos (by norm_num) _
  have hsm := scale_mul p (ilog2 x)
  have e2 : (2 : ℚ) ^ (ilog2 x + 1) = 2 * (2 : ℚ) ^ ilog2 x := by
    rw [zpow_add_one₀ (by norm_num)]
    ring
  rw [e2]
  generalize (2 : ℚ) ^ (ilog2 x - ((p : Int) - 1)) = s at hs hsm b2 ⊢
  have e1 : (2 : ℚ) ^ p = (((2 : Int) ^ p : Int) : ℚ) := by push_cast; rfl
  have h3 := round_half_even_mono _ _ b2.le
  rw [e1, round_half_even_intCast] at h3
  have h4 : (round_half_even (x / s) : ℚ) ≤ (2 : ℚ) ^ p := by
    rw [e1]
    exact_mod_cast h3
  calc (round_half_even (x / s) : ℚ) * s ≤ (2 : ℚ) ^ p * s := mul_le_mul_of_nonneg_right h4 hs.le
    _ = 2 * (s * ((2 : ℚ) ^ p / 2)) := by ring
    _ = 2 * (2 : ℚ) ^ ilog2 x := by rw [hsm]

theorem round_to_pos (p : Nat) (hp : 1 ≤ p) (x : ℚ) (hx : 0 < x) : 0 < round_to p x :=
  lt_of_lt_of_le (zpow_pos (by norm_num) _) (two_zpow_le_round_to p hp x hx)

/-- Rounding is monotone on the non-negative numbers. -/
theorem round_to_mono (p : Nat) (hp : 1 ≤ p) (x y : ℚ) (hx : 0 ≤ x) (hxy : x ≤ y) :
    round_to p x ≤ round_to p y := by
  rcases eq_or_lt_of_le hx with h0 | hpos
  · rw [← h0, round_to_zero]
    exact round_to_nonneg p y (le_trans hx hxy)
  · have hy : 0 < y := lt_of_lt_of_le hpos hxy
    obtain ⟨x1, x2⟩ := ilog2_spec x hpos.ne.symm
    obtain ⟨y1, y2⟩ := ilog2_spec y hy.ne.symm
    rw [abs_of_pos hpos] at x1 x2
    rw [abs_of_pos hy] at y1 y2
    have one_lt : (1 : ℚ) < 2 := by norm_num
    have hle : ilog2 x < ilog2 y + 1 :=
      (zpow_lt_zpow_iff_right₀ one_lt).mp (lt_of_le_of_lt (le_trans x1 hxy) y2)
    rcases eq_or_lt_of_le (Int.lt_add_one_iff.mp hle) with he | hlt
    · rw [round_to_of_ne p x hpos.ne.symm, round_to_of_ne p y hy.ne.symm, he]
      have hs : (0 : ℚ) < (2 : ℚ) ^ (ilog2 y - ((p : Int) - 1)) := zpow_pos (by norm_num) _
      apply mul_le_mul_of_nonneg_right _ hs.le
      have h3 := round_half_even_mono _ _ (div_le_div_of_nonneg_right hxy hs.le)
      exact_mod_cast h3
    · calc round_to p x ≤ (2 : ℚ) ^ (ilog2 x + 1) := round_to_le_two_zpow p x hpos
        _ ≤ (2 : ℚ) ^ ilog2 y := zpow_le_zpow_right₀ one_lt.le (by omega)
        _ ≤ round_to p y := two_zpow_le_round_to p hp y hy

/-- A number of the form `m * 2 ^ (e - (p - 1))` with `e` its binary exponent
is a floating-point number of `p` bits: rounding leaves it as it is. -/
theorem round_to_of_scaled (p : Nat) (x : ℚ) (m : Int)
    (h : x = (m : ℚ) * (2 : ℚ) ^ (ilog2 x - ((p : Int) - 1))) : round_to p x = x := by
  by_cases hx : x = 0
  · rw [hx, round_to_zero]
  · rw [round_to_of_ne p x hx]
    have hs : (0 : ℚ) < (2 : ℚ) ^ (ilog2 x - ((p : Int) - 1)) := zpow_pos (by norm_num) _
    have e1 : x / (2 : ℚ) ^ (ilog2 x - ((p : Int) - 1)) = (m : ℚ) := by
      rw [div_eq_iff hs.ne.symm]
      exact h
    rw [e1, round_half_even_intCast]
    exact h.symm

/-- Rounding is idempotent: the rounding of a non-negative number is a
floating-point number. -/
theorem round_to_idem (p : Nat) (hp : 1 ≤ p) (x : ℚ) (hx : 0 ≤ x) :
    round_to p (round_to p x) = round_to p x := by
  rcases eq_or_lt_of_le hx with h0 | hpos
  · rw [← h0, round_to_zero, round_to_zero]
  · have hr := round_to_pos p hp x hpos
    have h1 := two_zpow_le_round_to p hp x hpos
    have h2 := round_to_le_two_zpow p x hpos
    rcases eq_or_lt_of_le h2 with heq | hlt
    · have he : ilog2 (round_to p x) = ilog2 x + 1 := by
        apply ilog2_unique
        · rw [abs_of_pos hr, heq]
        · rw [abs_of_pos hr, heq]
          exact zpow_lt_zpow_right₀ (by norm_num) (by omega)
      apply round_to_of_scaled p _ ((2 : Int) ^ (p - 1))
      rw [he]
      have hsm := scale_mul p (ilog2 x + 1)
      have e1 : (2 : ℚ) ^ p / 2 = (((2 : Int) ^ (p - 1) : Int) : ℚ) := by
        obtain ⟨k, rfl⟩ : ∃ k, p = k + 1 := ⟨p - 1, by omega⟩
        rw [Nat.add_sub_cancel, pow_succ]
        push_cast
        ring
      rw [heq, ← hsm, e1]
      ring
    · have he : ilog2 (round_to p x) = ilog2 x := by
        apply ilog2_unique
        · rw [abs_of_pos hr]
          exact h1
        · rw [abs_of_pos hr]
          exact hlt
      apply round_to_of_scaled p _
        (round_half_even (x / (2 : ℚ) ^ (ilog2 x - ((p : Int) - 1))))
      rw [he]
      exact round_to_of_ne p x hpos.ne.symm

theorem getD_set_self {α : Type} (a : List α) (i : Nat) (v d : α) (h : i < a.length) :
    (a.set i v).getD i d = v := by
  simp [List.getD_eq_getElem?_getD, List.getElem?_set, h]

theorem getD_set_of_ne {α : Type} (a : List α) {i j : Nat} (v d : α) (h : i ≠ j) :
    (a.set i v).getD j d = a.getD j d := by
  simp [List.getD_eq_getElem?_getD, List.getElem?_set, h]

theorem getD_of_length_le {α : Type} (a : List α) (i : Nat) (d : α) (h : a.length ≤ i) :
    a.getD i d = d := by
  simp [List.getD_eq_getElem?_getD, List.getElem?_eq_none h]

theorem for_loop_succ_last {σ : Type} (body : Nat → σ → σ) (n lo : Nat) (s : σ) :
    for_loop body lo (n + 1) s = body (lo + n) (for_loop body lo n s) := by
  induction n generalizing lo s with
  | zero => simp [for_loop]
  | succ n ih =>
    have h : lo + 1 + n = lo + (n + 1) := by omega
    rw [for_loop, ih, for_loop, h]

theorem for_loop_set_length {α : Type} (f : Nat → List α → α) (n lo : Nat) (a : List α) :
    (for_loop (fun i h => h.set i (f i h)) lo n a).length = a.length := by
  induction n generalizing lo a with
  | zero => simp [for_loop]
  | succ n ih => simp [for_loop, ih]

theorem for_loop_pointwise {α : Type} (f : Nat → α → α) (d : α) (n lo : Nat) (a : List α)
    (j : Nat) :
    (for_loop (fun i h => h.set i (f i (h.getD i d))) lo n a).getD j d =
      if lo ≤ j ∧ j < lo + n ∧ j < a.length then f j (a.getD j d) else a.getD j d := by
  induction n generalizing lo a with
  | zero =>
    have : ¬ (lo ≤ j ∧ j < lo + 0 ∧ j < a.length) := by omega
    rw [if_neg this]
    rfl
  | succ n ih =>
    rw [for_loop, ih]
    by_cases hj : lo = j
    · subst hj
      have h1 : ¬ (lo + 1 ≤ lo ∧ lo < lo + 1 + n ∧ lo < (a.set lo (f lo (a.getD lo d))).length) := by
        omega
      rw [if_neg h1]
      by_cases hlen : lo < a.length
      · have h2 : lo ≤ lo ∧ lo < lo + (n + 1) ∧ lo < a.length := by omega
        rw [if_pos h2, getD_set_self _ _ _ _ hlen]
      · have h2 : ¬ (lo ≤ lo ∧ lo < lo + (n + 1) ∧ lo < a.length) := by omega
        rw [if_neg h2, getD_of_length_le _ _ _ (by simpa using hlen),
          getD_of_length_le _ _ _ (by simpa using hlen)]
    · rw [getD_set_of_ne _ _ _ hj, List.length_set]
      by_cases hc : lo + 1 ≤ j ∧ j < lo + 1 + n ∧ j < a.length
      · have h2 : lo ≤ j ∧ j < lo + (n + 1) ∧ j < a.length := by omega
        rw [if_pos hc, if_pos h2]
      · have h2 : ¬ (lo ≤ j ∧ j < lo + (n + 1) ∧ j < a.length) := by omega
        rw [if_neg hc, if_neg h2]

theorem to_uchar_lt (q : ℚ) : to_uchar q < 256 := by
  unfold to_uchar
  have h1 := Int.emod_nonneg (truncate q) (by norm_num : (256 : Int) ≠ 0)
  have h2 := Int.emod_lt_of_pos (truncate q) (by norm_num : (0 : Int) < 256)
  omega

theorem fill_zero_length (histogram : List Int) : (fill_zero histogram).length = histogram.length := by
  unfold fill_zero
  exact for_loop_set_length (fun _ _ => 0) _ _ _

theorem fill_zero_getD (histogram : List Int) (v : Nat) (hv : v < HISTOGRAM_LENGTH) :
    (fill_zero histogram).getD v 0 = 0 := by
  unfold fill_zero
  rw [for_loop_pointwise (fun _ _ => (0 : Int)) 0]
  split
  · rfl
  · rename_i h
    exact getD_of_length_le _ _ _ (by omega)

theorem merge_histogram_length (histogram l : List Int) :
    (merge_histogram histogram l).length = histogram.length := by
  unfold merge_histogram
  exact for_loop_set_length (fun i h => h.getD i 0 + l.getD i 0) _ _ _

theorem merge_histogram_getD (histogram l : List Int) (v : Nat)
    (hv : v < HISTOGRAM_LENGTH) (hlen : histogram.length = HISTOGRAM_LENGTH) :
    (merge_histogram histogram l).getD v 0 = histogram.getD v 0 + l.getD v 0 := by
  unfold merge_histogram
  rw [for_loop_pointwise (fun i x => x + l.getD i 0) 0]
  rw [if_pos]
  omega

theorem local_histogram_init_length : local_histogram_init.length = HISTOGRAM_LENGTH := by
  simp [local_histogram_init]

theorem local_histogram_init_getD (v : Nat) : local_histogram_init.getD v 0 = 0 := by
  simp [local_histogram_init, List.getD_eq_getElem?_getD, List.getElem?_replicate]
  split <;> simp

/-- The effect of `l[x]++` on bin `v` of a 256-bin counter, for a byte `x`. -/
theorem increment_getD (l : List Int) (x v : Nat) (hl : l.length = HISTOGRAM_LENGTH)
    (hx : x < HISTOGRAM_LENGTH) :
    (l.set x (l.getD x 0 + 1)).getD v 0 = l.getD v 0 + (if x = v then 1 else 0) := by
  by_cases h : x = v
  · subst h
    rw [getD_set_self _ _ _ _ (by omega), if_pos rfl]
  · rw [getD_set_of_ne _ _ _ h, if_neg h, add_zero]

/-- The luma byte one iteration of the fused loop stores is below 256, also
when read back outside the buffer. -/
theorem process_pixel_gray_lt (input : List ℚ) (i : Nat) (s : List Nat × List Nat × List Int) :
    (process_pixel input i s).2.1.getD i 0 < HISTOGRAM_LENGTH := by
  simp only [process_pixel]
  by_cases h : i < s.2.1.length
  · rw [getD_set_self _ _ _ _ h]
    exact to_uchar_lt _
  · rw [getD_of_length_le _ _ _ (by simpa using h)]
    decide

/-- A chunk of the fused loop: the luma buffer changes only at the indices of
the chunk, and the local histogram grows, bin by bin, by the number of pixels
of the chunk with that luma. -/
theorem process_chunk_spec (input : List ℚ) (chunk : List Nat)
    (s : List Nat × List Nat × List Int)
    (hl : s.2.2.length = HISTOGRAM_LENGTH) (hnd : chunk.Nodup) :
    (chunk.foldl (fun s i => process_pixel input i s) s).2.2.length = HISTOGRAM_LENGTH ∧
    (∀ j, j ∉ chunk →
      (chunk.foldl (fun s i => process_pixel input i s) s).2.1.getD j 0 = s.2.1.getD j 0) ∧
    (∀ v, v < HISTOGRAM_LENGTH →
      (chunk.foldl (fun s i => process_pixel input i s) s).2.2.getD v 0 =
        s.2.2.getD v 0 +
          (chunk.countP (fun i =>
            decide ((chunk.foldl (fun s i => process_pixel input i s) s).2.1.getD i 0 = v)) : Nat)) := by
  induction chunk generalizing s with
  | nil => simpa using hl
  | cons i rest ih =>
    have hnd2 := List.nodup_cons.mp hnd
    have hlen1 : (process_pixel input i s).2.2.length = HISTOGRAM_LENGTH := by
      simp only [process_pixel, List.length_set]
      exact hl
    obtain ⟨h1, h2, h3⟩ := ih (process_pixel input i s) hlen1 hnd2.2
    simp only [List.foldl_cons]
    refine ⟨h1, ?_, ?_⟩
    · intro j hj
      have hj2 : j ∉ rest := fun h => hj (List.mem_cons_of_mem _ h)
      have hji : i ≠ j := fun h => hj (h ▸ List.mem_cons_self _ _)
      rw [h2 j hj2]
      simp only [process_pixel]
      exact getD_set_of_ne _ _ _ hji
    · intro v hv
      have hgi := h2 i hnd2.1
      have hstep : (process_pixel input i s).2.2.getD v 0 =
          s.2.2.getD v 0 + (if (process_pixel input i s).2.1.getD i 0 = v then 1 else 0) := by
        have hx := process_pixel_gray_lt input i s
        simp only [process_pixel] at hx ⊢
        exact increment_getD _ _ _ hl hx
      rw [h3 v hv, List.countP_cons, hstep]
      simp only [hgi, decide_eq_true_eq]
      by_cases hc : (process_pixel input i s).2.1.getD i 0 = v
      · simp only [hc, if_true]
        push_cast
        ring
      · simp only [hc, if_false]
        push_cast
        ring

/-- A whole team of the fused kernel: the luma buffer changes only at the
scheduled indices, and every bin of the shared histogram grows by the number
of scheduled pixels with that luma. -/
theorem process_schedule_spec (input : List ℚ) (schedule : Schedule) (p : Projected)
    (hl : p.histogram.length = HISTOGRAM_LENGTH) (hnd : schedule.flatten.Nodup) :
    (schedule.foldl (process_thread input) p).histogram.length = HISTOGRAM_LENGTH ∧
    (∀ j, j ∉ schedule.flatten →
      (schedule.foldl (process_thread input) p).gray_image.getD j 0 = p.gray_image.getD j 0) ∧
    (∀ v, v < HISTOGRAM_LENGTH →
      (schedule.foldl (process_thread input) p).histogram.getD v 0 =
        p.histogram.getD v 0 +
          (schedule.flatten.countP (fun i =>
            decide ((schedule.foldl (process_thread input) p).gray_image.getD i 0 = v)) : Nat)) := by
  induction schedule generalizing p with
  | nil => simpa using hl
  | cons chunk rest ih =>
    rw [List.flatten_cons, List.nodup_append] at hnd
    obtain ⟨hc, hr, hdisj⟩ := hnd
    obtain ⟨c1, c2, c3⟩ := process_chunk_spec input chunk
      (p.uchar_image, p.gray_image, local_histogram_init) local_histogram_init_length hc
    have hlen1 : (process_thread input p chunk).histogram.length = HISTOGRAM_LENGTH := by
      simp only [process_thread, merge_histogram_length]
      exact hl
    obtain ⟨h1, h2, h3⟩ := ih (process_thread input p chunk) hlen1 hr
    simp only [List.foldl_cons, List.flatten_cons]
    refine ⟨h1, ?_, ?_⟩
    · intro j hj
      rw [List.mem_append, not_or] at hj
      rw [h2 j hj.2]
      exact c2 j hj.1
    · intro v hv
      rw [h3 v hv, List.countP_append]
      have hm : (process_thread input p chunk).histogram.getD v 0 =
          p.histogram.getD v 0 +
            (chunk.countP (fun i =>
              decide ((process_thread input p chunk).gray_image.getD i 0 = v)) : Nat) := by
        simp only [process_thread]
        rw [merge_histogram_getD _ _ _ hv hl, c3 v hv, local_histogram_init_getD, zero_add]
      have hcongr : chunk.countP (fun i =>
            decide ((process_thread input p chunk).gray_image.getD i 0 = v)) =
          chunk.countP (fun i => decide ((List.foldl (process_thread input)
            (process_thread input p chunk) rest).gray_image.getD i 0 = v)) := by
        apply List.countP_congr
        intro i hi
        rw [h2 i (fun hmem => hdisj hi hmem)]
      rw [hm, hcongr]
      push_cast
      ring

/-- Bins of the histogram the fused kernel returns, under any schedule that
covers the pixels once. -/
theorem process_image_histogram_getD (input : List ℚ) (uchar_image gray_image : List Nat)
    (histogram : List Int) (schedule : Schedule) (size : Nat)
    (hs : schedule.Valid size) (hl : histogram.length = HISTOGRAM_LENGTH)
    (v : Nat) (hv : v < HISTOGRAM_LENGTH) :
    (process_image_and_build_histogram input uchar_image gray_image histogram
        schedule).histogram.getD v 0 =
      ((List.range size).countP (fun i =>
        decide ((process_image_and_build_histogram input uchar_image gray_image histogram
          schedule).gray_image.getD i 0 = v)) : Nat) := by
  have hnd : schedule.flatten.Nodup := (List.Perm.nodup_iff hs).mpr (List.nodup_range size)
  obtain ⟨_, _, h3⟩ := process_schedule_spec input schedule
    { uchar_image := uchar_image, gray_image := gray_image, histogram := fill_zero histogram }
    (by rw [fill_zero_length]; exact hl) hnd
  unfold process_image_and_build_histogram
  rw [h3 v hv, fill_zero_getD _ _ hv, zero_add, List.Perm.countP_eq _ hs]

theorem countP_range_eq_card (n : Nat) (p : Nat → Prop) [DecidablePred p] :
    (List.range n).countP (fun i => decide (p i)) = ((Finset.range n).filter p).card := by
  rw [List.countP_eq_length_filter]
  simp [Finset.card, Finset.filter, Finset.range, Multiset.range]

theorem sum_countP_fiber (f : Nat → Nat) (n : Nat) (l : List Nat) (h : ∀ i ∈ l, f i < n) :
    ∑ v in Finset.range n, ((l.countP (fun i => decide (f i = v)) : Nat) : Int) = l.length := by
  induction l with
  | nil => simp
  | cons a t ih =>
    have ht : ∀ i ∈ t, f i < n := fun i hi => h i (List.mem_cons_of_mem _ hi)
    have ha : f a < n := h a (List.mem_cons_self _ _)
    simp only [List.countP_cons, decide_eq_true_eq, Nat.cast_add, Finset.sum_add_distrib, ih ht,
      List.length_cons]
    have : ∑ v in Finset.range n, (((if f a = v then 1 else 0 : Nat)) : Int) = 1 := by
      simp [Finset.sum_ite_eq, ha]
    rw [this]
    simp

/-- A chunk of `build_histogram`: every bin of the local histogram grows by
the number of pixels of the chunk with that luma. -/
theorem build_chunk_spec (gray_image : List Nat) (hg : ∀ i, gray_image.getD i 0 < HISTOGRAM_LENGTH)
    (chunk : List Nat) (l : List Int) (hl : l.length = HISTOGRAM_LENGTH) :
    (chunk.foldl
      (fun l i => l.set (gray_image.getD i 0) (l.getD (gray_image.getD i 0) 0 + 1)) l).length
        = HISTOGRAM_LENGTH ∧
    ∀ v, v < HISTOGRAM_LENGTH →
      (chunk.foldl
        (fun l i => l.set (gray_image.getD i 0) (l.getD (gray_image.getD i 0) 0 + 1)) l).getD v 0
        = l.getD v 0 + (chunk.countP (fun i => decide (gray_image.getD i 0 = v)) : Nat) := by
  induction chunk generalizing l with
  | nil => simpa using hl
  | cons i rest ih =>
    have hlen1 : (l.set (gray_image.getD i 0) (l.getD (gray_image.getD i 0) 0 + 1)).length
        = HISTOGRAM_LENGTH := by
      rw [List.length_set]
      exact hl
    obtain ⟨h1, h2⟩ := ih _ hlen1
    simp only [List.foldl_cons]
    refine ⟨h1, ?_⟩
    intro v hv
    rw [h2 v hv, increment_getD _ _ _ hl (hg i), List.countP_cons]
    simp only [decide_eq_true_eq]
    split <;> (push_cast; ring)

/-- A whole team of `build_histogram`. -/
theorem build_schedule_spec (gray_image : List Nat)
    (hg : ∀ i, gray_image.getD i 0 < HISTOGRAM_LENGTH) (schedule : Schedule)
    (histogram : List Int) (hl : histogram.length = HISTOGRAM_LENGTH) :
    (schedule.foldl (build_histogram_thread gray_image) histogram).length = HISTOGRAM_LENGTH ∧
    ∀ v, v < HISTOGRAM_LENGTH →
      (schedule.foldl (build_histogram_thread gray_image) histogram).getD v 0 =
        histogram.getD v 0 +
          (schedule.flatten.countP (fun i => decide (gray_image.getD i 0 = v)) : Nat) := by
  induction schedule generalizing histogram with
  | nil => simpa using hl
  | cons chunk rest ih =>
    obtain ⟨c1, c2⟩ := build_chunk_spec gray_image hg chunk local_histogram_init
      local_histogram_init_length
    have hlen1 : (build_histogram_thread gray_image histogram chunk).length
        = HISTOGRAM_LENGTH := by
      simp only [build_histogram_thread, merge_histogram_length]
      exact hl
    obtain ⟨h1, h2⟩ := ih _ hlen1
    simp only [List.foldl_cons, List.flatten_cons]
    refine ⟨h1, ?_⟩
    intro v hv
    rw [h2 v hv, List.countP_append]
    simp only [build_histogram_thread]
    rw [merge_histogram_getD _ _ _ hv hl, c2 v hv, local_histogram_init_getD, zero_add]
    push_cast
    ring

/-- Bins of the histogram `build_histogram` returns, under any schedule that
covers the pixels once. -/
theorem build_histogram_getD (gray_image : List Nat)
    (hg : ∀ i, gray_image.getD i 0 < HISTOGRAM_LENGTH) (histogram : List Int)
    (schedule : Schedule) (size : Nat) (hs : schedule.Valid size)
    (hl : histogram.length = HISTOGRAM_LENGTH) (v : Nat) (hv : v < HISTOGRAM_LENGTH) :
    (build_histogram gray_image histogram schedule).getD v 0 =
      ((List.range size).countP (fun i => decide (gray_image.getD i 0 = v)) : Nat) := by
  obtain ⟨_, h2⟩ := build_schedule_spec gray_image hg schedule (fill_zero histogram)
    (by rw [fill_zero_length]; exact hl)
  unfold build_histogram
  rw [h2 v hv, fill_zero_getD _ _ hv, zero_add, List.Perm.countP_eq _ hs]

/-- A load from a buffer of bytes is a byte. -/
theorem getD_lt_of_bytes (a : List Nat) (h : ∀ x ∈ a, x < HISTOGRAM_LENGTH) (i : Nat) :
    a.getD i 0 < HISTOGRAM_LENGTH := by
  by_cases hi : i < a.length
  · rw [List.getD_eq_getElem _ _ hi]
    exact h _ (List.getElem_mem hi)
  · rw [getD_of_length_le _ _ _ (by simpa using hi)]
    decide

/-- Claim C1.  After `process_image_and_build_histogram`, run under any
schedule that hands each of the `size` pixels to one thread, bin `v` of the
histogram is the number of pixel indices `i < size` whose luma byte
`gray_image[i]` is `v`, for every `v` in `0..255`, whatever the histogram (and
the other buffers) held before the call.  The unfused `build_histogram` gives
the same count on the luma buffer it is handed. -/
theorem C1_histogram_counts_pixels (input_image_data : List ℚ)
    (uchar_image gray_image : List Nat) (histogram : List Int) (schedule : Schedule)
    (size : Nat) (hs : schedule.Valid size) (hl : histogram.length = HISTOGRAM_LENGTH)
    (hg : ∀ x ∈ gray_image, x < HISTOGRAM_LENGTH)
    (v : Nat) (hv : v < HISTOGRAM_LENGTH) :
    (process_image_and_build_histogram input_image_data uchar_image gray_image histogram
        schedule).histogram.getD v 0 =
      (((Finset.range size).filter (fun i =>
        (process_image_and_build_histogram input_image_data uchar_image gray_image histogram
          schedule).gray_image.getD i 0 = v)).card : Int) ∧
    (build_histogram gray_image histogram schedule).getD v 0 =
      (((Finset.range size).filter (fun i => gray_image.getD i 0 = v)).card : Int) := by
  refine ⟨?_, ?_⟩
  · rw [process_image_histogram_getD _ _ _ _ _ size hs hl v hv, countP_range_eq_card]
  · rw [build_histogram_getD _ (getD_lt_of_bytes _ hg) _ _ size hs hl v hv,
      countP_range_eq_card]

/-- C1 on an image of two pixels, black and white, under a schedule of two
threads that merge in reverse order. -/
theorem C1_histogram_counts_pixels_witness :
    (process_image_and_build_histogram [0, 0, 0, 1, 1, 1] [9, 9, 9, 9, 9, 9] [7, 7]
        (List.replicate 256 5) [[1], [0]]).histogram.getD 252 0 =
      (((Finset.range 2).filter (fun i =>
        (process_image_and_build_histogram [0, 0, 0, 1, 1, 1] [9, 9, 9, 9, 9, 9] [7, 7]
          (List.replicate 256 5) [[1], [0]]).gray_image.getD i 0 = 252)).card : Int) ∧
    (build_histogram [7, 7] (List.replicate 256 5) [[1], [0]]).getD 252 0 =
      (((Finset.range 2).filter (fun i => [7, 7].getD i 0 = 252)).card : Int) :=
  C1_histogram_counts_pixels [0, 0, 0, 1, 1, 1] [9, 9, 9, 9, 9, 9] [7, 7]
    (List.replicate 256 5) [[1], [0]] 2 (by decide) (List.length_replicate 256 5)
    (by decide) 252 (by decide)

/-- After a chunk of the fused loop, the luma buffer holds a byte at every
index of the chunk. -/
theorem process_chunk_gray_lt (input : List ℚ) (chunk : List Nat)
    (s : List Nat × List Nat × List Int) (hl : s.2.2.length = HISTOGRAM_LENGTH)
    (hnd : chunk.Nodup) (i : Nat) (hi : i ∈ chunk) :
    (chunk.foldl (fun s i => process_pixel input i s) s).2.1.getD i 0 < HISTOGRAM_LENGTH := by
  induction chunk generalizing s with
  | nil => simp at hi
  | cons a rest ih =>
    have hnd2 := List.nodup_cons.mp hnd
    have hlen1 : (process_pixel input a s).2.2.length = HISTOGRAM_LENGTH := by
      simp only [process_pixel, List.length_set]
      exact hl
    simp only [List.foldl_cons]
    by_cases hir : i ∈ rest
    · exact ih _ hlen1 hnd2.2 hir
    · have hia : i = a := by
        rcases List.mem_cons.mp hi with h | h
        · exact h
        · exact absurd h hir
      subst hia
      rw [(process_chunk_spec input rest _ hlen1 hnd2.2).2.1 i hir]
      exact process_pixel_gray_lt input i s

/-- After a whole team of the fused kernel, the luma buffer holds a byte at
every scheduled index. -/
theorem process_schedule_gray_lt (input : List ℚ) (schedule : Schedule) (p : Projected)
    (hl : p.histogram.length = HISTOGRAM_LENGTH) (hnd : schedule.flatten.Nodup)
    (i : Nat) (hi : i ∈ schedule.flatten) :
    (schedule.foldl (process_thread input) p).gray_image.getD i 0 < HISTOGRAM_LENGTH := by
  induction schedule generalizing p with
  | nil => simp at hi
  | cons chunk rest ih =>
    rw [List.flatten_cons, List.nodup_append] at hnd
    obtain ⟨hc, hr, hdisj⟩ := hnd
    have hlen1 : (process_thread input p chunk).histogram.length = HISTOGRAM_LENGTH := by
      simp only [process_thread, merge_histogram_length]
      exact hl
    simp only [List.foldl_cons]
    by_cases hir : i ∈ rest.flatten
    · exact ih _ hlen1 hr hir
    · have hic : i ∈ chunk := by
        rw [List.flatten_cons, List.mem_append] at hi
        rcases hi with h | h
        · exact h
        · exact absurd h hir
      rw [(process_schedule_spec input rest _ hlen1 hr).2.1 i hir]
      simp only [process_thread]
      exact process_chunk_gray_lt input chunk _ local_histogram_init_length hc i hic

/-- The histogram the fused kernel returns has 256 bins that sum to the number
of pixels. -/
theorem process_image_histogram_sum (input : List ℚ) (uchar_image gray_image : List Nat)
    (histogram : List Int) (schedule : Schedule) (size : Nat)
    (hs : schedule.Valid size) (hl : histogram.length = HISTOGRAM_LENGTH) :
    (process_image_and_build_histogram input uchar_image gray_image histogram
        schedule).histogram.length = HISTOGRAM_LENGTH ∧
    ∑ v in Finset.range HISTOGRAM_LENGTH,
      (process_image_and_build_histogram input uchar_image gray_image histogram
        schedule).histogram.getD v 0 = (size : Int) := by
  have hnd : schedule.flatten.Nodup := (List.Perm.nodup_iff hs).mpr (List.nodup_range size)
  have hfl : (Projected.mk uchar_image gray_image (fill_zero histogram)).histogram.length
      = HISTOGRAM_LENGTH := by
    rw [fill_zero_length]; exact hl
  have hlen := (process_schedule_spec input schedule
    { uchar_image := uchar_image, gray_image := gray_image, histogram := fill_zero histogram }
    hfl hnd).1
  refine ⟨hlen, ?_⟩
  have hbins : ∀ v ∈ Finset.range HISTOGRAM_LENGTH,
      (process_image_and_build_histogram input uchar_image gray_image histogram
        schedule).histogram.getD v 0 =
      (((List.range size).countP (fun i =>
        decide ((process_image_and_build_histogram input uchar_image gray_image histogram
          schedule).gray_image.getD i 0 = v)) : Nat) : Int) :=
    fun v hv => process_image_histogram_getD input uchar_image gray_image histogram schedule
      size hs hl v (Finset.mem_range.mp hv)
  have hbytes : ∀ i ∈ List.range size,
      (process_image_and_build_histogram input uchar_image gray_image histogram
        schedule).gray_image.getD i 0 < HISTOGRAM_LENGTH :=
    fun i hi => process_schedule_gray_lt input schedule _ hfl hnd i
      ((List.Perm.mem_iff hs).mpr hi)
  rw [Finset.sum_congr rfl hbins, sum_countP_fiber _ _ _ hbytes, List.length_range]

/-- A pass that returns leaves in memory the histogram the fused kernel built
from the buffer its input pointer designates. -/
theorem histogram_equalization_histogram (width height : Nat) (ptr : Buf) (h h1 : Heap)
    (schedule : Schedule)
    (hret : histogram_equalization width height ptr h schedule = some h1) :
    h1.histogram = (process_image_and_build_histogram (h.read ptr) h.uchar_image
      h.gray_image h.histogram schedule).histogram := by
  simp only [histogram_equalization, Option.map_eq_some'] at hret
  obtain ⟨r, _, hr⟩ := hret
  rw [← hr]

/-- The loop of the driver keeps the histogram at 256 bins. -/
theorem driver_histogram_length (width height : Nat) (schedules : Nat → Schedule)
    (hs : ∀ i, (schedules i).Valid (width * height)) (h : Heap)
    (hl : h.histogram.length = HISTOGRAM_LENGTH) (n : Nat) (c : Buf × Heap)
    (hret : for_loop (driver_step width height schedules) 0 n (some (Buf.input, h)) = some c) :
    c.2.histogram.length = HISTOGRAM_LENGTH := by
  induction n generalizing c with
  | zero =>
    simp only [for_loop, Option.some.injEq] at hret
    rw [← hret]
    exact hl
  | succ n ih =>
    rw [for_loop_succ_last] at hret
    simp only [driver_step, Option.bind_eq_some, Option.map_eq_some'] at hret
    obtain ⟨c0, hc0, h1, hh1, hc⟩ := hret
    rw [← hc]
    simp only
    rw [histogram_equalization_histogram _ _ _ _ _ _ hh1]
    exact (process_image_histogram_sum _ _ _ _ _ _ (hs _) (ih c0 hc0)).1

/-- Claim C2.  The 256 counts of the histogram sum to `width * height`: for
the histogram the fused kernel builds from any memory and any input pointer,
for the histogram a pass of `histogram_equalization` leaves, and for the
histogram in memory after any positive number of iterations of the driver,
under every schedule. -/
theorem C2_histogram_sum_is_pixel_count (width height : Nat) (schedules : Nat → Schedule)
    (hs : ∀ i, (schedules i).Valid (width * height)) (h : Heap)
    (hl : h.histogram.length = HISTOGRAM_LENGTH) :
    (∀ (ptr : Buf) (i : Nat),
      ∑ v in Finset.range HISTOGRAM_LENGTH,
        (process_image_and_build_histogram (h.read ptr) h.uchar_image h.gray_image
          h.histogram (schedules i)).histogram.getD v 0 = ((width * height : Nat) : Int)) ∧
    (∀ (ptr : Buf) (i : Nat) (h1 : Heap),
      histogram_equalization width height ptr h (schedules i) = some h1 →
        ∑ v in Finset.range HISTOGRAM_LENGTH, h1.histogram.getD v 0
          = ((width * height : Nat) : Int)) ∧
    (∀ (iterations : Int) (h1 : Heap), 0 < iterations →
      iterative_histogram_equalization width height h iterations schedules = some h1 →
        ∑ v in Finset.range HISTOGRAM_LENGTH, h1.histogram.getD v 0
          = ((width * height : Nat) : Int)) := by
  refine ⟨?_, ?_, ?_⟩
  · intro ptr i
    exact (process_image_histogram_sum _ _ _ _ _ _ (hs i) hl).2
  · intro ptr i h1 hret
    rw [histogram_equalization_histogram _ _ _ _ _ _ hret]
    exact (process_image_histogram_sum _ _ _ _ _ _ (hs i) hl).2
  · intro iterations h1 hpos hret
    obtain ⟨n, hn⟩ : ∃ n, iterations.toNat = n + 1 :=
      ⟨iterations.toNat - 1, by omega⟩
    simp only [iterative_histogram_equalization, hn, Option.map_eq_some'] at hret
    obtain ⟨c, hc, hc1⟩ := hret
    rw [for_loop_succ_last] at hc
    simp only [driver_step, Option.bind_eq_some, Option.map_eq_some'] at hc
    obtain ⟨c0, hc0, h2, hh2, hc2⟩ := hc
    have hlen := driver_histogram_length width height schedules hs h hl n c0 hc0
    rw [← hc1, ← hc2]
    simp only
    rw [histogram_equalization_histogram _ _ _ _ _ _ hh2]
    exact (process_image_histogram_sum _ _ _ _ _ _ (hs _) hlen).2

/-- C2 on an image of two pixels under a schedule of two threads. -/
theorem C2_histogram_sum_is_pixel_count_witness :
    (∀ (ptr : Buf) (i : Nat),
      ∑ v in Finset.range HISTOGRAM_LENGTH,
        (process_image_and_build_histogram
          ((Heap.mk [0, 0, 0, 1, 1, 1] [0, 0, 0, 0, 0, 0] [9, 9, 9, 9, 9, 9] [7, 7]
            (List.replicate 256 5) (List.replicate 256 CFloat.nan)).read ptr)
          [9, 9, 9, 9, 9, 9] [7, 7] (List.replicate 256 5)
          ((fun _ => [[1], [0]]) i)).histogram.getD v 0 = ((1 * 2 : Nat) : Int)) ∧
    (∀ (ptr : Buf) (i : Nat) (h1 : Heap),
      histogram_equalization 1 2 ptr
        (Heap.mk [0, 0, 0, 1, 1, 1] [0, 0, 0, 0, 0, 0] [9, 9, 9, 9, 9, 9] [7, 7]
          (List.replicate 256 5) (List.replicate 256 CFloat.nan))
        ((fun _ => [[1], [0]]) i) = some h1 →
        ∑ v in Finset.range HISTOGRAM_LENGTH, h1.histogram.getD v 0
          = ((1 * 2 : Nat) : Int)) ∧
    (∀ (iterations : Int) (h1 : Heap), 0 < iterations →
      iterative_histogram_equalization 1 2
        (Heap.mk [0, 0, 0, 1, 1, 1] [0, 0, 0, 0, 0, 0] [9, 9, 9, 9, 9, 9] [7, 7]
          (List.replicate 256 5) (List.replicate 256 CFloat.nan))
        iterations (fun _ => [[1], [0]]) = some h1 →
        ∑ v in Finset.range HISTOGRAM_LENGTH, h1.histogram.getD v 0
          = ((1 * 2 : Nat) : Int)) :=
  C2_histogram_sum_is_pixel_count 1 2 (fun _ => [[1], [0]])
    (fun _ => (by decide : Schedule.Valid [[1], [0]] 2))
    (Heap.mk [0, 0, 0, 1, 1, 1] [0, 0, 0, 0, 0, 0] [9, 9, 9, 9, 9, 9] [7, 7]
      (List.replicate 256 5) (List.replicate 256 CFloat.nan))
    (List.length_replicate 256 5)

/-- A loop whose iteration `i` stores at `i` a value computed from element
`i - 1`: elements outside the range are untouched. -/
theorem for_loop_chain_frame {α : Type} (F : Nat → α → α) (d : α) (n lo : Nat) (c : List α)
    (j : Nat) (hj : j < lo ∨ lo + n ≤ j) :
    (for_loop (fun i c => c.set i (F i (c.getD (i - 1) d))) lo n c).getD j d = c.getD j d := by
  induction n with
  | zero => rfl
  | succ n ih =>
    rw [for_loop_succ_last, getD_set_of_ne _ _ _ (by omega)]
    exact ih (by omega)

/-- A loop whose iteration `i` stores at `i` a value computed from element
`i - 1`: on return every element of the range satisfies the recurrence. -/
theorem for_loop_chain {α : Type} (F : Nat → α → α) (d : α) (n lo : Nat) (c : List α)
    (hlo : 1 ≤ lo) (j : Nat) (hj1 : lo ≤ j) (hj2 : j < lo + n) (hlen : j < c.length) :
    (for_loop (fun i c => c.set i (F i (c.getD (i - 1) d))) lo n c).getD j d =
      F j ((for_loop (fun i c => c.set i (F i (c.getD (i - 1) d))) lo n c).getD (j - 1) d) := by
  induction n with
  | zero => omega
  | succ n ih =>
    rw [for_loop_succ_last]
    have hl : (for_loop (fun i c => c.set i (F i (c.getD (i - 1) d))) lo n c).length
        = c.length := for_loop_set_length (fun i c => F i (c.getD (i - 1) d)) n lo c
    by_cases hjn : j = lo + n
    · subst hjn
      rw [getD_set_self _ _ _ _ (by omega), getD_set_of_ne _ _ _ (by omega)]
    · rw [getD_set_of_ne _ _ _ (fun h => hjn h.symm), getD_set_of_ne _ _ _ (by omega)]
      exact ih (by omega)

/-- The first entry `calculate_cdf` stores. -/
theorem calculate_cdf_zero (histogram : List Int) (cdf : List CFloat) (size : Int)
    (hlen : cdf.length = HISTOGRAM_LENGTH) :
    (calculate_cdf histogram cdf size).getD 0 CFloat.nan = prob (histogram.getD 0 0) size := by
  unfold calculate_cdf
  rw [for_loop_chain_frame
    (fun i a => CFloat.round32 (CFloat.add a (prob (histogram.getD i 0) size)))
    CFloat.nan _ 1 _ 0 (by omega)]
  exact getD_set_self _ _ _ _ (by rw [hlen]; decide)

/-- The recurrence between consecutive entries `calculate_cdf` stores. -/
theorem calculate_cdf_succ (histogram : List Int) (cdf : List CFloat) (size : Int)
    (hlen : cdf.length = HISTOGRAM_LENGTH) (i : Nat) (h1 : 1 ≤ i) (h2 : i < HISTOGRAM_LENGTH) :
    (calculate_cdf histogram cdf size).getD i CFloat.nan =
      CFloat.round32
        (CFloat.add ((calculate_cdf histogram cdf size).getD (i - 1) CFloat.nan)
          (prob (histogram.getD i 0) size)) := by
  unfold calculate_cdf
  have h3 : i < 1 + (HISTOGRAM_LENGTH - 1) := by
    have : HISTOGRAM_LENGTH = 256 := rfl
    omega
  exact for_loop_chain
    (fun i a => CFloat.round32 (CFloat.add a (prob (histogram.getD i 0) size)))
    CFloat.nan _ 1 _ (le_refl 1) i h1 h3 (by rw [List.length_set, hlen]; exact h2)

/-- The first entry of the CDF in exact arithmetic. -/
theorem calculate_cdf_exact_zero (histogram : List Int) (cdf : List CFloat) (size : Int)
    (hlen : cdf.length = HISTOGRAM_LENGTH) :
    (calculate_cdf_exact histogram cdf size).getD 0 CFloat.nan =
      prob_exact (histogram.getD 0 0) size := by
  unfold calculate_cdf_exact
  rw [for_loop_chain_frame (fun i a => CFloat.add a (prob_exact (histogram.getD i 0) size))
    CFloat.nan _ 1 _ 0 (by omega)]
  exact getD_set_self _ _ _ _ (by rw [hlen]; decide)

/-- The recurrence between consecutive entries of the CDF in exact arithmetic. -/
theorem calculate_cdf_exact_succ (histogram : List Int) (cdf : List CFloat) (size : Int)
    (hlen : cdf.length = HISTOGRAM_LENGTH) (i : Nat) (h1 : 1 ≤ i) (h2 : i < HISTOGRAM_LENGTH) :
    (calculate_cdf_exact histogram cdf size).getD i CFloat.nan =
      CFloat.add ((calculate_cdf_exact histogram cdf size).getD (i - 1) CFloat.nan)
        (prob_exact (histogram.getD i 0) size) := by
  unfold calculate_cdf_exact
  have h3 : i < 1 + (HISTOGRAM_LENGTH - 1) := by
    have : HISTOGRAM_LENGTH = 256 := rfl
    omega
  exact for_loop_chain (fun i a => CFloat.add a (prob_exact (histogram.getD i 0) size))
    CFloat.nan _ 1 _ (le_refl 1) i h1 h3 (by rw [List.length_set, hlen]; exact h2)

/-- The exact quotient for a non-zero size is finite. -/
theorem prob_exact_of_ne_zero (x size : Int) (h : size ≠ 0) :
    prob_exact x size = CFloat.fin ((x : ℚ) / (size : ℚ)) := by
  have h2 : (size : ℚ) ≠ 0 := by exact_mod_cast h
  simp [prob_exact, CFloat.ofInt, CFloat.div, h2]

/-- In exact arithmetic and for a non-zero size, entry `i` of the CDF is the
sum of the bins `0..i` over the size. -/
theorem calculate_cdf_exact_closed (histogram : List Int) (cdf : List CFloat) (size : Int)
    (hlen : cdf.length = HISTOGRAM_LENGTH) (hsize : size ≠ 0) (i : Nat)
    (hi : i < HISTOGRAM_LENGTH) :
    (calculate_cdf_exact histogram cdf size).getD i CFloat.nan =
      CFloat.fin (((∑ j in Finset.range (i + 1), histogram.getD j 0 : Int) : ℚ) / (size : ℚ)) := by
  induction i with
  | zero =>
    rw [calculate_cdf_exact_zero _ _ _ hlen, prob_exact_of_ne_zero _ _ hsize]
    simp
  | succ i ih =>
    rw [calculate_cdf_exact_succ _ _ _ hlen (i + 1) (by omega) hi, Nat.add_sub_cancel,
      ih (by omega), prob_exact_of_ne_zero _ _ hsize, Finset.sum_range_succ _ (i + 1)]
    simp only [CFloat.add]
    congr 1
    push_cast
    ring

theorem round32_pos (x : ℚ) (hx : 0 < x) : 0 < round32 x :=
  round_to_pos 24 (by decide) x hx

theorem round32_nonneg (x : ℚ) (hx : 0 ≤ x) : 0 ≤ round32 x :=
  round_to_nonneg 24 x hx

theorem round32_zero : round32 0 = 0 := round_to_zero 24

theorem round32_mono (x y : ℚ) (hx : 0 ≤ x) (hxy : x ≤ y) : round32 x ≤ round32 y :=
  round_to_mono 24 (by decide) x y hx hxy

theorem round32_idem (x : ℚ) (hx : 0 ≤ x) : round32 (round32 x) = round32 x :=
  round_to_idem 24 (by decide) x hx

/-- The value `prob` returns for a positive size: the quotient of the two
converted integers, rounded. -/
theorem prob_of_pos (x size : Int) (h : 0 < size) :
    prob x size = CFloat.fin (round32 (round32 (x : ℚ) / round32 (size : ℚ))) := by
  have hpos : 0 < round32 (size : ℚ) := round32_pos _ (by exact_mod_cast h)
  simp [prob, CFloat.ofInt, CFloat.round32, CFloat.div, hpos.ne.symm]

/-- Claim C3.  For a pixel count `size > 0`, `calculate_cdf` stores
`CDF[0] = Histogram[0] / size` and, for `i` in `1..255`,
`CDF[i] = CDF[i-1] + Histogram[i] / size`, the conversions, the quotients and
the sums being those of `float`; in exact arithmetic the same loop stores
`CDF[0] = Histogram[0] / size` and `CDF[i] = CDF[i-1] + Histogram[i] / size`,
and entry `i` is the sum of `Histogram[0..i]` divided by `size`. -/
theorem C3_calculate_cdf_recurrence (histogram : List Int) (cdf : List CFloat) (size : Int)
    (hlen : cdf.length = HISTOGRAM_LENGTH) (hsize : 0 < size) :
    ((calculate_cdf histogram cdf size).getD 0 CFloat.nan =
        CFloat.fin (round32 (round32 (histogram.getD 0 0 : ℚ) / round32 (size : ℚ))) ∧
      ∀ i, 1 ≤ i → i < HISTOGRAM_LENGTH →
        (calculate_cdf histogram cdf size).getD i CFloat.nan =
          CFloat.round32
            (CFloat.add ((calculate_cdf histogram cdf size).getD (i - 1) CFloat.nan)
              (CFloat.fin (round32 (round32 (histogram.getD i 0 : ℚ) / round32 (size : ℚ)))))) ∧
    ((calculate_cdf_exact histogram cdf size).getD 0 CFloat.nan =
        CFloat.fin ((histogram.getD 0 0 : ℚ) / (size : ℚ)) ∧
      ∀ i, 1 ≤ i → i < HISTOGRAM_LENGTH →
        (calculate_cdf_exact histogram cdf size).getD i CFloat.nan =
          CFloat.add ((calculate_cdf_exact histogram cdf size).getD (i - 1) CFloat.nan)
            (CFloat.fin ((histogram.getD i 0 : ℚ) / (size : ℚ))) ∧
        (calculate_cdf_exact histogram cdf size).getD i CFloat.nan =
          CFloat.fin
            (((∑ j in Finset.range (i + 1), histogram.getD j 0 : Int) : ℚ) / (size : ℚ))) := by
  have hne : size ≠ 0 := by omega
  refine ⟨⟨?_, fun i h1 h2 => ?_⟩,
    ?_, fun i h1 h2 => ⟨?_, calculate_cdf_exact_closed _ _ _ hlen hne i h2⟩⟩
  · rw [calculate_cdf_zero _ _ _ hlen, prob_of_pos _ _ hsize]
  · rw [calculate_cdf_succ _ _ _ hlen i h1 h2, prob_of_pos _ _ hsize]
  · rw [calculate_cdf_exact_zero _ _ _ hlen, prob_exact_of_ne_zero _ _ hne]
  · rw [calculate_cdf_exact_succ _ _ _ hlen i h1 h2, prob_exact_of_ne_zero _ _ hne]

/-- C3 on the counts `1, 0, 1` of an image of two pixels. -/
theorem C3_calculate_cdf_recurrence_witness :
    ((calculate_cdf [1, 0, 1] (List.replicate 256 CFloat.nan) 2).getD 0 CFloat.nan =
        CFloat.fin
          (round32 (round32 (([1, 0, 1] : List Int).getD 0 0 : ℚ) / round32 ((2 : Int) : ℚ))) ∧
      ∀ i, 1 ≤ i → i < HISTOGRAM_LENGTH →
        (calculate_cdf [1, 0, 1] (List.replicate 256 CFloat.nan) 2).getD i CFloat.nan =
          CFloat.round32
            (CFloat.add
              ((calculate_cdf [1, 0, 1] (List.replicate 256 CFloat.nan) 2).getD (i - 1)
                CFloat.nan)
              (CFloat.fin
                (round32
                  (round32 (([1, 0, 1] : List Int).getD i 0 : ℚ) / round32 ((2 : Int) : ℚ)))))) ∧
    ((calculate_cdf_exact [1, 0, 1] (List.replicate 256 CFloat.nan) 2).getD 0 CFloat.nan =
        CFloat.fin ((([1, 0, 1] : List Int).getD 0 0 : ℚ) / ((2 : Int) : ℚ)) ∧
      ∀ i, 1 ≤ i → i < HISTOGRAM_LENGTH →
        (calculate_cdf_exact [1, 0, 1] (List.replicate 256 CFloat.nan) 2).getD i CFloat.nan =
          CFloat.add
            ((calculate_cdf_exact [1, 0, 1] (List.replicate 256 CFloat.nan) 2).getD (i - 1)
              CFloat.nan)
            (CFloat.fin ((([1, 0, 1] : List Int).getD i 0 : ℚ) / ((2 : Int) : ℚ))) ∧
        (calculate_cdf_exact [1, 0, 1] (List.replicate 256 CFloat.nan) 2).getD i CFloat.nan =
          CFloat.fin
            (((∑ j in Finset.range (i + 1), ([1, 0, 1] : List Int).getD j 0 : Int) : ℚ)
              / ((2 : Int) : ℚ))) :=
  C3_calculate_cdf_recurrence [1, 0, 1] (List.replicate 256 CFloat.nan) 2
    (List.length_replicate 256 CFloat.nan) (by decide)

/-- A load from a buffer of non-negative counts is non-negative. -/
theorem getD_nonneg_of_counts (a : List Int) (h : ∀ x ∈ a, 0 ≤ x) (i : Nat) :
    0 ≤ a.getD i 0 := by
  by_cases hi : i < a.length
  · rw [List.getD_eq_getElem _ _ hi]
    exact h _ (List.getElem_mem hi)
  · rw [getD_of_length_le _ _ _ (by simpa using hi)]

/-- Running sums of non-negative counts grow with the index. -/
theorem running_sum_mono (histogram : List Int) (h : ∀ x ∈ histogram, 0 ≤ x) (i j : Nat)
    (hij : i ≤ j) :
    ∑ k in Finset.range (i + 1), histogram.getD k 0 ≤
      ∑ k in Finset.range (j + 1), histogram.getD k 0 := by
  apply Finset.sum_le_sum_of_subset_of_nonneg
  · intro k hk
    rw [Finset.mem_range] at hk ⊢
    omega
  · intro k _ _
    exact getD_nonneg_of_counts histogram h k

/-- For a non-negative count and a positive size `prob` returns a
non-negative `float`. -/
theorem prob_nonneg (x size : Int) (hx : 0 ≤ x) (h : 0 < size) :
    ∃ q : ℚ, prob x size = CFloat.fin q ∧ 0 ≤ q ∧ round32 q = q := by
  have hx2 : (0 : ℚ) ≤ (x : ℚ) := by exact_mod_cast hx
  have hs2 : (0 : ℚ) < (size : ℚ) := by exact_mod_cast h
  have hq : 0 ≤ round32 (x : ℚ) / round32 (size : ℚ) :=
    div_nonneg (round32_nonneg _ hx2) (round32_pos _ hs2).le
  exact ⟨_, prob_of_pos x size h, round32_nonneg _ hq, round32_idem _ hq⟩

/-- For non-negative counts and a positive size every entry of the CDF is a
non-negative `float`. -/
theorem calculate_cdf_nonneg (histogram : List Int) (cdf : List CFloat) (size : Int)
    (hlen : cdf.length = HISTOGRAM_LENGTH) (hsize : 0 < size)
    (hcounts : ∀ x ∈ histogram, 0 ≤ x) (i : Nat) (hi : i < HISTOGRAM_LENGTH) :
    ∃ q : ℚ, (calculate_cdf histogram cdf size).getD i CFloat.nan = CFloat.fin q ∧ 0 ≤ q ∧
      round32 q = q := by
  induction i with
  | zero =>
    rw [calculate_cdf_zero _ _ _ hlen]
    exact prob_nonneg _ _ (getD_nonneg_of_counts histogram hcounts 0) hsize
  | succ i ih =>
    obtain ⟨a, ha, ha0, _⟩ := ih (by omega)
    obtain ⟨b, hb, hb0, _⟩ :=
      prob_nonneg _ size (getD_nonneg_of_counts histogram hcounts (i + 1)) hsize
    rw [calculate_cdf_succ _ _ _ hlen (i + 1) (by omega) hi, Nat.add_sub_cancel, ha, hb]
    exact ⟨round32 (a + b), rfl, round32_nonneg _ (add_nonneg ha0 hb0),
      round32_idem _ (add_nonneg ha0 hb0)⟩

/-- For non-negative counts and a positive size an entry of the CDF is not
below the entry before it: adding a non-negative `float` to a `float` and
rounding does not decrease it. -/
theorem calculate_cdf_step (histogram : List Int) (cdf : List CFloat) (size : Int)
    (hlen : cdf.length = HISTOGRAM_LENGTH) (hsize : 0 < size)
    (hcounts : ∀ x ∈ histogram, 0 ≤ x) (i : Nat) (hi : i + 1 < HISTOGRAM_LENGTH) :
    ∃ a b : ℚ, (calculate_cdf histogram cdf size).getD i CFloat.nan = CFloat.fin a ∧
      (calculate_cdf histogram cdf size).getD (i + 1) CFloat.nan = CFloat.fin b ∧ a ≤ b := by
  obtain ⟨a, ha, ha0, ha1⟩ :=
    calculate_cdf_nonneg histogram cdf size hlen hsize hcounts i (by omega)
  obtain ⟨b, hb, hb0, _⟩ :=
    prob_nonneg _ size (getD_nonneg_of_counts histogram hcounts (i + 1)) hsize
  refine ⟨a, round32 (a + b), ha, ?_, ?_⟩
  · rw [calculate_cdf_succ _ _ _ hlen (i + 1) (by omega) hi, Nat.add_sub_cancel, ha, hb]
    rfl
  · calc a = round32 a := ha1.symm
      _ ≤ round32 (a + b) := round32_mono _ _ ha0 (by linarith)

/-- For non-negative counts and a positive size the CDF is non-decreasing. -/
theorem calculate_cdf_mono (histogram : List Int) (cdf : List CFloat) (size : Int)
    (hlen : cdf.length = HISTOGRAM_LENGTH) (hsize : 0 < size)
    (hcounts : ∀ x ∈ histogram, 0 ≤ x) (i d : Nat) (hj : i + d < HISTOGRAM_LENGTH) :
    ∃ a b : ℚ, (calculate_cdf histogram cdf size).getD i CFloat.nan = CFloat.fin a ∧
      (calculate_cdf histogram cdf size).getD (i + d) CFloat.nan = CFloat.fin b ∧ a ≤ b := by
  induction d with
  | zero =>
    obtain ⟨a, ha, _, _⟩ :=
      calculate_cdf_nonneg histogram cdf size hlen hsize hcounts i (by omega)
    exact ⟨a, a, ha, ha, le_refl a⟩
  | succ d ih =>
    obtain ⟨a, b, ha, hb, hab⟩ := ih (by omega)
    obtain ⟨b2, c, hb2, hc, hbc⟩ :=
      calculate_cdf_step histogram cdf size hlen hsize hcounts (i + d) hj
    have e : b = b2 := CFloat.fin.inj (hb.symm.trans hb2)
    exact ⟨a, c, ha, hc, le_trans hab (e ▸ hbc)⟩

/-- Claim C4.  For a histogram of non-negative counts and a pixel count
`size > 0`, the CDF `calculate_cdf` stores is non-decreasing:
`CDF[i] <= CDF[j]` whenever `i <= j <= 255`. -/
theorem C4_cdf_monotone (histogram : List Int) (cdf : List CFloat) (size : Int)
    (hlen : cdf.length = HISTOGRAM_LENGTH) (hsize : 0 < size)
    (hcounts : ∀ x ∈ histogram, 0 ≤ x) (i j : Nat) (hij : i ≤ j)
    (hj : j < HISTOGRAM_LENGTH) :
    CFloat.le ((calculate_cdf histogram cdf size).getD i CFloat.nan)
      ((calculate_cdf histogram cdf size).getD j CFloat.nan) = true := by
  obtain ⟨d, rfl⟩ : ∃ d, j = i + d := ⟨j - i, by omega⟩
  obtain ⟨a, b, ha, hb, hab⟩ := calculate_cdf_mono histogram cdf size hlen hsize hcounts i d hj
  rw [ha, hb]
  simp only [CFloat.le, decide_eq_true_eq]
  exact hab

/-- C4 on the counts `1, 0, 1` of an image of two pixels, entries `0` and `2`. -/
theorem C4_cdf_monotone_witness :
    CFloat.le ((calculate_cdf [1, 0, 1] (List.replicate 256 CFloat.nan) 2).getD 0 CFloat.nan)
      ((calculate_cdf [1, 0, 1] (List.replicate 256 CFloat.nan) 2).getD 2 CFloat.nan) = true :=
  C4_cdf_monotone [1, 0, 1] (List.replicate 256 CFloat.nan) 2
    (List.length_replicate 256 CFloat.nan) (by decide) (by decide) 0 2 (by decide) (by decide)

/-- The reduction loop of `find_cdf_min` keeps its start value when no entry
of the range compares below it. -/
theorem min_loop_keeps (cdf : List CFloat) (m : CFloat) (n lo : Nat)
    (h : ∀ i, lo ≤ i → i < lo + n → CFloat.lt (cdf.getD i CFloat.nan) m = false) :
    for_loop (fun i m => CFloat.min m (cdf.getD i CFloat.nan)) lo n m = m := by
  induction n generalizing lo with
  | zero => rfl
  | succ n ih =>
    have h0 : CFloat.min m (cdf.getD lo CFloat.nan) = m := by
      unfold CFloat.min
      rw [h lo (le_refl lo) (by omega)]
      rfl
    rw [for_loop, h0]
    exact ih (lo + 1) (fun i h1 h2 => h i (by omega) (by omega))

/-- The quotient `prob` forms for a non-negative count and a zero size is a
NaN or the positive infinity. -/
theorem prob_size_zero (x : Int) (hx : 0 ≤ x) :
    prob x 0 = CFloat.nan ∨ prob x 0 = CFloat.pinf := by
  by_cases hz : x = 0
  · left
    simp [prob, CFloat.ofInt, CFloat.div, CFloat.round32, hz, round32_zero]
  · right
    have hpos : (0 : ℚ) < round32 (x : ℚ) := by
      have : 0 < x := by omega
      exact round32_pos _ (by exact_mod_cast this)
    simp [prob, CFloat.ofInt, CFloat.div, CFloat.round32, round32_zero, hpos, hpos.ne.symm,
      CFloat.signedInf]

/-- With a zero size every entry of the CDF of non-negative counts is a NaN or
the positive infinity. -/
theorem calculate_cdf_size_zero (histogram : List Int) (cdf : List CFloat)
    (hlen : cdf.length = HISTOGRAM_LENGTH) (hcounts : ∀ x ∈ histogram, 0 ≤ x) (i : Nat)
    (hi : i < HISTOGRAM_LENGTH) :
    (calculate_cdf histogram cdf 0).getD i CFloat.nan = CFloat.nan ∨
      (calculate_cdf histogram cdf 0).getD i CFloat.nan = CFloat.pinf := by
  have hprob : ∀ k, prob (histogram.getD k 0) 0 = CFloat.nan ∨
      prob (histogram.getD k 0) 0 = CFloat.pinf :=
    fun k => prob_size_zero _ (getD_nonneg_of_counts histogram hcounts k)
  induction i with
  | zero =>
    rw [calculate_cdf_zero _ _ _ hlen]
    exact hprob 0
  | succ i ih =>
    rw [calculate_cdf_succ _ _ _ hlen (i + 1) (by omega) hi, Nat.add_sub_cancel]
    rcases ih (by omega) with h1 | h1 <;> rcases hprob (i + 1) with h2 | h2 <;>
      rw [h1, h2] <;> simp [CFloat.add, CFloat.round32]

/-- For non-negative counts and a size that is not negative, no entry of the
CDF compares below the first one. -/
theorem calculate_cdf_not_below_first (histogram : List Int) (cdf : List CFloat) (size : Int)
    (hlen : cdf.length = HISTOGRAM_LENGTH) (hsize : 0 ≤ size)
    (hcounts : ∀ x ∈ histogram, 0 ≤ x) (i : Nat) (hi : i < HISTOGRAM_LENGTH) :
    CFloat.lt ((calculate_cdf histogram cdf size).getD i CFloat.nan)
      ((calculate_cdf histogram cdf size).getD 0 CFloat.nan) = false := by
  by_cases hz : size = 0
  · subst hz
    rcases calculate_cdf_size_zero histogram cdf hlen hcounts i hi with h | h <;>
      rw [h] <;> simp [CFloat.lt]
  · obtain ⟨a, b, ha, hb, hab⟩ :=
      calculate_cdf_mono histogram cdf size hlen (by omega) hcounts 0 i (by omega)
    rw [Nat.zero_add] at hb
    rw [ha, hb]
    simp only [CFloat.lt, decide_eq_false_iff_not, not_lt]
    exact hab

/-- The minimum `find_cdf_min` returns for the CDF of non-negative counts is
the first entry of the CDF. -/
theorem find_cdf_min_eq_first (histogram : List Int) (cdf : List CFloat) (size : Int)
    (hlen : cdf.length = HISTOGRAM_LENGTH) (hsize : 0 ≤ size)
    (hcounts : ∀ x ∈ histogram, 0 ≤ x) :
    find_cdf_min (calculate_cdf histogram cdf size) =
      (calculate_cdf histogram cdf size).getD 0 CFloat.nan := by
  unfold find_cdf_min
  apply min_loop_keeps
  intro i _ h2
  have hi : i < HISTOGRAM_LENGTH := by
    have : HISTOGRAM_LENGTH = 256 := rfl
    omega
  exact calculate_cdf_not_below_first histogram cdf size hlen hsize hcounts i hi

/-- Claim C6.  For any histogram (256 counts, none negative, of an image of
`size >= 0` pixels), `find_cdf_min` applied to the CDF `calculate_cdf`
computed returns `CDF[0]`, although its loop compares all 256 entries. -/
theorem C6_cdf_min_is_first_entry (histogram : List Int) (cdf : List CFloat) (size : Int)
    (hlen : cdf.length = HISTOGRAM_LENGTH) (hsize : 0 ≤ size)
    (hcounts : ∀ x ∈ histogram, 0 ≤ x) :
    find_cdf_min (calculate_cdf histogram cdf size) =
      (calculate_cdf histogram cdf size).getD 0 CFloat.nan ∧
    ∀ i, i < HISTOGRAM_LENGTH →
      CFloat.lt ((calculate_cdf histogram cdf size).getD i CFloat.nan)
        (find_cdf_min (calculate_cdf histogram cdf size)) = false := by
  have h := find_cdf_min_eq_first histogram cdf size hlen hsize hcounts
  refine ⟨h, fun i hi => ?_⟩
  rw [h]
  exact calculate_cdf_not_below_first histogram cdf size hlen hsize hcounts i hi

/-- C6 on the counts `1, 0, 1` of an image of two pixels. -/
theorem C6_cdf_min_is_first_entry_witness :
    find_cdf_min (calculate_cdf [1, 0, 1] (List.replicate 256 CFloat.nan) 2) =
      (calculate_cdf [1, 0, 1] (List.replicate 256 CFloat.nan) 2).getD 0 CFloat.nan ∧
    ∀ i, i < HISTOGRAM_LENGTH →
      CFloat.lt ((calculate_cdf [1, 0, 1] (List.replicate 256 CFloat.nan) 2).getD i CFloat.nan)
        (find_cdf_min (calculate_cdf [1, 0, 1] (List.replicate 256 CFloat.nan) 2)) = false :=
  C6_cdf_min_is_first_entry [1, 0, 1] (List.replicate 256 CFloat.nan) 2
    (List.length_replicate 256 CFloat.nan) (by decide) (by decide)

/-- Truncation of a non-negative value below 256 is its floor, a byte that
both the conversion and `clamp` leave as it is. -/
theorem to_uchar_in_range (q : ℚ) (h0 : 0 ≤ q) (h1 : q < 256) :
    to_uchar q = ⌊q⌋.toNat ∧ ⌊q⌋.toNat ≤ 255 ∧ clamp ⌊q⌋.toNat = ⌊q⌋.toNat := by
  have hf0 : 0 ≤ ⌊q⌋ := Int.floor_nonneg.mpr h0
  have hf1 : ⌊q⌋ < 256 := Int.floor_lt.mpr (by exact_mod_cast h1)
  have hle : ⌊q⌋.toNat ≤ 255 := by omega
  refine ⟨?_, hle, ?_⟩
  · unfold to_uchar truncate
    rw [if_pos h0, Int.emod_eq_of_lt hf0 hf1]
  · unfold clamp
    omega

/-- The value `correct_color` returns for finite arguments with
`cdf_min < 1`: the conversion of the `float` quotient, passed to `clamp`. -/
theorem correct_color_fin (c m : ℚ) (hm : m < 1) :
    correct_color (CFloat.fin c) (CFloat.fin m) =
      some (clamp (to_uchar (corrector_quotient c m))) := by
  have hd : round32 (1 + -m) ≠ 0 := (round32_pos _ (by linarith)).ne.symm
  simp only [correct_color, CFloat.sub, CFloat.neg, CFloat.add, CFloat.mul, CFloat.div,
    CFloat.round32, if_neg hd, CFloat.to_uchar, Option.map_some', corrector_quotient,
    sub_eq_add_neg]

/-- The value `correct_color` returns for finite arguments with
`cdf_min < 1`, when the `float` quotient lies in `[0, 256)`: the floor of the
quotient. -/
theorem correct_color_in_range (c m : ℚ) (hm : m < 1)
    (h0 : 0 ≤ corrector_quotient c m) (h1 : corrector_quotient c m < 256) :
    correct_color (CFloat.fin c) (CFloat.fin m) = some ⌊corrector_quotient c m⌋.toNat := by
  rw [correct_color_fin c m hm]
  obtain ⟨e1, _, e3⟩ := to_uchar_in_range _ h0 h1
  rw [e1, e3]

/-- The `float` quotient for `CDF[b] = 3/4` and `cdf_min = 1/2`; the four
operations are exact there. -/
theorem corrector_quotient_three_quarters : corrector_quotient (3 / 4) (1 / 2) = 255 / 2 := by
  decide!

/-- The `float` quotient for `CDF[b] = 1` and `cdf_min` the `float` nearest to
`2/3`: the exact quotient is `255`, the rounded differences give
`254.99998...`, and the byte stored is `254`. -/
theorem corrector_quotient_two_thirds :
    corrector_quotient 1 (11184811 / 16777216) = 16711679 / 65536 ∧
      correct_color (CFloat.fin 1) (CFloat.fin (11184811 / 16777216)) = some 254 := by
  decide!

/-- Claim C7 fails as stated: for `CDF[b] = 3/4` and `cdf_min = 1/2` the
quotient is `127.5`; `correct_color` returns `127` and the Corrector stores
`127` and the `float` nearest to `127/255`, where rounding to the nearest
integer gives `128`. -/
theorem C7_counterexample :
    correct_color (CFloat.fin (3 / 4)) (CFloat.fin (1 / 2)) = some 127 ∧
    corrector_spec (3 / 4) (1 / 2) = 128 ∧
    apply_sample
      (CFloat.fin (1 / 2) :: CFloat.fin (3 / 4) :: List.replicate 254 (CFloat.fin 1))
      (CFloat.fin (1 / 2)) 0 ([1], [0]) = some ([127], [round32 (127 / 255)]) := by
  have hq : 255 * ((3 / 4 : ℚ) - 1 / 2) / (1 - 1 / 2) = 255 / 2 := by norm_num
  have hfl : ⌊(255 / 2 : ℚ)⌋ = 127 := by
    rw [Int.floor_eq_iff]
    norm_num
  have hcc : correct_color (CFloat.fin (3 / 4)) (CFloat.fin (1 / 2)) = some 127 := by
    rw [correct_color_in_range _ _ (by norm_num)
        (by rw [corrector_quotient_three_quarters]; norm_num)
        (by rw [corrector_quotient_three_quarters]; norm_num),
      corrector_quotient_three_quarters, hfl]
    rfl
  refine ⟨hcc, ?_, ?_⟩
  · unfold corrector_spec
    rw [hq]
    have hr : round (255 / 2 : ℚ) = 128 := by
      rw [round_eq, Int.floor_eq_iff]
      norm_num
    rw [hr]
    rfl
  · unfold apply_sample
    simp only [List.getD_cons_zero, List.getD_cons_succ, hcc, List.set_cons_zero]
    norm_num

/-- Claim C7 (amended).  For every CDF, every finite `cdf_min < 1` and every
byte sample whose quotient `q = 255 * (CDF[b] - cdf_min) / (1 - cdf_min)`,
formed in `float` arithmetic, lies in `[0, 256)`, `correct_color` returns the
floor of `q` (the conversion truncates, it does not round to nearest; `clamp`
leaves the byte as it is), and the Corrector stores that byte in the byte
buffer and the `float` nearest to the byte over `255` in the output buffer. -/
theorem C7_corrector_truncates (cdf : List CFloat) (cdf_min c : ℚ) (i : Nat)
    (uchar_image : List Nat) (output_image_data : List ℚ) (hmin : cdf_min < 1)
    (hc : cdf.getD (uchar_image.getD i 0) CFloat.nan = CFloat.fin c)
    (h0 : 0 ≤ corrector_quotient c cdf_min) (h1 : corrector_quotient c cdf_min < 256) :
    correct_color (CFloat.fin c) (CFloat.fin cdf_min) =
      some ⌊corrector_quotient c cdf_min⌋.toNat ∧
    ⌊corrector_quotient c cdf_min⌋.toNat ≤ 255 ∧
    apply_sample cdf (CFloat.fin cdf_min) i (uchar_image, output_image_data) =
      some (uchar_image.set i ⌊corrector_quotient c cdf_min⌋.toNat,
        output_image_data.set i
          (round32 ((⌊corrector_quotient c cdf_min⌋.toNat : ℚ) / 255))) := by
  have hcc := correct_color_in_range c cdf_min hmin h0 h1
  refine ⟨hcc, (to_uchar_in_range _ h0 h1).2.1, ?_⟩
  unfold apply_sample
  simp only [hc, hcc]

/-- The amended C7 on a CDF with `CDF[0]` the `float` nearest to `2/3` and
`CDF[1] = 1`, at a sample holding the byte `1`: the quotient is
`254.99998...`. -/
theorem C7_corrector_truncates_witness :
    correct_color (CFloat.fin 1) (CFloat.fin (11184811 / 16777216)) =
      some ⌊corrector_quotient 1 (11184811 / 16777216)⌋.toNat ∧
    ⌊corrector_quotient 1 (11184811 / 16777216)⌋.toNat ≤ 255 ∧
    apply_sample
      (CFloat.fin (11184811 / 16777216) :: List.replicate 255 (CFloat.fin 1))
      (CFloat.fin (11184811 / 16777216)) 0 ([1], [0]) =
      some ([1].set 0 ⌊corrector_quotient 1 (11184811 / 16777216)⌋.toNat,
        [0].set 0
          (round32 ((⌊corrector_quotient 1 (11184811 / 16777216)⌋.toNat : ℚ) / 255))) :=
  C7_corrector_truncates
    (CFloat.fin (11184811 / 16777216) :: List.replicate 255 (CFloat.fin 1))
    (11184811 / 16777216) 1 0 [1] [0] (by norm_num) rfl
    (by rw [corrector_quotient_two_thirds.1]; norm_num)
    (by rw [corrector_quotient_two_thirds.1]; norm_num)

/-- With `cdf_min = 1` the divisor `1 - cdf_min` is zero, the quotient is not
finite and its conversion to a byte has no defined result. -/
theorem correct_color_cdf_min_one (x : CFloat) : correct_color x (CFloat.fin 1) = none := by
  have hd : CFloat.round32 (CFloat.sub (CFloat.fin 1) (CFloat.fin 1)) = CFloat.fin 0 := by
    simp [CFloat.sub, CFloat.neg, CFloat.add, CFloat.round32, round32_zero]
  unfold correct_color
  rw [hd]
  cases x with
  | fin q =>
    simp only [CFloat.sub, CFloat.neg, CFloat.add, CFloat.mul, CFloat.div, CFloat.round32,
      if_true]
    generalize round32 (255 * round32 (q + -1)) = n
    by_cases hz : n = 0
    · simp [hz, CFloat.to_uchar, CFloat.round32]
    · by_cases hp : 0 < n
      · simp [hz, hp, CFloat.signedInf, CFloat.to_uchar, CFloat.round32]
      · simp [hz, hp, CFloat.signedInf, CFloat.to_uchar, CFloat.round32]
  | pinf => simp [CFloat.sub, CFloat.neg, CFloat.add, CFloat.mul, CFloat.div,
      CFloat.signedInf, CFloat.to_uchar, CFloat.round32]
  | ninf => norm_num [CFloat.sub, CFloat.neg, CFloat.add, CFloat.mul, CFloat.div,
      CFloat.signedInf, CFloat.to_uchar, CFloat.round32]
  | nan => simp [CFloat.sub, CFloat.neg, CFloat.add, CFloat.mul, CFloat.div,
      CFloat.to_uchar, CFloat.round32]

/-- Once a sample of the Corrector loop is undefined, the loop is. -/
theorem apply_loop_none (cdf : List CFloat) (cdf_min : CFloat) (n lo : Nat) :
    for_loop (fun i s => s.bind (apply_sample cdf cdf_min i)) lo n none = none := by
  induction n generalizing lo with
  | zero => rfl
  | succ n ih =>
    rw [for_loop]
    exact ih (lo + 1)

/-- The Corrector loop with `cdf_min = 1` over at least one sample has no
defined result. -/
theorem apply_cdf_min_one (uchar_image : List Nat) (output_image_data : List ℚ)
    (cdf : List CFloat) (size_channels : Nat) (hpos : 0 < size_channels) :
    apply_histogram_equalization_and_convert_to_float uchar_image output_image_data cdf
      (CFloat.fin 1) size_channels = none := by
  obtain ⟨n, rfl⟩ : ∃ n, size_channels = n + 1 := ⟨size_channels - 1, by omega⟩
  unfold apply_histogram_equalization_and_convert_to_float
  rw [for_loop]
  have h0 : (some (uchar_image, output_image_data)).bind (apply_sample cdf (CFloat.fin 1) 0)
      = none := by
    simp [apply_sample, correct_color_cdf_min_one]
  rw [h0]
  exact apply_loop_none _ _ _ _

/-- A pass over an image with at least one pixel whose `cdf_min` is `1` has no
defined result. -/
theorem histogram_equalization_cdf_min_one (width height : Nat) (ptr : Buf) (h : Heap)
    (schedule : Schedule) (hpos : 0 < width * height)
    (hmin : find_cdf_min (calculate_cdf
      (process_image_and_build_histogram (h.read ptr) h.uchar_image h.gray_image
        h.histogram schedule).histogram h.cdf ((width * height : Nat) : Int)) = CFloat.fin 1) :
    histogram_equalization width height ptr h schedule = none := by
  unfold histogram_equalization
  simp only [hmin]
  rw [apply_cdf_min_one _ _ _ _ (by omega)]
  rfl

/-- The bins of the histogram the fused kernel returns are not negative. -/
theorem process_image_histogram_nonneg (input : List ℚ) (uchar_image gray_image : List Nat)
    (histogram : List Int) (schedule : Schedule) (size : Nat)
    (hs : schedule.Valid size) (hl : histogram.length = HISTOGRAM_LENGTH) :
    ∀ x ∈ (process_image_and_build_histogram input uchar_image gray_image histogram
      schedule).histogram, 0 ≤ x := by
  intro x hx
  obtain ⟨k, hk, rfl⟩ := List.getElem_of_mem hx
  have hlen := (process_image_histogram_sum input uchar_image gray_image histogram schedule
    size hs hl).1
  rw [← List.getD_eq_getElem _ 0 hk,
    process_image_histogram_getD input uchar_image gray_image histogram schedule size hs hl k
      (by omega)]
  exact Int.natCast_nonneg _

/-- One is a `float`. -/
theorem round32_one : round32 1 = 1 := by decide!

/-- The `cdf_min` of an image of `size > 0` pixels that all have the luma
`v0`: one when `v0` is `0`, zero otherwise. -/
theorem uniform_luma_cdf_min (input : List ℚ) (uchar_image gray_image : List Nat)
    (histogram : List Int) (cdf : List CFloat) (schedule : Schedule) (size : Nat)
    (hs : schedule.Valid size) (hl : histogram.length = HISTOGRAM_LENGTH)
    (hlen : cdf.length = HISTOGRAM_LENGTH) (hsize : 0 < size) (v0 : Nat)
    (hu : ∀ i, i < size →
      (process_image_and_build_histogram input uchar_image gray_image histogram
        schedule).gray_image.getD i 0 = v0) :
    find_cdf_min (calculate_cdf
      (process_image_and_build_histogram input uchar_image gray_image histogram
        schedule).histogram cdf (size : Int)) = CFloat.fin (if v0 = 0 then 1 else 0) := by
  have hpos : 0 < ((size : Nat) : Int) := by omega
  have hq : round32 (((size : Nat) : Int) : ℚ) ≠ 0 :=
    (round32_pos _ (by exact_mod_cast hpos)).ne.symm
  rw [find_cdf_min_eq_first _ _ _ hlen (by omega)
      (process_image_histogram_nonneg input uchar_image gray_image histogram schedule size hs hl),
    calculate_cdf_zero _ _ _ hlen, prob_of_pos _ _ hpos,
    process_image_histogram_getD input uchar_image gray_image histogram schedule size hs hl 0
      (by decide)]
  by_cases hv : v0 = 0
  · have hall : (List.range size).countP (fun i =>
        decide ((process_image_and_build_histogram input uchar_image gray_image histogram
          schedule).gray_image.getD i 0 = 0)) = size := by
      rw [List.countP_eq_length.mpr, List.length_range]
      intro i hi
      rw [hu i (List.mem_range.mp hi), hv]
      rfl
    rw [hall, if_pos hv]
    congr 1
    rw [div_self hq]
    exact round32_one
  · have hnone : (List.range size).countP (fun i =>
        decide ((process_image_and_build_histogram input uchar_image gray_image histogram
          schedule).gray_image.getD i 0 = 0)) = 0 := by
      rw [List.countP_eq_zero]
      intro i hi
      rw [hu i (List.mem_range.mp hi)]
      simp [hv]
    rw [hnone, if_neg hv]
    congr 1
    simp [round32_zero]

/-- The luma buffer after the fused kernel ran on a black pixel. -/
theorem black_pixel_gray :
    (process_image_and_build_histogram [0, 0, 0] [9, 9, 9] [7] (List.replicate 256 5)
      [[0]]).gray_image = [0] := by
  decide!

/-- The luma buffer after the fused kernel ran on a white pixel. -/
theorem white_pixel_gray :
    (process_image_and_build_histogram [1, 1, 1] [9, 9, 9] [7] (List.replicate 256 5)
      [[0]]).gray_image = [252] := by
  decide!

/-- Claim C8: the failing input.  On the image of one black pixel `cdf_min` is
`1`; `correct_color` then divides by `1 - 1`, for every CDF value the quotient
is not finite, and neither a pass nor the driver has a defined result. -/
theorem C8_zero_denominator_unguarded :
    find_cdf_min (calculate_cdf
      (process_image_and_build_histogram [0, 0, 0] [9, 9, 9] [7] (List.replicate 256 5)
        [[0]]).histogram (List.replicate 256 CFloat.nan) 1) = CFloat.fin 1 ∧
    CFloat.sub (CFloat.fin 1) (CFloat.fin 1) = CFloat.fin 0 ∧
    correct_color (CFloat.fin 1) (CFloat.fin 1) = none ∧
    histogram_equalization 1 1 Buf.input (one_pixel_heap 0 0 0) [[0]] = none ∧
    iterative_histogram_equalization 1 1 (one_pixel_heap 0 0 0) 1 (fun _ => [[0]]) = none := by
  have hmin : find_cdf_min (calculate_cdf
      (process_image_and_build_histogram [0, 0, 0] [9, 9, 9] [7] (List.replicate 256 5)
        [[0]]).histogram (List.replicate 256 CFloat.nan) ((1 : Nat) : Int)) = CFloat.fin 1 :=
    uniform_luma_cdf_min [0, 0, 0] [9, 9, 9] [7] (List.replicate 256 5)
      (List.replicate 256 CFloat.nan) [[0]] 1 (by decide) (List.length_replicate 256 5)
      (List.length_replicate 256 CFloat.nan) (by decide) 0
      (fun i hi => by
        rw [black_pixel_gray]
        obtain rfl : i = 0 := by omega
        rfl)
  have hpass : histogram_equalization 1 1 Buf.input (one_pixel_heap 0 0 0) [[0]] = none :=
    histogram_equalization_cdf_min_one 1 1 Buf.input (one_pixel_heap 0 0 0) [[0]]
      (by decide) hmin
  refine ⟨hmin, ?_, correct_color_cdf_min_one _, hpass, ?_⟩
  · simp [CFloat.sub, CFloat.neg, CFloat.add]
  · have h1 : (1 : Int).toNat = 1 := rfl
    unfold iterative_histogram_equalization
    rw [h1, for_loop, for_loop]
    unfold driver_step
    rw [Option.some_bind, hpass]
    rfl

/-- Claim C9 (amended).  For an image of `size > 0` pixels that all have the
same luma `v0`, the computed `cdf_min` is `1.0` when `v0` is `0`; for every
other common luma it is `0`, because `CDF[0]` is then `0`. -/
theorem C9_uniform_luma_cdf_min (input_image_data : List ℚ)
    (uchar_image gray_image : List Nat) (histogram : List Int) (cdf : List CFloat)
    (schedule : Schedule) (size : Nat) (hs : schedule.Valid size)
    (hl : histogram.length = HISTOGRAM_LENGTH) (hlen : cdf.length = HISTOGRAM_LENGTH)
    (hsize : 0 < size) (v0 : Nat)
    (hu : ∀ i, i < size →
      (process_image_and_build_histogram input_image_data uchar_image gray_image histogram
        schedule).gray_image.getD i 0 = v0) :
    (v0 = 0 → find_cdf_min (calculate_cdf
      (process_image_and_build_histogram input_image_data uchar_image gray_image histogram
        schedule).histogram cdf (size : Int)) = CFloat.fin 1) ∧
    (v0 ≠ 0 → find_cdf_min (calculate_cdf
      (process_image_and_build_histogram input_image_data uchar_image gray_image histogram
        schedule).histogram cdf (size : Int)) = CFloat.fin 0) := by
  have h := uniform_luma_cdf_min input_image_data uchar_image gray_image histogram cdf
    schedule size hs hl hlen hsize v0 hu
  constructor
  · intro hv
    rw [h, if_pos hv]
  · intro hv
    rw [h, if_neg hv]

/-- The amended C9 on the image of one black pixel. -/
theorem C9_uniform_luma_cdf_min_witness :
    ((0 : Nat) = 0 → find_cdf_min (calculate_cdf
      (process_image_and_build_histogram [0, 0, 0] [9, 9, 9] [7] (List.replicate 256 5)
        [[0]]).histogram (List.replicate 256 CFloat.nan) ((1 : Nat) : Int)) = CFloat.fin 1) ∧
    ((0 : Nat) ≠ 0 → find_cdf_min (calculate_cdf
      (process_image_and_build_histogram [0, 0, 0] [9, 9, 9] [7] (List.replicate 256 5)
        [[0]]).histogram (List.replicate 256 CFloat.nan) ((1 : Nat) : Int)) = CFloat.fin 0) :=
  C9_uniform_luma_cdf_min [0, 0, 0] [9, 9, 9] [7] (List.replicate 256 5)
    (List.replicate 256 CFloat.nan) [[0]] 1 (by decide) (List.length_replicate 256 5)
    (List.length_replicate 256 CFloat.nan) (by decide) 0
    (fun i hi => by
      rw [black_pixel_gray]
      obtain rfl : i = 0 := by omega
      rfl)

/-- Claim C9 fails as stated: the image of one white pixel has one pixel, all
its pixels have the luma `252`, and its `cdf_min` is `0`, not `1.0`. -/
theorem C9_counterexample :
    (∀ i, i < 1 →
      (process_image_and_build_histogram [1, 1, 1] [9, 9, 9] [7] (List.replicate 256 5)
        [[0]]).gray_image.getD i 0 = 252) ∧
    find_cdf_min (calculate_cdf
      (process_image_and_build_histogram [1, 1, 1] [9, 9, 9] [7] (List.replicate 256 5)
        [[0]]).histogram (List.replicate 256 CFloat.nan) ((1 : Nat) : Int)) = CFloat.fin 0 ∧
    find_cdf_min (calculate_cdf
      (process_image_and_build_histogram [1, 1, 1] [9, 9, 9] [7] (List.replicate 256 5)
        [[0]]).histogram (List.replicate 256 CFloat.nan) ((1 : Nat) : Int)) ≠ CFloat.fin 1 := by
  have hu : ∀ i, i < 1 →
      (process_image_and_build_histogram [1, 1, 1] [9, 9, 9] [7] (List.replicate 256 5)
        [[0]]).gray_image.getD i 0 = 252 := by
    intro i hi
    rw [white_pixel_gray]
    obtain rfl : i = 0 := by omega
    rfl
  have hmin := uniform_luma_cdf_min [1, 1, 1] [9, 9, 9] [7] (List.replicate 256 5)
      (List.replicate 256 CFloat.nan) [[0]] 1 (by decide) (List.length_replicate 256 5)
      (List.length_replicate 256 CFloat.nan) (by decide) 252 hu
  rw [if_neg (by decide)] at hmin
  refine ⟨hu, hmin, ?_⟩
  rw [hmin]
  intro h
  injection h with h
  norm_num at h

/-- Claim C10 (amended).  With `iterations = 0` the driver runs no pass and
returns the memory as allocated: the returned image is the output image
`wbImage_new` produced, whatever the pixel data of the input image, and the
input image is not modified. -/
theorem C10_zero_iterations_returns_new_image (width height : Nat) (h : Heap)
    (schedules : Nat → Schedule) :
    iterative_histogram_equalization width height h 0 schedules = some h ∧
    ∀ input_image : List ℚ,
      (iterative_histogram_equalization width height
        { h with input_image := input_image } 0 schedules).map Heap.output_image
        = some h.output_image := by
  constructor
  · rfl
  · intro input_image
    rfl

/-- Claim C10 fails as stated: with `iterations = 0` the image returned for a
white pixel holds the samples of the new output image, not those of the
input. -/
theorem C10_counterexample :
    (one_pixel_heap 1 1 1).input_image = [1, 1, 1] ∧
    (iterative_histogram_equalization 1 1 (one_pixel_heap 1 1 1) 0
      (fun _ => [[0]])).map Heap.output_image = some [0, 0, 0] ∧
    (iterative_histogram_equalization 1 1 (one_pixel_heap 1 1 1) 0
      (fun _ => [[0]])).map Heap.output_image ≠ some (one_pixel_heap 1 1 1).input_image := by
  refine ⟨rfl, rfl, ?_⟩
  have h : (iterative_histogram_equalization 1 1 (one_pixel_heap 1 1 1) 0
      (fun _ => [[0]])).map Heap.output_image = some [0, 0, 0] := rfl
  rw [h]
  intro hc
  have hlist : ([0, 0, 0] : List ℚ) = [1, 1, 1] := Option.some.inj hc
  simp at hlist

/-- The byte buffer after one iteration of the fused loop. -/
theorem process_pixel_uchar (input : List ℚ) (i : Nat) (s : List Nat × List Nat × List Int)
    (k : Nat) :
    (process_pixel input i s).1.getD k 0 =
      if k / 3 = i ∧ k < s.1.length then to_uchar (round32 (255 * input.getD k 0))
      else s.1.getD k 0 := by
  simp only [process_pixel]
  by_cases hk : k < s.1.length
  · by_cases h2 : k = 3 * i + 2
    · subst h2
      rw [getD_set_self _ _ _ _ (by simpa using hk), if_pos ⟨by omega, hk⟩]
    · rw [getD_set_of_ne _ _ _ (fun h => h2 h.symm)]
      by_cases h1 : k = 3 * i + 1
      · subst h1
        rw [getD_set_self _ _ _ _ (by simpa using hk), if_pos ⟨by omega, hk⟩]
      · rw [getD_set_of_ne _ _ _ (fun h => h1 h.symm)]
        by_cases h0 : k = 3 * i
        · subst h0
          rw [getD_set_self _ _ _ _ hk, if_pos ⟨by omega, hk⟩]
        · rw [getD_set_of_ne _ _ _ (fun h => h0 h.symm), if_neg (by omega)]
  · rw [if_neg (fun h => hk h.2), getD_of_length_le _ _ _ (by simpa using hk),
      getD_of_length_le _ _ _ (by simpa using hk)]

/-- The luma buffer after one iteration of the fused loop on a pixel whose
three bytes lie inside the byte buffer. -/
theorem process_pixel_gray (input : List ℚ) (i : Nat) (s : List Nat × List Nat × List Int)
    (hu : 3 * i + 2 < s.1.length) (j : Nat) :
    (process_pixel input i s).2.1.getD j 0 =
      if j = i ∧ j < s.2.1.length then pixel_luma input i else s.2.1.getD j 0 := by
  have h0 := process_pixel_uchar input i s (3 * i)
  have h1 := process_pixel_uchar input i s (3 * i + 1)
  have h2 := process_pixel_uchar input i s (3 * i + 2)
  rw [if_pos ⟨by omega, by omega⟩] at h0 h1 h2
  simp only [process_pixel] at h0 h1 h2 ⊢
  rw [h0, h1, h2]
  by_cases hj : j = i
  · subst hj
    by_cases hlen : j < s.2.1.length
    · rw [getD_set_self _ _ _ _ hlen, if_pos ⟨rfl, hlen⟩]
      rfl
    · rw [if_neg (fun h => hlen h.2), getD_of_length_le _ _ _ (by simpa using hlen),
        getD_of_length_le _ _ _ (by simpa using hlen)]
  · rw [getD_set_of_ne _ _ _ (fun h => hj h.symm), if_neg (fun h => hj h.1)]

/-- One iteration of the fused loop keeps the sizes of the buffers. -/
theorem process_pixel_length (input : List ℚ) (i : Nat) (s : List Nat × List Nat × List Int) :
    (process_pixel input i s).1.length = s.1.length ∧
    (process_pixel input i s).2.1.length = s.2.1.length := by
  simp [process_pixel]

/-- A chunk of the fused loop whose pixels lie inside the buffers: the sizes
are kept, the bytes of the pixels of the chunk are the converted samples and
their lumas are the lumas of those bytes. -/
theorem process_chunk_buffers (input : List ℚ) (chunk : List Nat)
    (s : List Nat × List Nat × List Int)
    (hu : ∀ i ∈ chunk, 3 * i + 2 < s.1.length) (hg : ∀ i ∈ chunk, i < s.2.1.length) :
    (chunk.foldl (fun s i => process_pixel input i s) s).1.length = s.1.length ∧
    (chunk.foldl (fun s i => process_pixel input i s) s).2.1.length = s.2.1.length ∧
    (∀ k, (chunk.foldl (fun s i => process_pixel input i s) s).1.getD k 0 =
      if k / 3 ∈ chunk then to_uchar (round32 (255 * input.getD k 0)) else s.1.getD k 0) ∧
    (∀ j, (chunk.foldl (fun s i => process_pixel input i s) s).2.1.getD j 0 =
      if j ∈ chunk then pixel_luma input j else s.2.1.getD j 0) := by
  induction chunk using List.reverseRecOn with
  | nil => simp
  | append_singleton l a ih =>
    have hu1 : ∀ i ∈ l, 3 * i + 2 < s.1.length :=
      fun i hi => hu i (List.mem_append_left _ hi)
    have hg1 : ∀ i ∈ l, i < s.2.1.length := fun i hi => hg i (List.mem_append_left _ hi)
    have hua : 3 * a + 2 < s.1.length := hu a (List.mem_append_right _ (List.mem_singleton_self a))
    have hga : a < s.2.1.length := hg a (List.mem_append_right _ (List.mem_singleton_self a))
    obtain ⟨e1, e2, e3, e4⟩ := ih hu1 hg1
    rw [List.foldl_append, List.foldl_cons, List.foldl_nil]
    have hlen := process_pixel_length input a (l.foldl (fun s i => process_pixel input i s) s)
    refine ⟨by rw [hlen.1, e1], by rw [hlen.2, e2], ?_, ?_⟩
    · intro k
      rw [process_pixel_uchar, e1, e3 k]
      by_cases hka : k / 3 = a
      · have hk : k < s.1.length := by omega
        rw [if_pos ⟨hka, hk⟩, if_pos (by simp [hka])]
      · rw [if_neg (fun h => hka h.1)]
        by_cases hkl : k / 3 ∈ l
        · rw [if_pos hkl, if_pos (List.mem_append_left _ hkl)]
        · rw [if_neg hkl, if_neg (by simp [hkl, hka])]
    · intro j
      rw [process_pixel_gray _ _ _ (by rw [e1]; exact hua), e2, e4 j]
      by_cases hja : j = a
      · subst hja
        rw [if_pos ⟨rfl, hga⟩, if_pos (by simp)]
      · rw [if_neg (fun h => hja h.1)]
        by_cases hjl : j ∈ l
        · rw [if_pos hjl, if_pos (List.mem_append_left _ hjl)]
        · rw [if_neg hjl, if_neg (by simp [hjl, hja])]

/-- A whole team of the fused kernel whose pixels lie inside the buffers. -/
theorem process_schedule_buffers (input : List ℚ) (schedule : Schedule) (p : Projected)
    (hu : ∀ i ∈ schedule.flatten, 3 * i + 2 < p.uchar_image.length)
    (hg : ∀ i ∈ schedule.flatten, i < p.gray_image.length) :
    (schedule.foldl (process_thread input) p).uchar_image.length = p.uchar_image.length ∧
    (schedule.foldl (process_thread input) p).gray_image.length = p.gray_image.length ∧
    (∀ k, (schedule.foldl (process_thread input) p).uchar_image.getD k 0 =
      if k / 3 ∈ schedule.flatten then to_uchar (round32 (255 * input.getD k 0))
      else p.uchar_image.getD k 0) ∧
    (∀ j, (schedule.foldl (process_thread input) p).gray_image.getD j 0 =
      if j ∈ schedule.flatten then pixel_luma input j else p.gray_image.getD j 0) := by
  induction schedule using List.reverseRecOn with
  | nil => simp
  | append_singleton l chunk ih =>
    have hfl : (l ++ [chunk]).flatten = l.flatten ++ chunk := by simp
    rw [hfl] at hu hg ⊢
    have hu1 : ∀ i ∈ l.flatten, 3 * i + 2 < p.uchar_image.length :=
      fun i hi => hu i (List.mem_append_left _ hi)
    have hg1 : ∀ i ∈ l.flatten, i < p.gray_image.length :=
      fun i hi => hg i (List.mem_append_left _ hi)
    obtain ⟨e1, e2, e3, e4⟩ := ih hu1 hg1
    rw [List.foldl_append, List.foldl_cons, List.foldl_nil]
    obtain ⟨c1, c2, c3, c4⟩ := process_chunk_buffers input chunk
      ((l.foldl (process_thread input) p).uchar_image,
        (l.foldl (process_thread input) p).gray_image, local_histogram_init)
      (fun i hi => by rw [e1]; exact hu i (List.mem_append_right _ hi))
      (fun i hi => by rw [e2]; exact hg i (List.mem_append_right _ hi))
    simp only [process_thread]
    refine ⟨by rw [c1, e1], by rw [c2, e2], ?_, ?_⟩
    · intro k
      rw [c3 k, e3 k]
      by_cases hc : k / 3 ∈ chunk
      · rw [if_pos hc, if_pos (List.mem_append_right _ hc)]
      · rw [if_neg hc]
        by_cases hl : k / 3 ∈ l.flatten
        · rw [if_pos hl, if_pos (List.mem_append_left _ hl)]
        · rw [if_neg hl, if_neg (by simp only [List.mem_append, not_or]; exact ⟨hl, hc⟩)]
    · intro j
      rw [c4 j, e4 j]
      by_cases hc : j ∈ chunk
      · rw [if_pos hc, if_pos (List.mem_append_right _ hc)]
      · rw [if_neg hc]
        by_cases hl : j ∈ l.flatten
        · rw [if_pos hl, if_pos (List.mem_append_left _ hl)]
        · rw [if_neg hl, if_neg (by simp only [List.mem_append, not_or]; exact ⟨hl, hc⟩)]

/-- The byte and luma buffers the fused kernel returns for buffers of the
allocated sizes, under any schedule that covers the pixels once: byte `k` is
the converted sample `k`, luma `i` is the luma of the bytes of pixel `i`. -/
theorem process_image_buffers (input : List ℚ) (uchar_image gray_image : List Nat)
    (histogram : List Int) (schedule : Schedule) (size : Nat) (hs : schedule.Valid size)
    (hu : uchar_image.length = size * 3) (hg : gray_image.length = size) :
    (process_image_and_build_histogram input uchar_image gray_image histogram
      schedule).uchar_image.length = size * 3 ∧
    (process_image_and_build_histogram input uchar_image gray_image histogram
      schedule).gray_image.length = size ∧
    (∀ k, k < size * 3 →
      (process_image_and_build_histogram input uchar_image gray_image histogram
        schedule).uchar_image.getD k 0 = to_uchar (round32 (255 * input.getD k 0))) ∧
    (∀ i, i < size →
      (process_image_and_build_histogram input uchar_image gray_image histogram
        schedule).gray_image.getD i 0 = pixel_luma input i) := by
  have hmem : ∀ i, i ∈ schedule.flatten ↔ i < size := fun i => by
    rw [List.Perm.mem_iff hs, List.mem_range]
  obtain ⟨e1, e2, e3, e4⟩ := process_schedule_buffers input schedule
    (Projected.mk uchar_image gray_image (fill_zero histogram))
    (fun i hi => by
      have := (hmem i).mp hi
      show 3 * i + 2 < uchar_image.length
      omega)
    (fun i hi => by
      have := (hmem i).mp hi
      show i < gray_image.length
      omega)
  unfold process_image_and_build_histogram
  refine ⟨by rw [e1]; exact hu, by rw [e2]; exact hg, ?_, ?_⟩
  · intro k hk
    rw [e3 k, if_pos ((hmem _).mpr (by omega))]
  · intro i hi
    rw [e4 i, if_pos ((hmem _).mpr hi)]

/-- Two buffers of the same size with the same elements are equal. -/
theorem list_ext_getD {α : Type} (a b : List α) (d : α) (hlen : a.length = b.length)
    (h : ∀ k, k < a.length → a.getD k d = b.getD k d) : a = b := by
  apply List.ext_getElem hlen
  intro k h1 h2
  have := h k h1
  rwa [List.getD_eq_getElem _ _ h1, List.getD_eq_getElem _ _ h2] at this

/-- Rounding to `double` of a non-negative number below a bound. -/
theorem round64_le (x y : ℚ) (hx : 0 ≤ x) (hxy : x ≤ y) :
    round64 x ≤ y * (1 + 1 / (2 : ℚ) ^ 53) :=
  (round_to_upper 53 x hx).trans (mul_le_mul_of_nonneg_right hxy (by norm_num))

theorem round64_nonneg (x : ℚ) (hx : 0 ≤ x) : 0 ≤ round64 x := round_to_nonneg 53 x hx

/-- The value the luma expression takes in `double` arithmetic on three bytes
that are at most `m`: not negative and at most `0.991 * m`. -/
theorem luma_value_bounds (r g b m : Nat) (hr : r ≤ m) (hg : g ≤ m) (hb : b ≤ m) :
    0 ≤ round64 (round64 (round64 (round64 (21 / 100) * r) + round64 (round64 (71 / 100) * g))
        + round64 (round64 (7 / 100) * b)) ∧
    round64 (round64 (round64 (round64 (21 / 100) * r) + round64 (round64 (71 / 100) * g))
        + round64 (round64 (7 / 100) * b)) ≤ 991 / 1000 * (m : ℚ) := by
  have hr0 : (0 : ℚ) ≤ (r : ℚ) := Nat.cast_nonneg r
  have hg0 : (0 : ℚ) ≤ (g : ℚ) := Nat.cast_nonneg g
  have hb0 : (0 : ℚ) ≤ (b : ℚ) := Nat.cast_nonneg b
  have hm0 : (0 : ℚ) ≤ (m : ℚ) := Nat.cast_nonneg m
  have hrm : (r : ℚ) ≤ (m : ℚ) := by exact_mod_cast hr
  have hgm : (g : ℚ) ≤ (m : ℚ) := by exact_mod_cast hg
  have hbm : (b : ℚ) ≤ (m : ℚ) := by exact_mod_cast hb
  have n1 : 0 ≤ round64 (21 / 100) := round64_nonneg _ (by norm_num)
  have n2 : 0 ≤ round64 (71 / 100) := round64_nonneg _ (by norm_num)
  have n3 : 0 ≤ round64 (7 / 100) := round64_nonneg _ (by norm_num)
  have a1 : round64 (21 / 100) ≤ 21 / 100 * (1 + 1 / (2 : ℚ) ^ 53) :=
    round64_le _ _ (by norm_num) (le_refl _)
  have a2 : round64 (71 / 100) ≤ 71 / 100 * (1 + 1 / (2 : ℚ) ^ 53) :=
    round64_le _ _ (by norm_num) (le_refl _)
  have a3 : round64 (7 / 100) ≤ 7 / 100 * (1 + 1 / (2 : ℚ) ^ 53) :=
    round64_le _ _ (by norm_num) (le_refl _)
  have p1 : round64 (21 / 100) * r ≤ 21 / 100 * (1 + 1 / (2 : ℚ) ^ 53) * m :=
    mul_le_mul a1 hrm hr0 (by norm_num)
  have p2 : round64 (71 / 100) * g ≤ 71 / 100 * (1 + 1 / (2 : ℚ) ^ 53) * m :=
    mul_le_mul a2 hgm hg0 (by norm_num)
  have p3 : round64 (7 / 100) * b ≤ 7 / 100 * (1 + 1 / (2 : ℚ) ^ 53) * m :=
    mul_le_mul a3 hbm hb0 (by norm_num)
  have q1 := mul_nonneg n1 hr0
  have q2 := mul_nonneg n2 hg0
  have q3 := mul_nonneg n3 hb0
  have t1 := round64_le _ _ q1 p1
  have t2 := round64_le _ _ q2 p2
  have t3 := round64_le _ _ q3 p3
  have u1 := round64_nonneg _ q1
  have u2 := round64_nonneg _ q2
  have u3 := round64_nonneg _ q3
  have s1 := round64_le _ _ (add_nonneg u1 u2) (add_le_add t1 t2)
  have v1 := round64_nonneg _ (add_nonneg u1 u2)
  have s2 := round64_le _ _ (add_nonneg v1 u3) (add_le_add s1 t3)
  refine ⟨round64_nonneg _ (add_nonneg v1 u3), le_trans s2 ?_⟩
  have hK : ((21 / 100 * (1 + 1 / (2 : ℚ) ^ 53) * m * (1 + 1 / (2 : ℚ) ^ 53)
        + 71 / 100 * (1 + 1 / (2 : ℚ) ^ 53) * m * (1 + 1 / (2 : ℚ) ^ 53))
          * (1 + 1 / (2 : ℚ) ^ 53)
        + 7 / 100 * (1 + 1 / (2 : ℚ) ^ 53) * m * (1 + 1 / (2 : ℚ) ^ 53))
          * (1 + 1 / (2 : ℚ) ^ 53)
      = ((21 / 100 * (1 + 1 / (2 : ℚ) ^ 53) * (1 + 1 / (2 : ℚ) ^ 53)
        + 71 / 100 * (1 + 1 / (2 : ℚ) ^ 53) * (1 + 1 / (2 : ℚ) ^ 53))
          * (1 + 1 / (2 : ℚ) ^ 53)
        + 7 / 100 * (1 + 1 / (2 : ℚ) ^ 53) * (1 + 1 / (2 : ℚ) ^ 53))
          * (1 + 1 / (2 : ℚ) ^ 53) * m := by
    ring
  rw [hK]
  exact mul_le_mul_of_nonneg_right (by norm_num) hm0

/-- The luma of three bytes, evaluated in `double` arithmetic and truncated,
is at most `252` and at most the largest byte. -/
theorem luma_bounds (r g b : Nat) (hr : r ≤ 255) (hg : g ≤ 255) (hb : b ≤ 255) :
    luma r g b ≤ 252 ∧ luma r g b ≤ max r (max g b) := by
  obtain ⟨m, hm⟩ : ∃ m : Nat, m = max r (max g b) := ⟨_, rfl⟩
  obtain ⟨h0, h1⟩ := luma_value_bounds r g b m (by omega) (by omega) (by omega)
  have hm1 : (m : ℚ) ≤ 255 := by
    have : m ≤ 255 := by omega
    exact_mod_cast this
  have hm0 : (0 : ℚ) ≤ (m : ℚ) := Nat.cast_nonneg m
  unfold luma
  rw [← hm]
  generalize round64 (round64 (round64 (round64 (21 / 100) * (r : ℚ))
    + round64 (round64 (71 / 100) * (g : ℚ))) + round64 (round64 (7 / 100) * (b : ℚ))) = s
    at h0 h1 ⊢
  have hq1 : s < 253 := by linarith
  have hq2 : s < (((m : Int) + 1 : Int) : ℚ) := by
    push_cast
    linarith
  have hf0 : 0 ≤ ⌊s⌋ := Int.floor_nonneg.mpr h0
  have hf1 : ⌊s⌋ < 253 := Int.floor_lt.mpr (by exact_mod_cast hq1)
  have hf2 : ⌊s⌋ < (m : Int) + 1 := Int.floor_lt.mpr hq2
  rw [(to_uchar_in_range _ h0 (by linarith)).1]
  omega

/-- The floor of the luma expression in exact arithmetic is at most `252` and
at most the largest byte. -/
theorem exact_luma_bounds (r g b : Nat) (hr : r ≤ 255) (hg : g ≤ 255) (hb : b ≤ 255) :
    ⌊(21 / 100 : ℚ) * r + (71 / 100 : ℚ) * g + (7 / 100 : ℚ) * b⌋.toNat ≤ 252 ∧
    ⌊(21 / 100 : ℚ) * r + (71 / 100 : ℚ) * g + (7 / 100 : ℚ) * b⌋.toNat ≤ max r (max g b) := by
  have hr0 : (0 : ℚ) ≤ (r : ℚ) := Nat.cast_nonneg r
  have hg0 : (0 : ℚ) ≤ (g : ℚ) := Nat.cast_nonneg g
  have hb0 : (0 : ℚ) ≤ (b : ℚ) := Nat.cast_nonneg b
  have hr1 : (r : ℚ) ≤ 255 := by exact_mod_cast hr
  have hg1 : (g : ℚ) ≤ 255 := by exact_mod_cast hg
  have hb1 : (b : ℚ) ≤ 255 := by exact_mod_cast hb
  obtain ⟨m, hm⟩ : ∃ m : Nat, m = max r (max g b) := ⟨_, rfl⟩
  have hrm : (r : ℚ) ≤ (m : ℚ) := by
    have : r ≤ m := by omega
    exact_mod_cast this
  have hgm : (g : ℚ) ≤ (m : ℚ) := by
    have : g ≤ m := by omega
    exact_mod_cast this
  have hbm : (b : ℚ) ≤ (m : ℚ) := by
    have : b ≤ m := by omega
    exact_mod_cast this
  have hq0 : (0 : ℚ) ≤ (21 / 100 : ℚ) * r + (71 / 100 : ℚ) * g + (7 / 100 : ℚ) * b := by
    positivity
  have hq1 : (21 / 100 : ℚ) * r + (71 / 100 : ℚ) * g + (7 / 100 : ℚ) * b < 253 := by
    linarith
  have hq2 : (21 / 100 : ℚ) * r + (71 / 100 : ℚ) * g + (7 / 100 : ℚ) * b <
      (((m : Int) + 1 : Int) : ℚ) := by
    push_cast
    linarith
  have hf0 : 0 ≤ ⌊(21 / 100 : ℚ) * r + (71 / 100 : ℚ) * g + (7 / 100 : ℚ) * b⌋ :=
    Int.floor_nonneg.mpr hq0
  have hf1 : ⌊(21 / 100 : ℚ) * r + (71 / 100 : ℚ) * g + (7 / 100 : ℚ) * b⌋ < 253 :=
    Int.floor_lt.mpr (by exact_mod_cast hq1)
  have hf2 : ⌊(21 / 100 : ℚ) * r + (71 / 100 : ℚ) * g + (7 / 100 : ℚ) * b⌋ < (m : Int) + 1 :=
    Int.floor_lt.mpr hq2
  rw [← hm]
  omega

/-- The luma of a pixel of any image is at most `252`. -/
theorem pixel_luma_le (input : List ℚ) (i : Nat) : pixel_luma input i ≤ 252 := by
  unfold pixel_luma
  have h0 := to_uchar_lt (round32 (255 * input.getD (3 * i) 0))
  have h1 := to_uchar_lt (round32 (255 * input.getD (3 * i + 1) 0))
  have h2 := to_uchar_lt (round32 (255 * input.getD (3 * i + 2) 0))
  exact (luma_bounds _ _ _ (by omega) (by omega) (by omega)).1

/-- Claim C19.  For every RGB byte triple the luma, the truncation of
`0.21 r + 0.71 g + 0.07 b` evaluated in `double` arithmetic, is at most `252`
and at most `max(r, g, b)`, and so is the floor of the expression in exact
arithmetic; consequently bins `253`, `254` and `255` of the histogram the
fused kernel builds are `0` for every image. -/
theorem C19_luma_at_most_252 (input_image_data : List ℚ) (uchar_image gray_image : List Nat)
    (histogram : List Int) (schedule : Schedule) (size : Nat) (hs : schedule.Valid size)
    (hl : histogram.length = HISTOGRAM_LENGTH) (hu : uchar_image.length = size * 3)
    (hg : gray_image.length = size) :
    (∀ r g b : Nat, r ≤ 255 → g ≤ 255 → b ≤ 255 →
      (luma r g b ≤ 252 ∧ luma r g b ≤ max r (max g b)) ∧
      ⌊(21 / 100 : ℚ) * r + (71 / 100 : ℚ) * g + (7 / 100 : ℚ) * b⌋.toNat ≤ 252 ∧
      ⌊(21 / 100 : ℚ) * r + (71 / 100 : ℚ) * g + (7 / 100 : ℚ) * b⌋.toNat ≤ max r (max g b)) ∧
    (∀ v, 253 ≤ v → v < HISTOGRAM_LENGTH →
      (process_image_and_build_histogram input_image_data uchar_image gray_image histogram
        schedule).histogram.getD v 0 = 0) := by
  constructor
  · intro r g b hr hg hb
    exact ⟨luma_bounds r g b hr hg hb, exact_luma_bounds r g b hr hg hb⟩
  · intro v hv1 hv2
    obtain ⟨_, _, _, e4⟩ := process_image_buffers input_image_data uchar_image gray_image
      histogram schedule size hs hu hg
    rw [process_image_histogram_getD _ _ _ _ _ size hs hl v hv2]
    have hzero : (List.range size).countP (fun i =>
        decide ((process_image_and_build_histogram input_image_data uchar_image gray_image
          histogram schedule).gray_image.getD i 0 = v)) = 0 := by
      rw [List.countP_eq_zero]
      intro i hi
      rw [e4 i (List.mem_range.mp hi)]
      have := pixel_luma_le input_image_data i
      simp only [decide_eq_true_eq]
      omega
    rw [hzero]
    rfl

/-- C19 on an image of two pixels, black and white. -/
theorem C19_luma_at_most_252_witness :
    (∀ r g b : Nat, r ≤ 255 → g ≤ 255 → b ≤ 255 →
      (luma r g b ≤ 252 ∧ luma r g b ≤ max r (max g b)) ∧
      ⌊(21 / 100 : ℚ) * r + (71 / 100 : ℚ) * g + (7 / 100 : ℚ) * b⌋.toNat ≤ 252 ∧
      ⌊(21 / 100 : ℚ) * r + (71 / 100 : ℚ) * g + (7 / 100 : ℚ) * b⌋.toNat ≤ max r (max g b)) ∧
    (∀ v, 253 ≤ v → v < HISTOGRAM_LENGTH →
      (process_image_and_build_histogram [0, 0, 0, 1, 1, 1] [9, 9, 9, 9, 9, 9] [7, 7]
        (List.replicate 256 5) [[1], [0]]).histogram.getD v 0 = 0) :=
  C19_luma_at_most_252 [0, 0, 0, 1, 1, 1] [9, 9, 9, 9, 9, 9] [7, 7] (List.replicate 256 5)
    [[1], [0]] 2 (by decide) (List.length_replicate 256 5) (by decide) (by decide)

/-- The buffer `convert_to_uchar` returns. -/
theorem convert_to_uchar_getD (input : List ℚ) (uchar_image : List Nat) (n k : Nat) :
    (convert_to_uchar input uchar_image n).getD k 0 =
      if k < n ∧ k < uchar_image.length then to_uchar (round32 (255 * input.getD k 0))
      else uchar_image.getD k 0 := by
  unfold convert_to_uchar
  rw [for_loop_pointwise (fun i _ => to_uchar (round32 (255 * input.getD i 0))) 0]
  by_cases h : k < n ∧ k < uchar_image.length
  · rw [if_pos ⟨Nat.zero_le k, by omega, h.2⟩, if_pos h]
  · rw [if_neg (fun hc => h ⟨by omega, hc.2.2⟩), if_neg h]

/-- The buffer `convert_to_grayscale` returns. -/
theorem convert_to_grayscale_getD (uchar_image gray_image : List Nat) (n i : Nat) :
    (convert_to_grayscale uchar_image gray_image n).getD i 0 =
      if i < n ∧ i < gray_image.length then
        luma (uchar_image.getD (3 * i) 0) (uchar_image.getD (3 * i + 1) 0)
          (uchar_image.getD (3 * i + 2) 0)
      else gray_image.getD i 0 := by
  unfold convert_to_grayscale
  rw [for_loop_pointwise (fun i _ => luma (uchar_image.getD (3 * i) 0)
    (uchar_image.getD (3 * i + 1) 0) (uchar_image.getD (3 * i + 2) 0)) 0]
  by_cases h : i < n ∧ i < gray_image.length
  · rw [if_pos ⟨Nat.zero_le i, by omega, h.2⟩, if_pos h]
  · rw [if_neg (fun hc => h ⟨by omega, hc.2.2⟩), if_neg h]

/-- The separate stages `convert_to_uchar` and `convert_to_grayscale` give the
byte and luma buffers of the fused kernel. -/
theorem separate_stages_buffers (input : List ℚ) (uchar_image gray_image : List Nat)
    (histogram : List Int) (schedule : Schedule) (size : Nat) (hs : schedule.Valid size)
    (hu : uchar_image.length = size * 3) (hg : gray_image.length = size) :
    (process_image_and_build_histogram input uchar_image gray_image histogram
      schedule).uchar_image = convert_to_uchar input uchar_image (size * 3) ∧
    (process_image_and_build_histogram input uchar_image gray_image histogram
      schedule).gray_image =
        convert_to_grayscale (convert_to_uchar input uchar_image (size * 3)) gray_image size := by
  obtain ⟨e1, e2, e3, e4⟩ := process_image_buffers input uchar_image gray_image histogram
    schedule size hs hu hg
  have hlu : (convert_to_uchar input uchar_image (size * 3)).length = uchar_image.length :=
    for_loop_set_length (fun i _ => to_uchar (round32 (255 * input.getD i 0))) _ _ _
  have hlg : (convert_to_grayscale (convert_to_uchar input uchar_image (size * 3)) gray_image
      size).length = gray_image.length :=
    for_loop_set_length (fun i _ => luma
      ((convert_to_uchar input uchar_image (size * 3)).getD (3 * i) 0)
      ((convert_to_uchar input uchar_image (size * 3)).getD (3 * i + 1) 0)
      ((convert_to_uchar input uchar_image (size * 3)).getD (3 * i + 2) 0)) _ _ _
  constructor
  · apply list_ext_getD _ _ 0 (by rw [e1, hlu, hu])
    intro k hk
    rw [e1] at hk
    rw [e3 k hk, convert_to_uchar_getD, if_pos ⟨hk, by omega⟩]
  · apply list_ext_getD _ _ 0 (by rw [e2, hlg, hg])
    intro i hi
    rw [e2] at hi
    rw [e4 i hi, convert_to_grayscale_getD, if_pos ⟨hi, by omega⟩,
      convert_to_uchar_getD, convert_to_uchar_getD, convert_to_uchar_getD,
      if_pos ⟨by omega, by omega⟩, if_pos ⟨by omega, by omega⟩, if_pos ⟨by omega, by omega⟩]
    rfl

/-- The luma buffer the fused kernel returns for buffers of the allocated
sizes holds bytes. -/
theorem process_image_gray_bytes (input : List ℚ) (uchar_image gray_image : List Nat)
    (histogram : List Int) (schedule : Schedule) (size : Nat) (hs : schedule.Valid size)
    (hu : uchar_image.length = size * 3) (hg : gray_image.length = size) (i : Nat) :
    (process_image_and_build_histogram input uchar_image gray_image histogram
      schedule).gray_image.getD i 0 < HISTOGRAM_LENGTH := by
  obtain ⟨_, e2, _, e4⟩ := process_image_buffers input uchar_image gray_image histogram
    schedule size hs hu hg
  by_cases hi : i < size
  · rw [e4 i hi]
    have := pixel_luma_le input i
    have h256 : HISTOGRAM_LENGTH = 256 := rfl
    omega
  · rw [getD_of_length_le _ _ _ (by omega)]
    decide

/-- The fused kernel against the three separate stages, on buffers of the
allocated sizes. -/
theorem fused_kernel_eq_separate_stages (input_image_data : List ℚ)
    (uchar_image gray_image : List Nat) (histogram : List Int)
    (schedule schedule2 : Schedule) (size : Nat)
    (hs : schedule.Valid size) (hs2 : schedule2.Valid size)
    (hl : histogram.length = HISTOGRAM_LENGTH) (hu : uchar_image.length = size * 3)
    (hg : gray_image.length = size) :
    (process_image_and_build_histogram input_image_data uchar_image gray_image histogram
      schedule).uchar_image = convert_to_uchar input_image_data uchar_image (size * 3) ∧
    (process_image_and_build_histogram input_image_data uchar_image gray_image histogram
      schedule).gray_image =
        convert_to_grayscale (convert_to_uchar input_image_data uchar_image (size * 3))
          gray_image size ∧
    (process_image_and_build_histogram input_image_data uchar_image gray_image histogram
      schedule).histogram =
        build_histogram
          (convert_to_grayscale (convert_to_uchar input_image_data uchar_image (size * 3))
            gray_image size)
          histogram schedule2 := by
  obtain ⟨b1, b2⟩ := separate_stages_buffers input_image_data uchar_image gray_image
    histogram schedule size hs hu hg
  refine ⟨b1, b2, ?_⟩
  rw [← b2]
  have hbytes := process_image_gray_bytes input_image_data uchar_image gray_image histogram
    schedule size hs hu hg
  have hlen1 := (process_image_histogram_sum input_image_data uchar_image gray_image histogram
    schedule size hs hl).1
  have hlen2 := (build_schedule_spec _ hbytes schedule2 (fill_zero histogram)
    (by rw [fill_zero_length]; exact hl)).1
  apply list_ext_getD _ _ 0 (by rw [hlen1]; exact hlen2.symm)
  intro v hv
  rw [hlen1] at hv
  rw [process_image_histogram_getD _ _ _ _ _ size hs hl v hv,
    build_histogram_getD _ hbytes _ _ size hs2 hl v hv]

/-- Claim C20.  On buffers of the allocated sizes the fused kernel
`process_image_and_build_histogram` produces the byte buffer, the luma buffer
and the histogram of the three separate stages `convert_to_uchar`,
`convert_to_grayscale` and `build_histogram` run in turn on the same input,
whatever the schedules of the two histogram builds. -/
theorem C20_fused_kernel_equals_separate_stages (input_image_data : List ℚ)
    (uchar_image gray_image : List Nat) (histogram : List Int)
    (schedule schedule2 : Schedule) (size : Nat)
    (hs : schedule.Valid size) (hs2 : schedule2.Valid size)
    (hl : histogram.length = HISTOGRAM_LENGTH) (hu : uchar_image.length = size * 3)
    (hg : gray_image.length = size) :
    (process_image_and_build_histogram input_image_data uchar_image gray_image histogram
      schedule).uchar_image = convert_to_uchar input_image_data uchar_image (size * 3) ∧
    (process_image_and_build_histogram input_image_data uchar_image gray_image histogram
      schedule).gray_image =
        convert_to_grayscale (convert_to_uchar input_image_data uchar_image (size * 3))
          gray_image size ∧
    (process_image_and_build_histogram input_image_data uchar_image gray_image histogram
      schedule).histogram =
        build_histogram
          (convert_to_grayscale (convert_to_uchar input_image_data uchar_image (size * 3))
            gray_image size)
          histogram schedule2 :=
  fused_kernel_eq_separate_stages input_image_data uchar_image gray_image histogram schedule schedule2 size
    hs hs2 hl hu hg

/-- C20 on an image of two pixels, the fused kernel under a schedule of two
threads and `build_histogram` under the schedule of one thread. -/
theorem C20_fused_kernel_equals_separate_stages_witness :
    (process_image_and_build_histogram [0, 0, 0, 1, 1, 1] [9, 9, 9, 9, 9, 9] [7, 7]
      (List.replicate 256 5) [[1], [0]]).uchar_image =
        convert_to_uchar [0, 0, 0, 1, 1, 1] [9, 9, 9, 9, 9, 9] (2 * 3) ∧
    (process_image_and_build_histogram [0, 0, 0, 1, 1, 1] [9, 9, 9, 9, 9, 9] [7, 7]
      (List.replicate 256 5) [[1], [0]]).gray_image =
        convert_to_grayscale (convert_to_uchar [0, 0, 0, 1, 1, 1] [9, 9, 9, 9, 9, 9] (2 * 3))
          [7, 7] 2 ∧
    (process_image_and_build_histogram [0, 0, 0, 1, 1, 1] [9, 9, 9, 9, 9, 9] [7, 7]
      (List.replicate 256 5) [[1], [0]]).histogram =
        build_histogram
          (convert_to_grayscale (convert_to_uchar [0, 0, 0, 1, 1, 1] [9, 9, 9, 9, 9, 9] (2 * 3))
            [7, 7] 2)
          (List.replicate 256 5) [[0, 1]] :=
  C20_fused_kernel_equals_separate_stages [0, 0, 0, 1, 1, 1] [9, 9, 9, 9, 9, 9] [7, 7]
    (List.replicate 256 5) [[1], [0]] [[0, 1]] 2 (by decide) (by decide)
    (List.length_replicate 256 5) (by decide) (by decide)

/-- The counting loop, run sequentially over the pixels `0 .. n - 1`: the size
of the counter is kept and every bin grows by the number of those pixels with
that luma. -/
theorem counting_loop_spec (gray_image : List Nat)
    (hg : ∀ i, gray_image.getD i 0 < HISTOGRAM_LENGTH) (l : List Int)
    (hl : l.length = HISTOGRAM_LENGTH) (n : Nat) :
    (for_loop
      (fun i h => h.set (gray_image.getD i 0) (h.getD (gray_image.getD i 0) 0 + 1))
      0 n l).length = HISTOGRAM_LENGTH ∧
    ∀ v, v < HISTOGRAM_LENGTH →
      (for_loop
        (fun i h => h.set (gray_image.getD i 0) (h.getD (gray_image.getD i 0) 0 + 1))
        0 n l).getD v 0 =
        l.getD v 0 + ((List.range n).countP (fun i => decide (gray_image.getD i 0 = v)) : Nat) := by
  induction n with
  | zero =>
    refine ⟨hl, fun v _ => ?_⟩
    simp [for_loop]
  | succ n ih =>
    obtain ⟨h1, h2⟩ := ih
    rw [for_loop_succ_last]
    refine ⟨by rw [List.length_set]; exact h1, fun v hv => ?_⟩
    rw [Nat.zero_add, increment_getD _ _ _ h1 (hg n), h2 v hv, List.range_succ,
      List.countP_append, List.countP_singleton]
    simp only [decide_eq_true_eq]
    split <;> (push_cast; ring)

/-- Bins of the single sequential count. -/
theorem sequential_histogram_getD (gray_image : List Nat)
    (hg : ∀ i, gray_image.getD i 0 < HISTOGRAM_LENGTH) (size v : Nat)
    (hv : v < HISTOGRAM_LENGTH) :
    (sequential_histogram gray_image size).getD v 0 =
      ((List.range size).countP (fun i => decide (gray_image.getD i 0 = v)) : Nat) := by
  unfold sequential_histogram
  rw [(counting_loop_spec gray_image hg _ (List.length_replicate _ _) size).2 v hv]
  have h0 : (List.replicate HISTOGRAM_LENGTH (0 : Int)).getD v 0 = 0 :=
    local_histogram_init_getD v
  rw [h0, zero_add]

/-- Under any schedule that covers the pixels once, `build_histogram` returns
the single sequential count. -/
theorem build_histogram_eq_sequential (gray_image : List Nat)
    (hg : ∀ x ∈ gray_image, x < HISTOGRAM_LENGTH) (histogram : List Int)
    (hl : histogram.length = HISTOGRAM_LENGTH) (schedule : Schedule) (size : Nat)
    (hs : schedule.Valid size) :
    build_histogram gray_image histogram schedule = sequential_histogram gray_image size := by
  have hbytes := getD_lt_of_bytes gray_image hg
  have hlen1 : (build_histogram gray_image histogram schedule).length = HISTOGRAM_LENGTH :=
    (build_schedule_spec gray_image hbytes schedule (fill_zero histogram)
      (by rw [fill_zero_length]; exact hl)).1
  have hlen2 : (sequential_histogram gray_image size).length = HISTOGRAM_LENGTH :=
    (counting_loop_spec gray_image hbytes (List.replicate HISTOGRAM_LENGTH 0)
      (List.length_replicate _ _) size).1
  refine list_ext_getD (build_histogram gray_image histogram schedule)
    (sequential_histogram gray_image size) 0 (hlen1.trans hlen2.symm) ?_
  intro v hv
  rw [hlen1] at hv
  rw [build_histogram_getD _ hbytes _ _ size hs hl v hv,
    sequential_histogram_getD _ hbytes size v hv]

/-- A rearrangement of the chunks of a schedule covers the same pixels. -/
theorem Schedule.Valid.of_perm {schedule schedule2 : Schedule} {size : Nat}
    (hs : schedule.Valid size) (hp : List.Perm schedule2 schedule) : schedule2.Valid size :=
  List.Perm.trans (List.Perm.flatten hp) hs

/-- Claim C14.  The histogram does not depend on the number of workers or on
the scheduling order.  For every luma buffer of bytes and every partition of
the pixel indices `0 .. size - 1` into any number of chunks, counting each
chunk into a private zeroed counter and adding the private counters into the
zeroed histogram, in the order of the schedule or in any rearrangement of it,
gives the histogram of a single sequential count over all pixels; the fused
kernel, on buffers of the allocated sizes, gives that same histogram of its
luma buffer under every schedule. -/
theorem C14_histogram_independent_of_schedule (input_image_data : List ℚ)
    (uchar_image gray_image : List Nat) (histogram : List Int) (schedule : Schedule)
    (size : Nat) (hs : schedule.Valid size) (hl : histogram.length = HISTOGRAM_LENGTH)
    (hbytes : ∀ x ∈ gray_image, x < HISTOGRAM_LENGTH)
    (hu : uchar_image.length = size * 3) (hg : gray_image.length = size) :
    build_histogram gray_image histogram schedule = sequential_histogram gray_image size ∧
    (∀ schedule2 : Schedule, List.Perm schedule2 schedule →
      build_histogram gray_image histogram schedule2 =
        build_histogram gray_image histogram schedule) ∧
    (∀ schedule2 : Schedule, schedule2.Valid size →
      build_histogram gray_image histogram schedule2 =
        build_histogram gray_image histogram schedule) ∧
    (process_image_and_build_histogram input_image_data uchar_image gray_image histogram
      schedule).histogram =
        sequential_histogram
          (process_image_and_build_histogram input_image_data uchar_image gray_image
            histogram schedule).gray_image size ∧
    (∀ schedule2 : Schedule, schedule2.Valid size →
      process_image_and_build_histogram input_image_data uchar_image gray_image histogram
        schedule2 =
      process_image_and_build_histogram input_image_data uchar_image gray_image histogram
        schedule) := by
  have hseq := build_histogram_eq_sequential gray_image hbytes histogram hl schedule size hs
  have hfused : ∀ s : Schedule, s.Valid size →
      process_image_and_build_histogram input_image_data uchar_image gray_image histogram s =
        Projected.mk (convert_to_uchar input_image_data uchar_image (size * 3))
          (convert_to_grayscale (convert_to_uchar input_image_data uchar_image (size * 3))
            gray_image size)
          (build_histogram
            (convert_to_grayscale (convert_to_uchar input_image_data uchar_image (size * 3))
              gray_image size)
            histogram schedule) := by
    intro s hvalid
    obtain ⟨c1, c2, c3⟩ := fused_kernel_eq_separate_stages input_image_data uchar_image gray_image
      histogram s schedule size hvalid hs hl hu hg
    cases hp : process_image_and_build_histogram input_image_data uchar_image gray_image
      histogram s with
    | mk u g h =>
      rw [hp] at c1 c2 c3
      simp only at c1 c2 c3
      rw [c1, c2, c3]
  refine ⟨hseq, ?_, ?_, ?_, ?_⟩
  · intro schedule2 hp
    rw [hseq, build_histogram_eq_sequential gray_image hbytes histogram hl schedule2 size
      (hs.of_perm hp)]
  · intro schedule2 hs2
    rw [hseq, build_histogram_eq_sequential gray_image hbytes histogram hl schedule2 size hs2]
  · obtain ⟨_, c2, c3⟩ := fused_kernel_eq_separate_stages input_image_data uchar_image gray_image
      histogram schedule schedule size hs hs hl hu hg
    rw [c3, c2]
    have hb : ∀ x ∈ convert_to_grayscale
        (convert_to_uchar input_image_data uchar_image (size * 3)) gray_image size,
        x < HISTOGRAM_LENGTH := by
      intro x hx
      obtain ⟨k, hk, rfl⟩ := List.getElem_of_mem hx
      rw [← List.getD_eq_getElem _ 0 hk, ← c2]
      exact process_image_gray_bytes input_image_data uchar_image gray_image histogram
        schedule size hs hu hg k
    exact build_histogram_eq_sequential _ hb histogram hl schedule size hs
  · intro schedule2 hs2
    rw [hfused schedule2 hs2, hfused schedule hs]

/-- The Corrector loop keeps the sizes of the byte and output buffers. -/
theorem apply_loop_length (cdf : List CFloat) (cdf_min : CFloat) (n lo : Nat)
    (s r : List Nat × List ℚ)
    (hret : for_loop (fun i s => s.bind (apply_sample cdf cdf_min i)) lo n (some s) = some r) :
    r.1.length = s.1.length ∧ r.2.length = s.2.length := by
  induction n generalizing lo s with
  | zero =>
    simp only [for_loop, Option.some.injEq] at hret
    subst hret
    exact ⟨rfl, rfl⟩
  | succ n ih =>
    rw [for_loop, Option.some_bind] at hret
    cases hstep : apply_sample cdf cdf_min lo s with
    | none =>
      rw [hstep, apply_loop_none] at hret
      cases hret
    | some s1 =>
      rw [hstep] at hret
      obtain ⟨e1, e2⟩ := ih _ _ hret
      unfold apply_sample at hstep
      split at hstep
      · cases hstep
      · simp only [Option.some.injEq] at hstep
        subst hstep
        simpa using And.intro e1 e2

/-- The Corrector loop when every sample has a defined corrected byte: the
loop returns, byte `k` becomes the corrected byte `c k` and output sample `k`
becomes the `float` nearest to `c k / 255`. -/
theorem apply_loop_defined (cdf : List CFloat) (cdf_min : CFloat) (c : Nat → Nat)
    (u : List Nat) (o : List ℚ) (n : Nat)
    (hc : ∀ k, k < n → correct_color (cdf.getD (u.getD k 0) CFloat.nan) cdf_min = some (c k)) :
    ∃ r, for_loop (fun i s => s.bind (apply_sample cdf cdf_min i)) 0 n (some (u, o)) = some r ∧
      r.1.length = u.length ∧ r.2.length = o.length ∧
      (∀ k, r.1.getD k 0 = if k < n ∧ k < u.length then c k else u.getD k 0) ∧
      (∀ k, r.2.getD k 0 = if k < n ∧ k < o.length then round32 ((c k : ℚ) / 255) else o.getD k 0) := by
  induction n with
  | zero =>
    refine ⟨(u, o), rfl, rfl, rfl, fun k => ?_, fun k => ?_⟩
    · rw [if_neg (by omega)]
    · rw [if_neg (by omega)]
  | succ n ih =>
    obtain ⟨r, hr, l1, l2, g1, g2⟩ := ih (fun k hk => hc k (by omega))
    rw [for_loop_succ_last, hr, Nat.zero_add, Option.some_bind]
    have hread : r.1.getD n 0 = u.getD n 0 := by
      rw [g1 n, if_neg (by omega)]
    have hstep : apply_sample cdf cdf_min n r =
        some (r.1.set n (c n), r.2.set n (round32 ((c n : ℚ) / 255))) := by
      unfold apply_sample
      rw [hread, hc n (by omega)]
    refine ⟨_, hstep, by rw [List.length_set, l1], by rw [List.length_set, l2], ?_, ?_⟩
    · intro k
      by_cases hkn : k = n
      · subst hkn
        by_cases hlen : k < u.length
        · rw [getD_set_self _ _ _ _ (by omega), if_pos ⟨by omega, hlen⟩]
        · rw [getD_of_length_le _ _ _ (by rw [List.length_set]; omega), if_neg (by omega),
            getD_of_length_le _ _ _ (by omega)]
      · rw [getD_set_of_ne _ _ _ (fun h => hkn h.symm), g1 k]
        by_cases hk : k < n ∧ k < u.length
        · rw [if_pos hk, if_pos ⟨by omega, hk.2⟩]
        · rw [if_neg hk, if_neg (by omega)]
    · intro k
      by_cases hkn : k = n
      · subst hkn
        by_cases hlen : k < o.length
        · rw [getD_set_self _ _ _ _ (by omega), if_pos ⟨by omega, hlen⟩]
        · rw [getD_of_length_le _ _ _ (by rw [List.length_set]; omega), if_neg (by omega),
            getD_of_length_le _ _ _ (by omega)]
      · rw [getD_set_of_ne _ _ _ (fun h => hkn h.symm), g2 k]
        by_cases hk : k < n ∧ k < o.length
        · rw [if_pos hk, if_pos ⟨by omega, hk.2⟩]
        · rw [if_neg hk, if_neg (by omega)]

/-- Two runs of the Corrector loop on the same bytes and on output buffers of
the same size that agree below `lo`: both are undefined, or both return the
same bytes and output buffers that agree below the end of the loop. -/
theorem apply_loop_congr (cdf : List CFloat) (cdf_min : CFloat) (n lo : Nat) (u : List Nat)
    (o1 o2 : List ℚ) (hlen : o1.length = o2.length)
    (hlo : ∀ k, k < lo → o1.getD k 0 = o2.getD k 0) :
    (for_loop (fun i s => s.bind (apply_sample cdf cdf_min i)) lo n (some (u, o1)) = none ∧
      for_loop (fun i s => s.bind (apply_sample cdf cdf_min i)) lo n (some (u, o2)) = none) ∨
    ∃ u1 r1 r2,
      for_loop (fun i s => s.bind (apply_sample cdf cdf_min i)) lo n (some (u, o1))
        = some (u1, r1) ∧
      for_loop (fun i s => s.bind (apply_sample cdf cdf_min i)) lo n (some (u, o2))
        = some (u1, r2) ∧
      r1.length = r2.length ∧ ∀ k, k < lo + n → r1.getD k 0 = r2.getD k 0 := by
  induction n generalizing lo u o1 o2 with
  | zero =>
    right
    exact ⟨u, o1, o2, rfl, rfl, hlen, fun k hk => hlo k (by omega)⟩
  | succ n ih =>
    rw [for_loop, for_loop, Option.some_bind, Option.some_bind]
    unfold apply_sample
    cases hcc : correct_color (cdf.getD (u.getD lo 0) CFloat.nan) cdf_min with
    | none =>
      left
      simp only
      exact ⟨apply_loop_none _ _ _ _, apply_loop_none _ _ _ _⟩
    | some c =>
      simp only
      have hlen2 : (o1.set lo (round32 ((c : ℚ) / 255))).length = (o2.set lo (round32 ((c : ℚ) / 255))).length := by
        rw [List.length_set, List.length_set, hlen]
      have hlo2 : ∀ k, k < lo + 1 →
          (o1.set lo (round32 ((c : ℚ) / 255))).getD k 0 = (o2.set lo (round32 ((c : ℚ) / 255))).getD k 0 := by
        intro k hk
        by_cases hkl : k = lo
        · subst hkl
          by_cases hin : k < o1.length
          · rw [getD_set_self _ _ _ _ hin, getD_set_self _ _ _ _ (by omega)]
          · rw [getD_of_length_le _ _ _ (by rw [List.length_set]; omega),
              getD_of_length_le _ _ _ (by rw [List.length_set]; omega)]
        · rw [getD_set_of_ne _ _ _ (fun h => hkl h.symm),
            getD_set_of_ne _ _ _ (fun h => hkl h.symm)]
          exact hlo k (by omega)
      rcases ih (lo + 1) (u.set lo c) _ _ hlen2 hlo2 with h | ⟨u1, r1, r2, e1, e2, e3, e4⟩
      · left
        exact h
      · right
        exact ⟨u1, r1, r2, e1, e2, e3, fun k hk => e4 k (by omega)⟩

/-- `calculate_cdf` keeps the size of the CDF buffer. -/
theorem calculate_cdf_length (histogram : List Int) (cdf : List CFloat) (size : Int) :
    (calculate_cdf histogram cdf size).length = cdf.length := by
  unfold calculate_cdf
  rw [for_loop_set_length (fun i c =>
    CFloat.round32 (CFloat.add (c.getD (i - 1) CFloat.nan) (prob (histogram.getD i 0) size))),
    List.length_set]

/-- The CDF `calculate_cdf` stores in a buffer of 256 entries does not depend
on what the buffer held. -/
theorem calculate_cdf_congr (histogram : List Int) (cdf1 cdf2 : List CFloat) (size : Int)
    (h1 : cdf1.length = HISTOGRAM_LENGTH) (h2 : cdf2.length = HISTOGRAM_LENGTH) :
    calculate_cdf histogram cdf1 size = calculate_cdf histogram cdf2 size := by
  refine list_ext_getD _ _ CFloat.nan
    (by rw [calculate_cdf_length, calculate_cdf_length, h1, h2]) ?_
  intro k hk
  rw [calculate_cdf_length, h1] at hk
  induction k with
  | zero => rw [calculate_cdf_zero _ _ _ h1, calculate_cdf_zero _ _ _ h2]
  | succ k ih =>
    rw [calculate_cdf_succ _ _ _ h1 (k + 1) (by omega) hk,
      calculate_cdf_succ _ _ _ h2 (k + 1) (by omega) hk, Nat.add_sub_cancel, ih (by omega)]

/-- On buffers of the allocated sizes, what the fused kernel returns depends
only on the input samples: not on the schedule and not on what the buffers
held. -/
theorem process_image_congr (input : List ℚ) (u1 u2 g1 g2 : List Nat) (hist1 hist2 : List Int)
    (s1 s2 : Schedule) (size : Nat) (hs1 : s1.Valid size) (hs2 : s2.Valid size)
    (hu1 : u1.length = size * 3) (hu2 : u2.length = size * 3)
    (hg1 : g1.length = size) (hg2 : g2.length = size)
    (hl1 : hist1.length = HISTOGRAM_LENGTH) (hl2 : hist2.length = HISTOGRAM_LENGTH) :
    (process_image_and_build_histogram input u1 g1 hist1 s1).uchar_image =
      (process_image_and_build_histogram input u2 g2 hist2 s2).uchar_image ∧
    (process_image_and_build_histogram input u1 g1 hist1 s1).gray_image =
      (process_image_and_build_histogram input u2 g2 hist2 s2).gray_image ∧
    (process_image_and_build_histogram input u1 g1 hist1 s1).histogram =
      (process_image_and_build_histogram input u2 g2 hist2 s2).histogram := by
  obtain ⟨a1, a2, a3, a4⟩ := process_image_buffers input u1 g1 hist1 s1 size hs1 hu1 hg1
  obtain ⟨b1, b2, b3, b4⟩ := process_image_buffers input u2 g2 hist2 s2 size hs2 hu2 hg2
  have hu : (process_image_and_build_histogram input u1 g1 hist1 s1).uchar_image =
      (process_image_and_build_histogram input u2 g2 hist2 s2).uchar_image := by
    refine list_ext_getD _ _ 0 (by rw [a1, b1]) ?_
    intro k hk
    rw [a1] at hk
    rw [a3 k hk, b3 k hk]
  have hg : (process_image_and_build_histogram input u1 g1 hist1 s1).gray_image =
      (process_image_and_build_histogram input u2 g2 hist2 s2).gray_image := by
    refine list_ext_getD _ _ 0 (by rw [a2, b2]) ?_
    intro k hk
    rw [a2] at hk
    rw [a4 k hk, b4 k hk]
  refine ⟨hu, hg, ?_⟩
  have c1 := (process_image_histogram_sum input u1 g1 hist1 s1 size hs1 hl1).1
  have c2 := (process_image_histogram_sum input u2 g2 hist2 s2 size hs2 hl2).1
  refine list_ext_getD _ _ 0 (by rw [c1, c2]) ?_
  intro v hv
  rw [c1] at hv
  rw [process_image_histogram_getD input u1 g1 hist1 s1 size hs1 hl1 v hv,
    process_image_histogram_getD input u2 g2 hist2 s2 size hs2 hl2 v hv, hg]

/-- A pass that returns keeps the sizes of the buffers and leaves the input
image as it was. -/
theorem histogram_equalization_allocated (width height : Nat) (ptr : Buf) (h h1 : Heap)
    (schedule : Schedule) (hs : schedule.Valid (width * height))
    (ha : h.Allocated width height)
    (hret : histogram_equalization width height ptr h schedule = some h1) :
    h1.Allocated width height ∧ h1.input_image = h.input_image := by
  obtain ⟨a1, a2, a3, a4, a5⟩ := ha
  simp only [histogram_equalization, Option.map_eq_some'] at hret
  obtain ⟨r, hr, hh1⟩ := hret
  obtain ⟨l1, l2⟩ := apply_loop_length _ _ _ _ _ _ hr
  obtain ⟨b1, b2, _, _⟩ := process_image_buffers (h.read ptr) h.uchar_image h.gray_image
    h.histogram schedule (width * height) hs a2 a3
  have c1 := (process_image_histogram_sum (h.read ptr) h.uchar_image h.gray_image
    h.histogram schedule (width * height) hs a4).1
  have hcdf : (calculate_cdf
      (process_image_and_build_histogram (h.read ptr) h.uchar_image h.gray_image h.histogram
        schedule).histogram h.cdf ((width * height : Nat) : Int)).length = HISTOGRAM_LENGTH :=
    (calculate_cdf_length _ _ _).trans a5
  rw [← hh1]
  unfold Heap.Allocated
  dsimp only
  exact ⟨⟨l2.trans a1, l1.trans b1, b2, c1, hcdf⟩, rfl⟩

/-- On memories of the allocated sizes, the pixel data a pass writes, or its
being undefined, depends only on the samples the pass reads: not on the
schedule, not on what the scratch buffers and the output image held, and not
on which buffer the input pointer designates. -/
theorem histogram_equalization_congr (width height : Nat) (p1 p2 : Buf) (h1 h2 : Heap)
    (s1 s2 : Schedule) (hs1 : s1.Valid (width * height)) (hs2 : s2.Valid (width * height))
    (ha1 : h1.Allocated width height) (ha2 : h2.Allocated width height)
    (hin : h1.read p1 = h2.read p2) :
    (histogram_equalization width height p1 h1 s1).map Heap.output_image =
      (histogram_equalization width height p2 h2 s2).map Heap.output_image := by
  obtain ⟨a1, a2, a3, a4, a5⟩ := ha1
  obtain ⟨b1, b2, b3, b4, b5⟩ := ha2
  obtain ⟨e1, e2, e3⟩ := process_image_congr (h1.read p1) h1.uchar_image h2.uchar_image
    h1.gray_image h2.gray_image h1.histogram h2.histogram s1 s2 (width * height) hs1 hs2
    a2 b2 a3 b3 a4 b4
  rw [hin] at e1 e2 e3
  simp only [histogram_equalization, Option.map_map]
  rw [hin, e1, e3, calculate_cdf_congr _ h1.cdf h2.cdf _ a5 b5]
  rcases apply_loop_congr
      (calculate_cdf (process_image_and_build_histogram (h2.read p2) h2.uchar_image
        h2.gray_image h2.histogram s2).histogram h2.cdf ((width * height : Nat) : Int))
      (find_cdf_min (calculate_cdf (process_image_and_build_histogram (h2.read p2)
        h2.uchar_image h2.gray_image h2.histogram s2).histogram h2.cdf
        ((width * height : Nat) : Int)))
      (width * height * 3) 0
      (process_image_and_build_histogram (h2.read p2) h2.uchar_image h2.gray_image
        h2.histogram s2).uchar_image
      h1.output_image h2.output_image (by rw [a1, b1]) (fun k hk => by omega)
    with ⟨n1, n2⟩ | ⟨u, r1, r2, q1, q2, q3, q4⟩
  · unfold apply_histogram_equalization_and_convert_to_float
    rw [n1, n2]
    rfl
  · unfold apply_histogram_equalization_and_convert_to_float
    rw [q1, q2]
    have hl1 := (apply_loop_length _ _ _ _ _ _ q1).2
    have hr : r1 = r2 := by
      refine list_ext_getD _ _ 0 q3 ?_
      intro k hk
      exact q4 k (by
        have : r1.length = width * height * 3 := by rw [hl1]; exact a1
        omega)
    rw [hr]
    rfl

/-- A pass that returns leaves the pixel data of the input image as it was. -/
theorem histogram_equalization_input (width height : Nat) (ptr : Buf) (h h1 : Heap)
    (schedule : Schedule)
    (hret : histogram_equalization width height ptr h schedule = some h1) :
    h1.input_image = h.input_image := by
  simp only [histogram_equalization, Option.map_eq_some'] at hret
  obtain ⟨r, _, hr⟩ := hret
  rw [← hr]

/-- The loop of the driver leaves the pixel data of the input image as it
was. -/
theorem driver_loop_input (width height : Nat) (schedules : Nat → Schedule) (h : Heap)
    (n : Nat) (c : Buf × Heap)
    (hret : for_loop (driver_step width height schedules) 0 n (some (Buf.input, h)) = some c) :
    c.2.input_image = h.input_image := by
  induction n generalizing c with
  | zero =>
    simp only [for_loop, Option.some.injEq] at hret
    rw [← hret]
  | succ n ih =>
    rw [for_loop_succ_last] at hret
    simp only [driver_step, Option.bind_eq_some, Option.map_eq_some'] at hret
    obtain ⟨c0, hc0, h1, hh1, hc⟩ := hret
    rw [← hc]
    exact (histogram_equalization_input _ _ _ _ _ _ hh1).trans (ih c0 hc0)

/-- The loop of the driver on a memory of the allocated sizes keeps the sizes,
and after the first turn its input pointer designates the output image. -/
theorem driver_loop_state (width height : Nat) (schedules : Nat → Schedule)
    (hs : ∀ i, (schedules i).Valid (width * height)) (h : Heap)
    (ha : h.Allocated width height) (n : Nat) (c : Buf × Heap)
    (hret : for_loop (driver_step width height schedules) 0 n (some (Buf.input, h)) = some c) :
    c.2.Allocated width height ∧ (1 ≤ n → c.1 = Buf.output) := by
  induction n generalizing c with
  | zero =>
    simp only [for_loop, Option.some.injEq] at hret
    rw [← hret]
    exact ⟨ha, fun h0 => absurd h0 (by omega)⟩
  | succ n ih =>
    rw [for_loop_succ_last] at hret
    simp only [driver_step, Option.bind_eq_some, Option.map_eq_some'] at hret
    obtain ⟨c0, hc0, h1, hh1, hc⟩ := hret
    rw [← hc]
    exact ⟨(histogram_equalization_allocated _ _ _ _ _ _ (hs _) (ih c0 hc0).1 hh1).1,
      fun _ => rfl⟩

/-- The pixel data in the output image after `n + 1` turns of the loop of the
driver is the pixel data `n + 1` passes on buffers of their own produce from
the input image. -/
theorem driver_loop_eq_repeated_passes (width height : Nat) (schedules : Nat → Schedule)
    (hs : ∀ i, (schedules i).Valid (width * height)) (h : Heap)
    (ha : h.Allocated width height) (buffers : Nat → Heap)
    (hb : ∀ i, (buffers i).Allocated width height) (schedules2 : Nat → Schedule)
    (hs2 : ∀ i, (schedules2 i).Valid (width * height)) (n : Nat) :
    (for_loop (driver_step width height schedules) 0 (n + 1) (some (Buf.input, h))).map
        (fun c => c.2.output_image) =
      repeated_passes width height buffers schedules2 (n + 1) h.input_image := by
  induction n with
  | zero =>
    rw [for_loop, for_loop]
    simp only [driver_step, Option.some_bind, Option.map_map, repeated_passes, fresh_pass]
    exact histogram_equalization_congr width height Buf.input Buf.input h
      { buffers 0 with input_image := h.input_image } (schedules 0) (schedules2 0)
      (hs 0) (hs2 0) ha (hb 0) rfl
  | succ n ih =>
    rw [for_loop_succ_last, repeated_passes, ← ih]
    cases hstate : for_loop (driver_step width height schedules) 0 (n + 1)
        (some (Buf.input, h)) with
    | none => rfl
    | some c =>
      obtain ⟨hca, hcp⟩ := driver_loop_state width height schedules hs h ha (n + 1) c hstate
      simp only [driver_step, Option.some_bind, Option.map_some', Option.map_map, fresh_pass]
      rw [hcp (by omega)]
      exact histogram_equalization_congr width height Buf.output Buf.input c.2
        { buffers (n + 1) with input_image := c.2.output_image } (schedules (0 + (n + 1)))
        (schedules2 (n + 1)) (hs _) (hs2 _) hca (hb (n + 1)) rfl

/-- Claim C15.  For every input image and every `n >= 1`, on a memory of the
allocated sizes, the pixel data `iterative_histogram_equalization` returns for
`iterations = n` (or its being undefined) is that of the single-pass transform
`histogram_equalization` applied `n` times in succession, starting from the
input data and feeding each pass the output of the previous one, each pass on
buffers of its own: reading and writing the one output buffer in the passes
`2..n` changes nothing. -/
theorem C15_driver_is_repeated_single_pass (width height : Nat) (schedules : Nat → Schedule)
    (hs : ∀ i, (schedules i).Valid (width * height)) (h : Heap)
    (ha : h.Allocated width height) (buffers : Nat → Heap)
    (hb : ∀ i, (buffers i).Allocated width height) (schedules2 : Nat → Schedule)
    (hs2 : ∀ i, (schedules2 i).Valid (width * height)) (n : Nat) (hn : 1 ≤ n) :
    (iterative_histogram_equalization width height h (n : Int) schedules).map
        Heap.output_image =
      repeated_passes width height buffers schedules2 n h.input_image := by
  obtain ⟨m, rfl⟩ : ∃ m, n = m + 1 := ⟨n - 1, by omega⟩
  rw [← driver_loop_eq_repeated_passes width height schedules hs h ha buffers hb schedules2
    hs2 m]
  unfold iterative_histogram_equalization
  rw [Int.toNat_ofNat, Option.map_map]
  rfl

/-- Claim C16.  For every input image and every iteration count, a run of
`iterative_histogram_equalization` that returns leaves the pixel buffer of the
input image unchanged; so does every single pass, whichever buffer its input
pointer designates.  The byte buffer, the luma buffer, the histogram, the CDF
and the output image are the only buffers written. -/
theorem C16_input_image_unchanged (width height : Nat) (h h1 : Heap) (iterations : Int)
    (schedules : Nat → Schedule)
    (hret : iterative_histogram_equalization width height h iterations schedules = some h1) :
    h1.input_image = h.input_image ∧
    ∀ (ptr : Buf) (h2 h3 : Heap) (schedule : Schedule),
      histogram_equalization width height ptr h2 schedule = some h3 →
        h3.input_image = h2.input_image := by
  refine ⟨?_, fun ptr h2 h3 schedule hpass =>
    histogram_equalization_input width height ptr h2 h3 schedule hpass⟩
  simp only [iterative_histogram_equalization, Option.map_eq_some'] at hret
  obtain ⟨c, hc, hc1⟩ := hret
  rw [← hc1]
  exact driver_loop_input width height schedules h _ c hc

/-- The byte of a sample `0.0`. -/
theorem to_uchar_black : to_uchar (round32 (255 * 0)) = 0 := by
  decide!

/-- The byte of a sample `1.0`. -/
theorem to_uchar_white : to_uchar (round32 (255 * 1)) = 255 := by
  decide!

/-- The luma of a white pixel is `252`: the weights sum to `0.99`. -/
theorem luma_white : luma 255 255 255 = 252 := by
  decide!

/-- The luma of a black pixel is `0`. -/
theorem luma_black : luma 0 0 0 = 0 := by
  decide!

/-- The byte buffer, the luma buffer and the histogram of the image of two
pixels, black and white, on buffers of the allocated sizes under any schedule:
bytes `0 0 0 255 255 255`, lumas `0` and `252`, one pixel in bin `0` and one
in bin `252`. -/
theorem black_white_projected (uchar_image gray_image : List Nat) (histogram : List Int)
    (schedule : Schedule) (hs : schedule.Valid 2) (hl : histogram.length = HISTOGRAM_LENGTH)
    (hu : uchar_image.length = 2 * 3) (hg : gray_image.length = 2) :
    (process_image_and_build_histogram [0, 0, 0, 1, 1, 1] uchar_image gray_image histogram
      schedule).uchar_image = [0, 0, 0, 255, 255, 255] ∧
    (process_image_and_build_histogram [0, 0, 0, 1, 1, 1] uchar_image gray_image histogram
      schedule).gray_image = [0, 252] ∧
    ∀ v, v < HISTOGRAM_LENGTH →
      (process_image_and_build_histogram [0, 0, 0, 1, 1, 1] uchar_image gray_image histogram
        schedule).histogram.getD v 0 = (if v = 0 then 1 else 0) + (if v = 252 then 1 else 0) := by
  obtain ⟨e1, e2, e3, e4⟩ := process_image_buffers [0, 0, 0, 1, 1, 1] uchar_image gray_image
    histogram schedule 2 hs hu hg
  have hU : (process_image_and_build_histogram [0, 0, 0, 1, 1, 1] uchar_image gray_image
      histogram schedule).uchar_image = [0, 0, 0, 255, 255, 255] := by
    refine list_ext_getD _ _ 0 (by rw [e1]; rfl) ?_
    intro k hk
    rw [e1] at hk
    rw [e3 k hk]
    interval_cases k
    · exact to_uchar_black
    · exact to_uchar_black
    · exact to_uchar_black
    · exact to_uchar_white
    · exact to_uchar_white
    · exact to_uchar_white
  have hG : (process_image_and_build_histogram [0, 0, 0, 1, 1, 1] uchar_image gray_image
      histogram schedule).gray_image = [0, 252] := by
    refine list_ext_getD _ _ 0 (by rw [e2]; rfl) ?_
    intro i hi
    rw [e2] at hi
    rw [e4 i hi]
    interval_cases i
    · show luma (to_uchar (round32 (255 * 0))) (to_uchar (round32 (255 * 0)))
        (to_uchar (round32 (255 * 0))) = 0
      rw [to_uchar_black, luma_black]
    · show luma (to_uchar (round32 (255 * 1))) (to_uchar (round32 (255 * 1)))
        (to_uchar (round32 (255 * 1))) = 252
      rw [to_uchar_white, luma_white]
  refine ⟨hU, hG, ?_⟩
  intro v hv
  rw [process_image_histogram_getD _ _ _ _ _ 2 hs hl v hv, hG]
  have hr : List.range 2 = [0, 1] := rfl
  rw [hr, List.countP_cons, List.countP_cons, List.countP_nil]
  simp only [List.getD_cons_zero, List.getD_cons_succ, decide_eq_true_eq]
  by_cases h0 : v = 0
  · subst h0
    simp
  · by_cases h252 : v = 252
    · subst h252
      simp
    · have h0' : ¬ (0 = v) := fun h => h0 h.symm
      have h252' : ¬ (252 = v) := fun h => h252 h.symm
      simp [h0, h252, h0', h252']

/-- The first entry of the CDF of two pixels of which one is in bin `0`. -/
theorem prob_one_two :
    prob ((if (0 : Nat) = 0 then 1 else 0) + (if (0 : Nat) = 252 then 1 else 0)) ((2 : Nat) : Int)
      = CFloat.fin (if 0 < 252 then 1 / 2 else 1) := by
  decide!

/-- An entry of the CDF of two pixels after `1/2`, for an empty bin. -/
theorem cdf_step_half_zero :
    CFloat.round32 (CFloat.add (CFloat.fin (1 / 2)) (prob (0 + 0) ((2 : Nat) : Int)))
      = CFloat.fin (1 / 2) := by
  decide!

/-- An entry of the CDF of two pixels after `1/2`, for a bin of one pixel. -/
theorem cdf_step_half_one :
    CFloat.round32 (CFloat.add (CFloat.fin (1 / 2)) (prob (0 + 1) ((2 : Nat) : Int)))
      = CFloat.fin 1 := by
  decide!

/-- An entry of the CDF of two pixels after `1`, for an empty bin. -/
theorem cdf_step_one_zero :
    CFloat.round32 (CFloat.add (CFloat.fin 1) (prob (0 + 0) ((2 : Nat) : Int)))
      = CFloat.fin 1 := by
  decide!

/-- The CDF of the image of two pixels, black and white: `1/2` up to entry
`251`, `1` from entry `252` on, and `cdf_min = 1/2`. -/
theorem black_white_cdf (uchar_image gray_image : List Nat) (histogram : List Int)
    (cdf : List CFloat) (schedule : Schedule) (hs : schedule.Valid 2)
    (hl : histogram.length = HISTOGRAM_LENGTH) (hlen : cdf.length = HISTOGRAM_LENGTH)
    (hu : uchar_image.length = 2 * 3) (hg : gray_image.length = 2) :
    (∀ i, i < HISTOGRAM_LENGTH →
      (calculate_cdf (process_image_and_build_histogram [0, 0, 0, 1, 1, 1] uchar_image
        gray_image histogram schedule).histogram cdf ((2 : Nat) : Int)).getD i CFloat.nan =
        CFloat.fin (if i < 252 then 1 / 2 else 1)) ∧
    find_cdf_min (calculate_cdf (process_image_and_build_histogram [0, 0, 0, 1, 1, 1]
      uchar_image gray_image histogram schedule).histogram cdf ((2 : Nat) : Int)) =
        CFloat.fin (1 / 2) := by
  obtain ⟨_, _, hH⟩ := black_white_projected uchar_image gray_image histogram schedule hs hl
    hu hg
  have hentry : ∀ i, i < HISTOGRAM_LENGTH →
      (calculate_cdf (process_image_and_build_histogram [0, 0, 0, 1, 1, 1] uchar_image
        gray_image histogram schedule).histogram cdf ((2 : Nat) : Int)).getD i CFloat.nan =
        CFloat.fin (if i < 252 then 1 / 2 else 1) := by
    intro i hi
    have h256 : HISTOGRAM_LENGTH = 256 := rfl
    induction i with
    | zero =>
      rw [calculate_cdf_zero _ _ _ hlen, hH 0 hi]
      exact prob_one_two
    | succ i ih =>
      rw [calculate_cdf_succ _ _ _ hlen (i + 1) (by omega) hi, Nat.add_sub_cancel,
        ih (by omega), hH (i + 1) hi]
      by_cases h1 : i + 1 < 252
      · rw [if_pos (by omega), if_pos h1, if_neg (by omega), if_neg (by omega)]
        exact cdf_step_half_zero
      · by_cases h2 : i + 1 = 252
        · rw [if_pos (by omega), if_neg h1, if_neg (by omega), if_pos h2]
          exact cdf_step_half_one
        · rw [if_neg (by omega), if_neg h1, if_neg (by omega), if_neg h2]
          exact cdf_step_one_zero
  refine ⟨hentry, ?_⟩
  rw [find_cdf_min_eq_first _ _ _ hlen (by decide)
    (process_image_histogram_nonneg [0, 0, 0, 1, 1, 1] uchar_image gray_image histogram
      schedule 2 hs hl), hentry 0 (by decide)]
  rfl

/-- The corrected byte of the CDF value `1/2` under `cdf_min = 1/2`. -/
theorem correct_color_half : correct_color (CFloat.fin (1 / 2)) (CFloat.fin (1 / 2)) = some 0 := by
  decide!

/-- The corrected byte of the CDF value `1` under `cdf_min = 1/2`. -/
theorem correct_color_one : correct_color (CFloat.fin 1) (CFloat.fin (1 / 2)) = some 255 := by
  decide!

/-- A pass over the image of two pixels, black and white, on a memory of the
allocated sizes: it returns, and the bytes and the pixel data it writes are
those of the image. -/
theorem black_white_pass (ptr : Buf) (h : Heap) (schedule : Schedule)
    (hs : schedule.Valid (1 * 2)) (ha : h.Allocated 1 2)
    (hin : h.read ptr = [0, 0, 0, 1, 1, 1]) :
    ∃ h1, histogram_equalization 1 2 ptr h schedule = some h1 ∧
      h1.output_image = [0, 0, 0, 1, 1, 1] ∧ h1.uchar_image = [0, 0, 0, 255, 255, 255] := by
  obtain ⟨a1, a2, a3, a4, a5⟩ := ha
  obtain ⟨hU, _, _⟩ := black_white_projected h.uchar_image h.gray_image h.histogram schedule
    hs a4 a2 a3
  obtain ⟨hC, hmin⟩ := black_white_cdf h.uchar_image h.gray_image h.histogram h.cdf schedule
    hs a4 a5 a2 a3
  have hc : ∀ k, k < 1 * 2 * 3 →
      correct_color
        ((calculate_cdf (process_image_and_build_histogram [0, 0, 0, 1, 1, 1] h.uchar_image
          h.gray_image h.histogram schedule).histogram h.cdf ((2 : Nat) : Int)).getD
          (([0, 0, 0, 255, 255, 255] : List Nat).getD k 0) CFloat.nan)
        (CFloat.fin (1 / 2)) = some (if k < 3 then 0 else 255) := by
    intro k hk
    have h0 := hC 0 (by decide)
    have h255 := hC 255 (by decide)
    rw [if_pos (by decide)] at h0
    rw [if_neg (by decide)] at h255
    interval_cases k
    · show correct_color (List.getD _ 0 CFloat.nan) _ = some 0
      rw [h0, correct_color_half]
    · show correct_color (List.getD _ 0 CFloat.nan) _ = some 0
      rw [h0, correct_color_half]
    · show correct_color (List.getD _ 0 CFloat.nan) _ = some 0
      rw [h0, correct_color_half]
    · show correct_color (List.getD _ 255 CFloat.nan) _ = some 255
      rw [h255, correct_color_one]
    · show correct_color (List.getD _ 255 CFloat.nan) _ = some 255
      rw [h255, correct_color_one]
    · show correct_color (List.getD _ 255 CFloat.nan) _ = some 255
      rw [h255, correct_color_one]
  obtain ⟨r, hr, l1, l2, g1, g2⟩ := apply_loop_defined _ _ (fun k => if k < 3 then 0 else 255)
    [0, 0, 0, 255, 255, 255] h.output_image (1 * 2 * 3) hc
  have hr1 : r.1 = [0, 0, 0, 255, 255, 255] := by
    refine list_ext_getD _ _ 0 l1 ?_
    intro k hk
    rw [l1] at hk
    rw [g1 k, if_pos ⟨hk, hk⟩]
    have hk6 : k < 6 := hk
    interval_cases k <;> rfl
  have hr2 : r.2 = [0, 0, 0, 1, 1, 1] := by
    refine list_ext_getD _ _ 0 (l2.trans a1) ?_
    intro k hk
    rw [l2, a1] at hk
    rw [g2 k, if_pos ⟨hk, by rw [a1]; exact hk⟩]
    have hk6 : k < 6 := hk
    interval_cases k <;> decide!
  have hmin2 : find_cdf_min (calculate_cdf (process_image_and_build_histogram
      [0, 0, 0, 1, 1, 1] h.uchar_image h.gray_image h.histogram schedule).histogram h.cdf
      ((1 * 2 : Nat) : Int)) = CFloat.fin (1 / 2) := hmin
  have hr3 : for_loop (fun i s => s.bind (apply_sample
      (calculate_cdf (process_image_and_build_histogram [0, 0, 0, 1, 1, 1] h.uchar_image
        h.gray_image h.histogram schedule).histogram h.cdf ((1 * 2 : Nat) : Int))
      (CFloat.fin (1 / 2)) i)) 0 (1 * 2 * 3)
      (some ([0, 0, 0, 255, 255, 255], h.output_image)) = some r := hr
  have hex : ∃ h1, histogram_equalization 1 2 ptr h schedule = some h1 ∧
      h1.output_image = r.2 ∧ h1.uchar_image = r.1 := by
    unfold histogram_equalization
    simp only [hin, hU]
    unfold apply_histogram_equalization_and_convert_to_float
    rw [hmin2, hr3]
    exact ⟨_, rfl, rfl, rfl⟩
  obtain ⟨h1, e1, e2, e3⟩ := hex
  exact ⟨h1, e1, e2.trans hr2, e3.trans hr1⟩

/-- The memory `two_pixel_heap` has the allocated sizes of an image of one row
of two pixels. -/
theorem two_pixel_heap_allocated : two_pixel_heap.Allocated 1 2 :=
  ⟨rfl, rfl, rfl, List.length_replicate 256 5, List.length_replicate 256 CFloat.nan⟩

/-- The loop of the driver on the image of two pixels, black and white: every
turn returns and leaves the pixel data and the bytes of the image in the
output image and the byte buffer. -/
theorem black_white_loop (h : Heap) (schedules : Nat → Schedule)
    (hs : ∀ i, (schedules i).Valid (1 * 2)) (ha : h.Allocated 1 2)
    (hin : h.input_image = [0, 0, 0, 1, 1, 1]) (n : Nat) :
    ∃ hn, for_loop (driver_step 1 2 schedules) 0 (n + 1) (some (Buf.input, h))
        = some (Buf.output, hn) ∧
      hn.Allocated 1 2 ∧ hn.output_image = [0, 0, 0, 1, 1, 1] ∧
      hn.uchar_image = [0, 0, 0, 255, 255, 255] := by
  induction n with
  | zero =>
    obtain ⟨h1, e1, e2, e3⟩ := black_white_pass Buf.input h (schedules 0) (hs 0) ha hin
    refine ⟨h1, ?_, (histogram_equalization_allocated 1 2 Buf.input h h1 (schedules 0) (hs 0)
      ha e1).1, e2, e3⟩
    rw [for_loop, for_loop]
    simp only [driver_step, Option.some_bind, e1, Option.map_some']
  | succ n ih =>
    obtain ⟨hn, f1, f2, f3, _⟩ := ih
    obtain ⟨h1, e1, e2, e3⟩ := black_white_pass Buf.output hn (schedules (0 + (n + 1)))
      (hs _) f2 f3
    refine ⟨h1, ?_, (histogram_equalization_allocated 1 2 Buf.output hn h1 _ (hs _)
      f2 e1).1, e2, e3⟩
    rw [for_loop_succ_last, f1]
    simp only [driver_step, Option.some_bind, e1, Option.map_some']

/-- The driver on the image of two pixels, black and white, for any positive
number of iterations: it returns the pixel data of the image. -/
theorem black_white_driver (h : Heap) (schedules : Nat → Schedule)
    (hs : ∀ i, (schedules i).Valid (1 * 2)) (ha : h.Allocated 1 2)
    (hin : h.input_image = [0, 0, 0, 1, 1, 1]) (n : Nat) :
    ∃ hn, iterative_histogram_equalization 1 2 h ((n + 1 : Nat) : Int) schedules = some hn ∧
      hn.output_image = [0, 0, 0, 1, 1, 1] ∧ hn.uchar_image = [0, 0, 0, 255, 255, 255] := by
  obtain ⟨hn, e1, _, e3, e4⟩ := black_white_loop h schedules hs ha hin n
  refine ⟨hn, ?_, e3, e4⟩
  unfold iterative_histogram_equalization
  rw [Int.toNat_ofNat, e1]
  rfl

/-- Claim C11.  For the image of one row of two pixels `(0,0,0)` and
`(255,255,255)` (float samples `0.0` and `1.0`), on a memory of the allocated
sizes and under any schedules, `iterative_histogram_equalization` with
`iterations = 2` returns the same pixel data as with `iterations = 1`, and
that data is the unchanged black and white pixels (bytes `0` and `255`). -/
theorem C11_black_white_fixed_point (h : Heap) (schedules : Nat → Schedule)
    (hs : ∀ i, (schedules i).Valid (1 * 2)) (ha : h.Allocated 1 2)
    (hin : h.input_image = [0, 0, 0, 1, 1, 1]) :
    (iterative_histogram_equalization 1 2 h 2 schedules).map Heap.output_image =
      (iterative_histogram_equalization 1 2 h 1 schedules).map Heap.output_image ∧
    (iterative_histogram_equalization 1 2 h 1 schedules).map Heap.output_image =
      some [0, 0, 0, 1, 1, 1] ∧
    (iterative_histogram_equalization 1 2 h 1 schedules).map Heap.uchar_image =
      some [0, 0, 0, 255, 255, 255] ∧
    (iterative_histogram_equalization 1 2 h 2 schedules).map Heap.uchar_image =
      some [0, 0, 0, 255, 255, 255] := by
  obtain ⟨h1, a1, a2, a3⟩ := black_white_driver h schedules hs ha hin 0
  obtain ⟨h2, b1, b2, b3⟩ := black_white_driver h schedules hs ha hin 1
  have a1' : iterative_histogram_equalization 1 2 h 1 schedules = some h1 := a1
  have b1' : iterative_histogram_equalization 1 2 h 2 schedules = some h2 := b1
  rw [a1', b1']
  simp only [Option.map_some', a2, a3, b2, b3, and_self]

/-- C11 on the memory `two_pixel_heap`, every pass under a schedule of two
threads. -/
theorem C11_black_white_fixed_point_witness :
    (iterative_histogram_equalization 1 2 two_pixel_heap 2 (fun _ => [[1], [0]])).map
        Heap.output_image =
      (iterative_histogram_equalization 1 2 two_pixel_heap 1 (fun _ => [[1], [0]])).map
        Heap.output_image ∧
    (iterative_histogram_equalization 1 2 two_pixel_heap 1 (fun _ => [[1], [0]])).map
        Heap.output_image = some [0, 0, 0, 1, 1, 1] ∧
    (iterative_histogram_equalization 1 2 two_pixel_heap 1 (fun _ => [[1], [0]])).map
        Heap.uchar_image = some [0, 0, 0, 255, 255, 255] ∧
    (iterative_histogram_equalization 1 2 two_pixel_heap 2 (fun _ => [[1], [0]])).map
        Heap.uchar_image = some [0, 0, 0, 255, 255, 255] :=
  C11_black_white_fixed_point two_pixel_heap (fun _ => [[1], [0]])
    (fun _ => (by decide : Schedule.Valid [[1], [0]] (1 * 2))) two_pixel_heap_allocated rfl

/-- Claim C12 (amended).  For the image of one row of two pixels `(0,0,0)` and
`(255,255,255)`, on buffers of the allocated sizes and under any schedule, the
pipeline computes the bytes `0 0 0 255 255 255`, the lumas `0` and `252`,
`Histogram = {0:1, 252:1, all other bins 0}`, `CDF[0..251] = 0.5`,
`CDF[252..255] = 1.0` and `cdf_min = 0.5`. -/
theorem C12_black_white_pipeline (uchar_image gray_image : List Nat) (histogram : List Int)
    (cdf : List CFloat) (schedule : Schedule) (hs : schedule.Valid 2)
    (hl : histogram.length = HISTOGRAM_LENGTH) (hlen : cdf.length = HISTOGRAM_LENGTH)
    (hu : uchar_image.length = 2 * 3) (hg : gray_image.length = 2) :
    (process_image_and_build_histogram [0, 0, 0, 1, 1, 1] uchar_image gray_image histogram
      schedule).uchar_image = [0, 0, 0, 255, 255, 255] ∧
    (process_image_and_build_histogram [0, 0, 0, 1, 1, 1] uchar_image gray_image histogram
      schedule).gray_image = [0, 252] ∧
    (∀ v, v < HISTOGRAM_LENGTH →
      (process_image_and_build_histogram [0, 0, 0, 1, 1, 1] uchar_image gray_image histogram
        schedule).histogram.getD v 0 = if v = 0 ∨ v = 252 then 1 else 0) ∧
    (∀ i, i < HISTOGRAM_LENGTH →
      (calculate_cdf (process_image_and_build_histogram [0, 0, 0, 1, 1, 1] uchar_image
        gray_image histogram schedule).histogram cdf ((2 : Nat) : Int)).getD i CFloat.nan =
        CFloat.fin (if i < 252 then 1 / 2 else 1)) ∧
    find_cdf_min (calculate_cdf (process_image_and_build_histogram [0, 0, 0, 1, 1, 1]
      uchar_image gray_image histogram schedule).histogram cdf ((2 : Nat) : Int)) =
        CFloat.fin (1 / 2) := by
  obtain ⟨hU, hG, hH⟩ := black_white_projected uchar_image gray_image histogram schedule hs
    hl hu hg
  obtain ⟨hC, hmin⟩ := black_white_cdf uchar_image gray_image histogram cdf schedule hs hl
    hlen hu hg
  refine ⟨hU, hG, ?_, hC, hmin⟩
  intro v hv
  rw [hH v hv]
  by_cases h0 : v = 0
  · subst h0
    simp
  · by_cases h252 : v = 252
    · subst h252
      simp
    · simp [h0, h252]

/-- The amended C12 on the buffers of `two_pixel_heap` under a schedule of two
threads. -/
theorem C12_black_white_pipeline_witness :
    (process_image_and_build_histogram [0, 0, 0, 1, 1, 1] [9, 9, 9, 9, 9, 9] [7, 7]
      (List.replicate 256 5) [[1], [0]]).uchar_image = [0, 0, 0, 255, 255, 255] ∧
    (process_image_and_build_histogram [0, 0, 0, 1, 1, 1] [9, 9, 9, 9, 9, 9] [7, 7]
      (List.replicate 256 5) [[1], [0]]).gray_image = [0, 252] ∧
    (∀ v, v < HISTOGRAM_LENGTH →
      (process_image_and_build_histogram [0, 0, 0, 1, 1, 1] [9, 9, 9, 9, 9, 9] [7, 7]
        (List.replicate 256 5) [[1], [0]]).histogram.getD v 0 =
          if v = 0 ∨ v = 252 then 1 else 0) ∧
    (∀ i, i < HISTOGRAM_LENGTH →
      (calculate_cdf (process_image_and_build_histogram [0, 0, 0, 1, 1, 1] [9, 9, 9, 9, 9, 9]
        [7, 7] (List.replicate 256 5) [[1], [0]]).histogram (List.replicate 256 CFloat.nan)
        ((2 : Nat) : Int)).getD i CFloat.nan = CFloat.fin (if i < 252 then 1 / 2 else 1)) ∧
    find_cdf_min (calculate_cdf (process_image_and_build_histogram [0, 0, 0, 1, 1, 1]
      [9, 9, 9, 9, 9, 9] [7, 7] (List.replicate 256 5) [[1], [0]]).histogram
      (List.replicate 256 CFloat.nan) ((2 : Nat) : Int)) = CFloat.fin (1 / 2) :=
  C12_black_white_pipeline [9, 9, 9, 9, 9, 9] [7, 7] (List.replicate 256 5)
    (List.replicate 256 CFloat.nan) [[1], [0]] (by decide) (List.length_replicate 256 5)
    (List.length_replicate 256 CFloat.nan) rfl rfl

/-- Claim C12 fails as stated: for the image of two pixels `(0,0,0)` and
`(255,255,255)` the luma of the white pixel is `252`, not `255`; bin `255` of
the histogram is `0` and bin `252` is `1`; `CDF[252]` is `1.0`, not `0.5`. -/
theorem C12_counterexample :
    (process_image_and_build_histogram [0, 0, 0, 1, 1, 1] [9, 9, 9, 9, 9, 9] [7, 7]
      (List.replicate 256 5) [[1], [0]]).gray_image = [0, 252] ∧
    (process_image_and_build_histogram [0, 0, 0, 1, 1, 1] [9, 9, 9, 9, 9, 9] [7, 7]
      (List.replicate 256 5) [[1], [0]]).gray_image ≠ [0, 255] ∧
    (process_image_and_build_histogram [0, 0, 0, 1, 1, 1] [9, 9, 9, 9, 9, 9] [7, 7]
      (List.replicate 256 5) [[1], [0]]).histogram.getD 255 0 = 0 ∧
    (process_image_and_build_histogram [0, 0, 0, 1, 1, 1] [9, 9, 9, 9, 9, 9] [7, 7]
      (List.replicate 256 5) [[1], [0]]).histogram.getD 252 0 = 1 ∧
    (calculate_cdf (process_image_and_build_histogram [0, 0, 0, 1, 1, 1] [9, 9, 9, 9, 9, 9]
      [7, 7] (List.replicate 256 5) [[1], [0]]).histogram (List.replicate 256 CFloat.nan)
      ((2 : Nat) : Int)).getD 252 CFloat.nan = CFloat.fin 1 ∧
    (calculate_cdf (process_image_and_build_histogram [0, 0, 0, 1, 1, 1] [9, 9, 9, 9, 9, 9]
      [7, 7] (List.replicate 256 5) [[1], [0]]).histogram (List.replicate 256 CFloat.nan)
      ((2 : Nat) : Int)).getD 252 CFloat.nan ≠ CFloat.fin (1 / 2) := by
  obtain ⟨_, hG, hH⟩ := black_white_projected [9, 9, 9, 9, 9, 9] [7, 7]
    (List.replicate 256 5) [[1], [0]] (by decide) (List.length_replicate 256 5) rfl rfl
  obtain ⟨hC, _⟩ := black_white_cdf [9, 9, 9, 9, 9, 9] [7, 7] (List.replicate 256 5)
    (List.replicate 256 CFloat.nan) [[1], [0]] (by decide) (List.length_replicate 256 5)
    (List.length_replicate 256 CFloat.nan) rfl rfl
  have h255 := hH 255 (by decide)
  have h252 := hH 252 (by decide)
  have hc252 := hC 252 (by decide)
  rw [if_neg (by decide), if_neg (by decide)] at h255
  rw [if_neg (by decide), if_pos rfl] at h252
  rw [if_neg (by decide)] at hc252
  refine ⟨hG, ?_, h255, h252, hc252, ?_⟩
  · rw [hG]
    decide
  · rw [hc252]
    intro hc
    have := CFloat.fin.inj hc
    norm_num at this

/-- C14 on a luma buffer of two bytes and on the image of two pixels, under a
schedule of two threads that merge in reverse order. -/
theorem C14_histogram_independent_of_schedule_witness :
    build_histogram [7, 7] (List.replicate 256 5) [[1], [0]] = sequential_histogram [7, 7] 2 ∧
    (∀ schedule2 : Schedule, List.Perm schedule2 [[1], [0]] →
      build_histogram [7, 7] (List.replicate 256 5) schedule2 =
        build_histogram [7, 7] (List.replicate 256 5) [[1], [0]]) ∧
    (∀ schedule2 : Schedule, schedule2.Valid 2 →
      build_histogram [7, 7] (List.replicate 256 5) schedule2 =
        build_histogram [7, 7] (List.replicate 256 5) [[1], [0]]) ∧
    (process_image_and_build_histogram [0, 0, 0, 1, 1, 1] [9, 9, 9, 9, 9, 9] [7, 7]
      (List.replicate 256 5) [[1], [0]]).histogram =
        sequential_histogram
          (process_image_and_build_histogram [0, 0, 0, 1, 1, 1] [9, 9, 9, 9, 9, 9] [7, 7]
            (List.replicate 256 5) [[1], [0]]).gray_image 2 ∧
    (∀ schedule2 : Schedule, schedule2.Valid 2 →
      process_image_and_build_histogram [0, 0, 0, 1, 1, 1] [9, 9, 9, 9, 9, 9] [7, 7]
        (List.replicate 256 5) schedule2 =
      process_image_and_build_histogram [0, 0, 0, 1, 1, 1] [9, 9, 9, 9, 9, 9] [7, 7]
        (List.replicate 256 5) [[1], [0]]) :=
  C14_histogram_independent_of_schedule [0, 0, 0, 1, 1, 1] [9, 9, 9, 9, 9, 9] [7, 7]
    (List.replicate 256 5) [[1], [0]] 2 (by decide) (List.length_replicate 256 5) (by decide)
    rfl rfl

/-- C15 on the image of two pixels, black and white, for two iterations, each
pass of the comparison on the buffers of `two_pixel_heap`. -/
theorem C15_driver_is_repeated_single_pass_witness :
    (iterative_histogram_equalization 1 2 two_pixel_heap ((2 : Nat) : Int)
        (fun _ => [[1], [0]])).map Heap.output_image =
      repeated_passes 1 2 (fun _ => two_pixel_heap) (fun _ => [[0, 1]]) 2
        two_pixel_heap.input_image :=
  C15_driver_is_repeated_single_pass 1 2 (fun _ => [[1], [0]])
    (fun _ => (by decide : Schedule.Valid [[1], [0]] (1 * 2))) two_pixel_heap
    two_pixel_heap_allocated (fun _ => two_pixel_heap) (fun _ => two_pixel_heap_allocated)
    (fun _ => [[0, 1]]) (fun _ => (by decide : Schedule.Valid [[0, 1]] (1 * 2))) 2
    (by decide)

/-- C16 on the image of two pixels, black and white: the run of two iterations
returns, and the pixel data of the input image is still that of the image. -/
theorem C16_input_image_unchanged_witness :
    ∃ h1, iterative_histogram_equalization 1 2 two_pixel_heap ((1 + 1 : Nat) : Int)
        (fun _ => [[1], [0]]) = some h1 ∧
      h1.input_image = two_pixel_heap.input_image := by
  obtain ⟨h1, hrun, _, _⟩ := black_white_driver two_pixel_heap (fun _ => [[1], [0]])
    (fun _ => (by decide : Schedule.Valid [[1], [0]] (1 * 2))) two_pixel_heap_allocated rfl 1
  exact ⟨h1, hrun, (C16_input_image_unchanged 1 2 two_pixel_heap h1 _ _ hrun).1⟩

/-- Bounds on a rounded quotient of two rounded numbers, from the bounds on
the three roundings. -/
theorem quotient_bounds (X S fx fs q a b : ℚ) (ha : 0 < a) (hb : 0 < b) (hX : 0 ≤ X)
    (hS : 0 < S) (h1 : X * a ≤ fx) (h2 : fx ≤ X * b) (h3 : S * a ≤ fs) (h4 : fs ≤ S * b)
    (h5 : fx / fs * a ≤ q) (h6 : q ≤ fx / fs * b) :
    X / S * a ^ 2 ≤ q * b ∧ q * a ≤ X / S * b ^ 2 := by
  have hfs : 0 < fs := lt_of_lt_of_le (mul_pos hS ha) h3
  have hfx : 0 ≤ fx := le_trans (mul_nonneg hX ha.le) h1
  have hSb : 0 < S * b := mul_pos hS hb
  have hSa : 0 < S * a := mul_pos hS ha
  have l1 : X * a / (S * b) ≤ fx / fs := div_le_div₀ hfx h1 hfs h4
  have u1 : fx / fs ≤ X * b / (S * a) := div_le_div₀ (mul_nonneg hX hb.le) h2 hSa h3
  constructor
  · calc X / S * a ^ 2 = X * a / (S * b) * a * b := by
          field_simp
          ring
      _ ≤ fx / fs * a * b :=
          mul_le_mul_of_nonneg_right (mul_le_mul_of_nonneg_right l1 ha.le) hb.le
      _ ≤ q * b := mul_le_mul_of_nonneg_right h5 hb.le
  · calc q * a ≤ fx / fs * b * a := mul_le_mul_of_nonneg_right h6 ha.le
      _ ≤ X * b / (S * a) * b * a :=
          mul_le_mul_of_nonneg_right (mul_le_mul_of_nonneg_right u1 hb.le) ha.le
      _ = X / S * b ^ 2 := by
          field_simp
          ring

/-- Bounds on a rounded sum, from the bounds on its two terms and on the
rounding. -/
theorem step_bounds (T h c q c2 a b : ℚ) (n : Nat) (ha0 : 0 < a) (ha1 : a ≤ 1) (hb1 : 1 ≤ b)
    (hh : 0 ≤ h) (L : T * a ^ (n + 2) ≤ c * b) (U : c * a ≤ T * b ^ (n + 2))
    (Lq : h * a ^ 2 ≤ q * b) (Uq : q * a ≤ h * b ^ 2)
    (r1 : (c + q) * a ≤ c2) (r2 : c2 ≤ (c + q) * b) :
    (T + h) * a ^ (n + 1 + 2) ≤ c2 * b ∧ c2 * a ≤ (T + h) * b ^ (n + 1 + 2) := by
  have hb0 : 0 < b := lt_of_lt_of_le one_pos hb1
  have pa : a ^ (n + 1 + 2) ≤ a ^ 3 := pow_le_pow_of_le_one ha0.le ha1 (by omega)
  have pb : b ^ 3 ≤ b ^ (n + 1 + 2) := pow_le_pow_right₀ hb1 (by omega)
  constructor
  · calc (T + h) * a ^ (n + 1 + 2) = T * a ^ (n + 2) * a + h * a ^ (n + 1 + 2) := by ring
      _ ≤ c * b * a + h * a ^ 3 :=
          add_le_add (mul_le_mul_of_nonneg_right L ha0.le) (mul_le_mul_of_nonneg_left pa hh)
      _ = c * b * a + h * a ^ 2 * a := by ring
      _ ≤ c * b * a + q * b * a :=
          add_le_add (le_refl _) (mul_le_mul_of_nonneg_right Lq ha0.le)
      _ = (c + q) * a * b := by ring
      _ ≤ c2 * b := mul_le_mul_of_nonneg_right r1 hb0.le
  · calc c2 * a ≤ (c + q) * b * a := mul_le_mul_of_nonneg_right r2 ha0.le
      _ = c * a * b + q * a * b := by ring
      _ ≤ T * b ^ (n + 2) * b + h * b ^ 2 * b :=
          add_le_add (mul_le_mul_of_nonneg_right U hb0.le)
            (mul_le_mul_of_nonneg_right Uq hb0.le)
      _ = T * b ^ (n + 1 + 2) + h * b ^ 3 := by ring
      _ ≤ T * b ^ (n + 1 + 2) + h * b ^ (n + 1 + 2) :=
          add_le_add (le_refl _) (mul_le_mul_of_nonneg_left pb hh)
      _ = (T + h) * b ^ (n + 1 + 2) := by ring

/-- Rounding a non-negative number to `float` changes it by a factor
between `1 - 2^-24` and `1 + 2^-24`. -/
theorem round32_bounds (x : ℚ) (hx : 0 ≤ x) :
    x * (1 - 1 / (2 : ℚ) ^ 24) ≤ round32 x ∧ round32 x ≤ x * (1 + 1 / (2 : ℚ) ^ 24) :=
  ⟨round_to_lower 24 x hx, round_to_upper 24 x hx⟩

/-- The value `prob` returns for a non-negative count and a positive size,
against the exact quotient. -/
theorem prob_bounds (x size : Int) (hx : 0 ≤ x) (hs : 0 < size) :
    ∃ q : ℚ, prob x size = CFloat.fin q ∧ 0 ≤ q ∧
      (x : ℚ) / (size : ℚ) * (1 - 1 / (2 : ℚ) ^ 24) ^ 2 ≤ q * (1 + 1 / (2 : ℚ) ^ 24) ∧
      q * (1 - 1 / (2 : ℚ) ^ 24) ≤ (x : ℚ) / (size : ℚ) * (1 + 1 / (2 : ℚ) ^ 24) ^ 2 := by
  have hx2 : (0 : ℚ) ≤ (x : ℚ) := by exact_mod_cast hx
  have hs2 : (0 : ℚ) < (size : ℚ) := by exact_mod_cast hs
  obtain ⟨x1, x2⟩ := round32_bounds (x : ℚ) hx2
  obtain ⟨s1, s2⟩ := round32_bounds (size : ℚ) hs2.le
  have hq : 0 ≤ round32 (x : ℚ) / round32 (size : ℚ) :=
    div_nonneg (round32_nonneg _ hx2) (round32_pos _ hs2).le
  obtain ⟨q1, q2⟩ := round32_bounds _ hq
  refine ⟨_, prob_of_pos x size hs, round32_nonneg _ hq, ?_⟩
  exact quotient_bounds (x : ℚ) (size : ℚ) _ _ _ _ _ (by norm_num) (by norm_num) hx2 hs2
    x1 x2 s1 s2 q1 q2

/-- Entry `i` of the CDF of non-negative counts, for a positive size, against
the sum of the bins `0..i` over the size: each of the `i + 3` roundings on the
way changes the value by a factor between `1 - 2^-24` and `1 + 2^-24`. -/
theorem calculate_cdf_bounds (histogram : List Int) (cdf : List CFloat) (size : Int)
    (hlen : cdf.length = HISTOGRAM_LENGTH) (hsize : 0 < size)
    (hcounts : ∀ x ∈ histogram, 0 ≤ x) (i : Nat) (hi : i < HISTOGRAM_LENGTH) :
    ∃ c : ℚ, (calculate_cdf histogram cdf size).getD i CFloat.nan = CFloat.fin c ∧ 0 ≤ c ∧
      ((∑ j in Finset.range (i + 1), histogram.getD j 0 : Int) : ℚ) / (size : ℚ)
          * ((1 - 1 / (2 : ℚ) ^ 24) ^ (i + 1) * (1 - 1 / (2 : ℚ) ^ 24))
        ≤ c * (1 + 1 / (2 : ℚ) ^ 24) ∧
      c * (1 - 1 / (2 : ℚ) ^ 24) ≤
        ((∑ j in Finset.range (i + 1), histogram.getD j 0 : Int) : ℚ) / (size : ℚ)
          * ((1 + 1 / (2 : ℚ) ^ 24) ^ (i + 1) * (1 + 1 / (2 : ℚ) ^ 24)) := by
  have hs2 : (0 : ℚ) < (size : ℚ) := by exact_mod_cast hsize
  induction i with
  | zero =>
    obtain ⟨q, hq, hq0, l, u⟩ :=
      prob_bounds _ size (getD_nonneg_of_counts histogram hcounts 0) hsize
    refine ⟨q, ?_, hq0, ?_, ?_⟩
    · rw [calculate_cdf_zero _ _ _ hlen, hq]
    · rw [← pow_succ]
      simpa using l
    · rw [← pow_succ]
      simpa using u
  | succ i ih =>
    obtain ⟨c, hc, hc0, L, U⟩ := ih (by omega)
    rw [← pow_succ] at L U
    obtain ⟨q, hq, hq0, Lq, Uq⟩ :=
      prob_bounds _ size (getD_nonneg_of_counts histogram hcounts (i + 1)) hsize
    obtain ⟨r1, r2⟩ := round32_bounds (c + q) (add_nonneg hc0 hq0)
    have hh : (0 : ℚ) ≤ (histogram.getD (i + 1) 0 : ℚ) / (size : ℚ) :=
      div_nonneg (by exact_mod_cast getD_nonneg_of_counts histogram hcounts (i + 1)) hs2.le
    have hsum : ((∑ j in Finset.range (i + 1 + 1), histogram.getD j 0 : Int) : ℚ) / (size : ℚ)
        = ((∑ j in Finset.range (i + 1), histogram.getD j 0 : Int) : ℚ) / (size : ℚ)
          + (histogram.getD (i + 1) 0 : ℚ) / (size : ℚ) := by
      rw [Finset.sum_range_succ _ (i + 1)]
      push_cast
      ring
    refine ⟨round32 (c + q), ?_, round32_nonneg _ (add_nonneg hc0 hq0), ?_⟩
    · rw [calculate_cdf_succ _ _ _ hlen (i + 1) (by omega) hi, Nat.add_sub_cancel, hc, hq]
      rfl
    · rw [hsum, ← pow_succ, ← pow_succ]
      exact step_bounds _ _ c q _ _ _ i (by norm_num) (by norm_num) (by norm_num) hh L U Lq Uq
        r1 r2

/-- A histogram of 6537 x 5133 = 33554421 pixels: 33554084 pixels of luma `0`,
one pixel of each luma `1..167` and two pixels of each luma `168..252`. -/
theorem wide_histogram_sum :
    wide_histogram.length = 256 ∧ wide_histogram.sum = 6537 * 5133 ∧
      (∀ x ∈ wide_histogram, 0 ≤ x) := by
  decide!

/-- Claim C5 fails as stated: on the histogram of an image of 6537 x 5133
pixels with one pixel of each luma `1..167` and two pixels of each luma
`168..252`, the other pixels black, `calculate_cdf` ends at
`1 + 21/2097152`, which is more than `1e-5` away from `1.0`; in exact
arithmetic the CDF of the same histogram ends at `1`. -/
theorem C5_counterexample :
    (calculate_cdf wide_histogram (List.replicate 256 CFloat.nan) (6537 * 5133)).getD 255
      CFloat.nan = CFloat.fin (2097173 / 2097152) ∧
    (1 : ℚ) / 100000 < |2097173 / 2097152 - 1| := by
  constructor
  · decide!
  · rw [abs_of_nonneg (by norm_num)]
    norm_num

/-- Claim C5 (amended).  For an image of `size > 0` pixels, the CDF
`calculate_cdf` computes in `float` arithmetic from the histogram the fused
kernel built ends within `2e-5` of `1.0`; in exact arithmetic it ends at
exactly `1`. -/
theorem C5_cdf_last_near_one (input_image_data : List ℚ) (uchar_image gray_image : List Nat)
    (histogram : List Int) (cdf : List CFloat) (schedule : Schedule) (size : Nat)
    (hs : schedule.Valid size) (hl : histogram.length = HISTOGRAM_LENGTH)
    (hlen : cdf.length = HISTOGRAM_LENGTH) (hsize : 0 < size) :
    (∃ q : ℚ, (calculate_cdf
        (process_image_and_build_histogram input_image_data uchar_image gray_image histogram
          schedule).histogram cdf size).getD 255 CFloat.nan = CFloat.fin q ∧
      |q - 1| ≤ 1 / 50000) ∧
    (calculate_cdf_exact
        (process_image_and_build_histogram input_image_data uchar_image gray_image histogram
          schedule).histogram cdf size).getD 255 CFloat.nan = CFloat.fin 1 := by
  have hne : ((size : Nat) : Int) ≠ 0 := by omega
  have hpos : (0 : Int) < ((size : Nat) : Int) := by omega
  have hq : ((size : Int) : ℚ) ≠ 0 := by exact_mod_cast hne
  have hsum := (process_image_histogram_sum input_image_data uchar_image gray_image histogram
    schedule size hs hl).2
  have hcounts := process_image_histogram_nonneg input_image_data uchar_image gray_image
    histogram schedule size hs hl
  have h256 : (255 + 1 : Nat) = HISTOGRAM_LENGTH := rfl
  constructor
  · obtain ⟨c, hc, _, L, U⟩ := calculate_cdf_bounds _ cdf (size : Int) hlen hpos hcounts 255
      (by decide)
    rw [h256, hsum, div_self hq, one_mul] at L U
    refine ⟨c, hc, ?_⟩
    have e1 : (1 - 1 / 50000 : ℚ) * (1 + 1 / (2 : ℚ) ^ 24) ≤
        (1 - 1 / (2 : ℚ) ^ 24) ^ (255 + 1) * (1 - 1 / (2 : ℚ) ^ 24) := by
      norm_num
    have e2 : (1 + 1 / (2 : ℚ) ^ 24) ^ (255 + 1) * (1 + 1 / (2 : ℚ) ^ 24) ≤
        (1 + 1 / 50000 : ℚ) * (1 - 1 / (2 : ℚ) ^ 24) := by
      norm_num
    have hb : (0 : ℚ) < 1 + 1 / (2 : ℚ) ^ 24 := by norm_num
    have ha : (0 : ℚ) < 1 - 1 / (2 : ℚ) ^ 24 := by norm_num
    have l1 : 1 - 1 / 50000 ≤ c := by
      have := le_trans e1 L
      exact le_of_mul_le_mul_right this hb
    have u1 : c ≤ 1 + 1 / 50000 := by
      have := le_trans U e2
      exact le_of_mul_le_mul_right this ha
    rw [abs_le]
    constructor <;> linarith
  · rw [calculate_cdf_exact_closed _ _ _ hlen hne 255 (by decide), h256, hsum, div_self hq]

/-- The amended C5 on an image of two pixels under a schedule of two threads. -/
theorem C5_cdf_last_near_one_witness :
    (∃ q : ℚ, (calculate_cdf
        (process_image_and_build_histogram [0, 0, 0, 1, 1, 1] [9, 9, 9, 9, 9, 9] [7, 7]
          (List.replicate 256 5) [[1], [0]]).histogram
        (List.replicate 256 CFloat.nan) (2 : Nat)).getD 255 CFloat.nan = CFloat.fin q ∧
      |q - 1| ≤ 1 / 50000) ∧
    (calculate_cdf_exact
        (process_image_and_build_histogram [0, 0, 0, 1, 1, 1] [9, 9, 9, 9, 9, 9] [7, 7]
          (List.replicate 256 5) [[1], [0]]).histogram
        (List.replicate 256 CFloat.nan) (2 : Nat)).getD 255 CFloat.nan = CFloat.fin 1 :=
  C5_cdf_last_near_one [0, 0, 0, 1, 1, 1] [9, 9, 9, 9, 9, 9] [7, 7] (List.replicate 256 5)
    (List.replicate 256 CFloat.nan) [[1], [0]] 2 (by decide) (List.length_replicate 256 5)
    (List.length_replicate 256 CFloat.nan) (by decide)

/-- A load from a zeroed buffer. -/
theorem getD_replicate_zero (n k : Nat) : (List.replicate n (0 : ℚ)).getD k 0 = 0 := by
  by_cases h : k < n
  · rw [List.getD_eq_getElem _ _ (by rw [List.length_replicate]; exact h), List.getElem_replicate]
  · rw [getD_of_length_le _ _ _ (by rw [List.length_replicate]; omega)]

/-- The samples of `dark_image`. -/
theorem dark_image_getD (k : Nat) :
    dark_image.getD k 0 =
      if k < 3 then 1 / 4 else if k < 6 then 1 / 2 else if k < 21 then 1 else 0 := by
  by_cases h : k < 21
  · interval_cases k <;> rfl
  · rw [if_neg (by omega), if_neg (by omega), if_neg h]
    unfold dark_image
    rw [List.getD_append_right _ _ _ _ (by simp; omega),
      List.getD_append_right _ _ _ _ (by simp; omega)]
    exact getD_replicate_zero _ _

/-- The bytes the fused kernel converts the samples of `dark_image` to. -/
theorem dark_image_byte (k : Nat) :
    to_uchar (round32 (255 * dark_image.getD k 0)) =
      if k < 3 then 63 else if k < 6 then 127 else if k < 21 then 255 else 0 := by
  rw [dark_image_getD]
  split_ifs <;> decide!

/-- The byte of sample `k` of pixel `i` of `dark_image`. -/
theorem dark_image_pixel_byte (i k : Nat) (hk : k < 3) :
    to_uchar (round32 (255 * dark_image.getD (3 * i + k) 0)) =
      if i = 0 then 63 else if i = 1 then 127 else if i < 7 then 255 else 0 := by
  rw [dark_image_byte]
  split_ifs <;> first | rfl | omega

/-- The lumas of the pixels of `dark_image`. -/
theorem dark_image_luma (i : Nat) :
    pixel_luma dark_image i =
      if i = 0 then 62 else if i = 1 then 125 else if i < 7 then 252 else 0 := by
  unfold pixel_luma
  have e0 := dark_image_pixel_byte i 0 (by decide)
  rw [Nat.add_zero] at e0
  rw [e0, dark_image_pixel_byte i 1 (by decide), dark_image_pixel_byte i 2 (by decide)]
  split_ifs <;> decide!

/-- The schedule of a team of one thread covers every pixel once. -/
theorem sequential_valid (size : Nat) : (Schedule.sequential size).Valid size := by
  unfold Schedule.Valid Schedule.sequential
  simp

/-- The histogram of `dark_image`: 307193 pixels in bin `0`, one in bin `62`,
one in bin `125` and five in bin `252`. -/
theorem dark_image_histogram (uchar_image gray_image : List Nat) (histogram : List Int)
    (schedule : Schedule) (hs : schedule.Valid 307200)
    (hl : histogram.length = HISTOGRAM_LENGTH) (hu : uchar_image.length = 307200 * 3)
    (hg : gray_image.length = 307200) (v : Nat) (hv : v < HISTOGRAM_LENGTH) :
    (process_image_and_build_histogram dark_image uchar_image gray_image histogram
      schedule).histogram.getD v 0 =
      (if v = 0 then 307193 else 0) + (if v = 62 then 1 else 0) + (if v = 125 then 1 else 0)
        + (if v = 252 then 5 else 0) := by
  obtain ⟨_, _, _, e4⟩ := process_image_buffers dark_image uchar_image gray_image histogram
    schedule 307200 hs hu hg
  rw [process_image_histogram_getD _ _ _ _ _ 307200 hs hl v hv]
  have hcongr : (List.range 307200).countP (fun i =>
      decide ((process_image_and_build_histogram dark_image uchar_image gray_image histogram
        schedule).gray_image.getD i 0 = v)) =
      (List.range 307200).countP (fun i => decide (pixel_luma dark_image i = v)) := by
    apply List.countP_congr
    intro i hi
    rw [e4 i (List.mem_range.mp hi)]
  rw [hcongr]
  have hsplit : List.range 307200 = List.range 7 ++ (List.range 307193).map (7 + ·) :=
    List.range_add 7 307193
  have hrest : (List.range 307193).countP
      ((fun i => decide (pixel_luma dark_image i = v)) ∘ (7 + ·)) =
        if v = 0 then 307193 else 0 := by
    by_cases h0 : v = 0
    · rw [if_pos h0, List.countP_eq_length.mpr, List.length_range]
      intro j _
      simp only [Function.comp, dark_image_luma]
      rw [if_neg (by omega), if_neg (by omega), if_neg (by omega), h0]
      rfl
    · rw [if_neg h0, List.countP_eq_zero]
      intro j _
      simp only [Function.comp, dark_image_luma]
      rw [if_neg (by omega), if_neg (by omega), if_neg (by omega)]
      simp only [decide_eq_true_eq]
      omega
  have hfirst : (List.range 7).countP (fun i => decide (pixel_luma dark_image i = v)) =
      (if v = 62 then 1 else 0) + (if v = 125 then 1 else 0) + (if v = 252 then 5 else 0) := by
    have hr : List.range 7 = [0, 1, 2, 3, 4, 5, 6] := rfl
    rw [hr]
    simp only [List.countP_cons, List.countP_nil, dark_image_luma]
    by_cases h62 : v = 62
    · subst h62
      rfl
    · by_cases h125 : v = 125
      · subst h125
        rfl
      · by_cases h252 : v = 252
        · subst h252
          rfl
        · have a1 : ¬ (62 = v) := fun h => h62 h.symm
          have a2 : ¬ (125 = v) := fun h => h125 h.symm
          have a3 : ¬ (252 = v) := fun h => h252 h.symm
          simp [h62, h125, h252, a1, a2, a3]
  rw [hsplit, List.countP_append, List.countP_map, hrest, hfirst]
  push_cast
  split_ifs <;> ring

/-- An empty bin leaves a CDF entry of `dark_image` as it is: the four values
the CDF takes are `float` numbers. -/
theorem dark_image_cdf_keep :
    CFloat.round32 (CFloat.add (CFloat.fin (8388417 / 8388608))
      (prob (0 + 0 + 0 + 0) ((307200 : Nat) : Int))) = CFloat.fin (8388417 / 8388608) ∧
    CFloat.round32 (CFloat.add (CFloat.fin (16776889 / 16777216))
      (prob (0 + 0 + 0 + 0) ((307200 : Nat) : Int))) = CFloat.fin (16776889 / 16777216) ∧
    CFloat.round32 (CFloat.add (CFloat.fin (1048559 / 1048576))
      (prob (0 + 0 + 0 + 0) ((307200 : Nat) : Int))) = CFloat.fin (1048559 / 1048576) ∧
    CFloat.round32 (CFloat.add (CFloat.fin (8388609 / 8388608))
      (prob (0 + 0 + 0 + 0) ((307200 : Nat) : Int))) = CFloat.fin (8388609 / 8388608) := by
  decide!

/-- The CDF of `dark_image` in `float` arithmetic: `0.99997723...` up to
entry `61`, `0.99998050...` up to entry `124`, `0.99998378...` up to entry
`251` and `1 + 2^-23` from entry `252` on. -/
theorem dark_image_cdf (uchar_image gray_image : List Nat) (histogram : List Int)
    (cdf : List CFloat) (schedule : Schedule) (hs : schedule.Valid 307200)
    (hl : histogram.length = HISTOGRAM_LENGTH) (hlen : cdf.length = HISTOGRAM_LENGTH)
    (hu : uchar_image.length = 307200 * 3) (hg : gray_image.length = 307200) (i : Nat)
    (hi : i < HISTOGRAM_LENGTH) :
    (calculate_cdf (process_image_and_build_histogram dark_image uchar_image gray_image
      histogram schedule).histogram cdf ((307200 : Nat) : Int)).getD i CFloat.nan =
      CFloat.fin (if i < 62 then 8388417 / 8388608 else if i < 125 then 16776889 / 16777216
        else if i < 252 then 1048559 / 1048576 else 8388609 / 8388608) := by
  have hH := dark_image_histogram uchar_image gray_image histogram schedule hs hl hu hg
  have h256 : HISTOGRAM_LENGTH = 256 := rfl
  obtain ⟨kA, kB, kC, kD⟩ := dark_image_cdf_keep
  induction i with
  | zero =>
    rw [calculate_cdf_zero _ _ _ hlen, hH 0 hi]
    decide!
  | succ i ih =>
    rw [calculate_cdf_succ _ _ _ hlen (i + 1) (by omega) hi, Nat.add_sub_cancel,
      ih (by omega), hH (i + 1) hi]
    have g0 : ¬ (i + 1 = 0) := by omega
    by_cases c2 : i + 1 = 62
    · obtain rfl : i = 61 := by omega
      decide!
    · by_cases c4 : i + 1 = 125
      · obtain rfl : i = 124 := by omega
        decide!
      · by_cases c6 : i + 1 = 252
        · obtain rfl : i = 251 := by omega
          decide!
        · simp only [if_neg g0, if_neg c2, if_neg c4, if_neg c6]
          by_cases c1 : i + 1 < 62
          · have d1 : i < 62 := by omega
            simp only [if_pos d1, if_pos c1]
            exact kA
          · have d1 : ¬ (i < 62) := by omega
            by_cases c3 : i + 1 < 125
            · have d3 : i < 125 := by omega
              simp only [if_neg d1, if_neg c1, if_pos d3, if_pos c3]
              exact kB
            · have d3 : ¬ (i < 125) := by omega
              by_cases c5 : i + 1 < 252
              · have d5 : i < 252 := by omega
                simp only [if_neg d1, if_neg c1, if_neg d3, if_neg c3, if_pos d5, if_pos c5]
                exact kC
              · have d5 : ¬ (i < 252) := by omega
                simp only [if_neg d1, if_neg c1, if_neg d3, if_neg c3, if_neg d5, if_neg c5]
                exact kD

/-- The corrected bytes of the four byte values of `dark_image` under its
`cdf_min`: `0`, `36`, `73` and, for the quotient `256.33...` of the byte
`255`, `0`. -/
theorem dark_image_correct_color :
    correct_color (CFloat.fin (8388417 / 8388608)) (CFloat.fin (8388417 / 8388608)) = some 0 ∧
    correct_color (CFloat.fin (16776889 / 16777216)) (CFloat.fin (8388417 / 8388608))
      = some 36 ∧
    correct_color (CFloat.fin (1048559 / 1048576)) (CFloat.fin (8388417 / 8388608))
      = some 73 ∧
    correct_color (CFloat.fin (8388609 / 8388608)) (CFloat.fin (8388417 / 8388608))
      = some 0 := by
  decide!

/-- A pass over `dark_image` on a memory of the allocated sizes, under any
schedule: it returns; `cdf_min` is `0.99997723...`, below one; `CDF[255]` is
`1 + 2^-23`, above one; the bytes `63`, `127`, `255` and `0` of the image are
replaced by `36`, `73`, `0` and `0`. -/
theorem dark_image_pass (ptr : Buf) (h : Heap) (schedule : Schedule)
    (hs : schedule.Valid (640 * 480)) (ha : h.Allocated 640 480)
    (hin : h.read ptr = dark_image) :
    ∃ h1, histogram_equalization 640 480 ptr h schedule = some h1 ∧
      find_cdf_min h1.cdf = CFloat.fin (8388417 / 8388608) ∧
      h1.cdf.getD 127 CFloat.nan = CFloat.fin (1048559 / 1048576) ∧
      h1.cdf.getD 255 CFloat.nan = CFloat.fin (8388609 / 8388608) ∧
      (∀ k, k < 640 * 480 * 3 →
        (process_image_and_build_histogram dark_image h.uchar_image h.gray_image h.histogram
          schedule).uchar_image.getD k 0 =
            if k < 3 then 63 else if k < 6 then 127 else if k < 21 then 255 else 0) ∧
      (∀ k, k < 640 * 480 * 3 →
        h1.uchar_image.getD k 0 = if k < 3 then 36 else if k < 6 then 73 else 0) ∧
      (∀ k, k < 640 * 480 * 3 →
        h1.output_image.getD k 0 =
          round32 (((if k < 3 then 36 else if k < 6 then 73 else 0 : Nat) : ℚ) / 255)) := by
  obtain ⟨a1, a2, a3, a4, a5⟩ := ha
  have hs2 : schedule.Valid 307200 := hs
  have a2b : h.uchar_image.length = 307200 * 3 := a2
  have a3b : h.gray_image.length = 307200 := a3
  obtain ⟨e1, _, e3, _⟩ := process_image_buffers dark_image h.uchar_image h.gray_image
    h.histogram schedule 307200 hs2 a2b a3b
  have hC := dark_image_cdf h.uchar_image h.gray_image h.histogram h.cdf schedule hs2 a4 a5
    a2b a3b
  have hmin : find_cdf_min (calculate_cdf (process_image_and_build_histogram dark_image
      h.uchar_image h.gray_image h.histogram schedule).histogram h.cdf ((307200 : Nat) : Int))
      = CFloat.fin (8388417 / 8388608) := by
    rw [find_cdf_min_eq_first _ _ _ a5 (by decide)
      (process_image_histogram_nonneg dark_image h.uchar_image h.gray_image h.histogram
        schedule 307200 hs2 a4), hC 0 (by decide)]
    rfl
  have hbyte : ∀ k, k < 640 * 480 * 3 →
      (process_image_and_build_histogram dark_image h.uchar_image h.gray_image h.histogram
        schedule).uchar_image.getD k 0 =
          if k < 3 then 63 else if k < 6 then 127 else if k < 21 then 255 else 0 := by
    intro k hk
    rw [e3 k hk, dark_image_byte]
  obtain ⟨c0, c63, c127, c255⟩ := dark_image_correct_color
  have h0 := hC 0 (by decide)
  have h63 := hC 63 (by decide)
  have h127 := hC 127 (by decide)
  have h255 := hC 255 (by decide)
  rw [if_pos (by decide)] at h0
  rw [if_neg (by decide), if_pos (by decide)] at h63
  rw [if_neg (by decide), if_neg (by decide), if_pos (by decide)] at h127
  rw [if_neg (by decide), if_neg (by decide), if_neg (by decide)] at h255
  have hc : ∀ k, k < 640 * 480 * 3 →
      correct_color
        ((calculate_cdf (process_image_and_build_histogram dark_image h.uchar_image
          h.gray_image h.histogram schedule).histogram h.cdf ((307200 : Nat) : Int)).getD
          ((process_image_and_build_histogram dark_image h.uchar_image h.gray_image
            h.histogram schedule).uchar_image.getD k 0) CFloat.nan)
        (CFloat.fin (8388417 / 8388608)) =
          some (if k < 3 then 36 else if k < 6 then 73 else 0) := by
    intro k hk
    rw [hbyte k hk]
    by_cases k3 : k < 3
    · rw [if_pos k3, if_pos k3, h63, c63]
    · by_cases k6 : k < 6
      · rw [if_neg k3, if_pos k6, if_neg k3, if_pos k6, h127, c127]
      · by_cases k21 : k < 21
        · rw [if_neg k3, if_neg k6, if_pos k21, if_neg k3, if_neg k6, h255, c255]
        · rw [if_neg k3, if_neg k6, if_neg k21, if_neg k3, if_neg k6, h0, c0]
  obtain ⟨r, hr, l1, l2, g1, g2⟩ := apply_loop_defined _ _
    (fun k => if k < 3 then 36 else if k < 6 then 73 else 0)
    (process_image_and_build_histogram dark_image h.uchar_image h.gray_image h.histogram
      schedule).uchar_image h.output_image (640 * 480 * 3) hc
  have hmin2 : find_cdf_min (calculate_cdf (process_image_and_build_histogram dark_image
      h.uchar_image h.gray_image h.histogram schedule).histogram h.cdf
      ((640 * 480 : Nat) : Int)) = CFloat.fin (8388417 / 8388608) := hmin
  have hr3 : for_loop (fun i s => s.bind (apply_sample
      (calculate_cdf (process_image_and_build_histogram dark_image h.uchar_image
        h.gray_image h.histogram schedule).histogram h.cdf ((640 * 480 : Nat) : Int))
      (CFloat.fin (8388417 / 8388608)) i)) 0 (640 * 480 * 3)
      (some ((process_image_and_build_histogram dark_image h.uchar_image h.gray_image
        h.histogram schedule).uchar_image, h.output_image)) = some r := hr
  have hex : ∃ h1, histogram_equalization 640 480 ptr h schedule = some h1 ∧
      h1.output_image = r.2 ∧ h1.uchar_image = r.1 ∧
      h1.cdf = calculate_cdf (process_image_and_build_histogram dark_image h.uchar_image
        h.gray_image h.histogram schedule).histogram h.cdf ((640 * 480 : Nat) : Int) := by
    unfold histogram_equalization
    simp only [hin]
    unfold apply_histogram_equalization_and_convert_to_float
    rw [hmin2, hr3]
    refine ⟨_, rfl, rfl, rfl, ?_⟩
    dsimp only
  obtain ⟨h1, f1, f2, f3, f4⟩ := hex
  have h127b : (calculate_cdf (process_image_and_build_histogram dark_image h.uchar_image
      h.gray_image h.histogram schedule).histogram h.cdf ((640 * 480 : Nat) : Int)).getD 127
      CFloat.nan = CFloat.fin (1048559 / 1048576) := h127
  have h255b : (calculate_cdf (process_image_and_build_histogram dark_image h.uchar_image
      h.gray_image h.histogram schedule).histogram h.cdf ((640 * 480 : Nat) : Int)).getD 255
      CFloat.nan = CFloat.fin (8388609 / 8388608) := h255
  refine ⟨h1, f1, ?_, ?_, ?_, hbyte, ?_, ?_⟩
  · rw [f4]
    exact hmin2
  · rw [f4]
    exact h127b
  · rw [f4]
    exact h255b
  · intro k hk
    rw [f3, g1 k, if_pos ⟨hk, by rw [e1]; exact hk⟩]
  · intro k hk
    rw [f2, g2 k, if_pos ⟨hk, by rw [a1]; exact hk⟩]

/-- The memory `dark_image_heap` has the allocated sizes of an image of
640 x 480 pixels. -/
theorem dark_image_heap_allocated : dark_image_heap.Allocated 640 480 :=
  ⟨List.length_replicate 921600 0, List.length_replicate 921600 0,
    List.length_replicate 307200 0, List.length_replicate 256 0,
    List.length_replicate 256 CFloat.nan⟩

/-- The round trip of every byte through the two `float` operations: the
division of the Corrector and the product of the ByteProjector. -/
theorem byte_round_trip_all :
    ∀ b : Fin 256, to_uchar (round32 (255 * round32 ((b.val : ℚ) / 255))) = b.val := by
  decide!

/-- Claim C13.  For every byte value `b` in `[0, 255]`, the float sample the
Corrector writes for `b`, the `float` quotient `b / 255.0f`, is converted back
to `b` by the ByteProjector: the truncation of the `float` product
`255 * (b / 255.0f)` is `b`.  In particular the sample the Corrector stores
in the output image converts back to the byte it stores in the byte
buffer. -/
theorem C13_byte_round_trip (b : Nat) (hb : b ≤ 255) :
    to_uchar (round32 (255 * round32 ((b : ℚ) / 255))) = b ∧
    ∀ (cdf : List CFloat) (cdf_min : CFloat) (i : Nat) (uchar_image : List Nat)
      (output_image_data : List ℚ),
      i < uchar_image.length → i < output_image_data.length →
      correct_color (cdf.getD (uchar_image.getD i 0) CFloat.nan) cdf_min = some b →
      ∃ r, apply_sample cdf cdf_min i (uchar_image, output_image_data) = some r ∧
        r.1.getD i 0 = b ∧ r.2.getD i 0 = round32 ((b : ℚ) / 255) ∧
        to_uchar (round32 (255 * r.2.getD i 0)) = r.1.getD i 0 := by
  have h1 : to_uchar (round32 (255 * round32 ((b : ℚ) / 255))) = b :=
    byte_round_trip_all ⟨b, by omega⟩
  refine ⟨h1, ?_⟩
  intro cdf cdf_min i uchar_image output_image_data hu ho hc
  refine ⟨(uchar_image.set i b, output_image_data.set i (round32 ((b : ℚ) / 255))), ?_, ?_, ?_,
    ?_⟩
  · unfold apply_sample
    simp only [hc]
  · exact getD_set_self _ _ _ _ hu
  · exact getD_set_self _ _ _ _ ho
  · show to_uchar (round32 (255 * (output_image_data.set i (round32 ((b : ℚ) / 255))).getD i 0))
      = (uchar_image.set i b).getD i 0
    rw [getD_set_self _ _ _ _ hu, getD_set_self _ _ _ _ ho]
    exact h1

/-- C13 at the byte `200`. -/
theorem C13_byte_round_trip_witness :
    to_uchar (round32 (255 * round32 (((200 : Nat) : ℚ) / 255))) = 200 ∧
    ∀ (cdf : List CFloat) (cdf_min : CFloat) (i : Nat) (uchar_image : List Nat)
      (output_image_data : List ℚ),
      i < uchar_image.length → i < output_image_data.length →
      correct_color (cdf.getD (uchar_image.getD i 0) CFloat.nan) cdf_min = some 200 →
      ∃ r, apply_sample cdf cdf_min i (uchar_image, output_image_data) = some r ∧
        r.1.getD i 0 = 200 ∧ r.2.getD i 0 = round32 (((200 : Nat) : ℚ) / 255) ∧
        to_uchar (round32 (255 * r.2.getD i 0)) = r.1.getD i 0 :=
  C13_byte_round_trip 200 (by decide)

/-- The quotient `correct_color` forms for `CDF[255]` and the `cdf_min` of
`dark_image`, and the byte its conversion wraps to. -/
theorem dark_image_quotient :
    corrector_quotient (8388609 / 8388608) (8388417 / 8388608) = 2099897 / 8192 ∧
      to_uchar (2099897 / 8192) = 0 ∧ clamp 0 = 0 := by
  decide!

/-- Claim C17: the failing input.  On `dark_image`, an image of 640 x 480
pixels, a pass returns with `cdf_min = 0.99997723... < 1` and
`CDF[255] = 1 + 2^-23 > 1`; for the byte `255` the quotient `correct_color`
forms in `float` arithmetic is `256.33...`, outside `[0, 255]` and outside
the range of `unsigned char`; the conversion wraps it to `0`, `clamp` is
applied to the converted byte and saturates nothing, and the pass replaces
the byte `255` of the white sample `6` by `0` and writes the sample `0.0`. -/
theorem C17_quotient_out_of_byte_range :
    ∃ h1, histogram_equalization 640 480 Buf.input dark_image_heap
        (Schedule.sequential (640 * 480)) = some h1 ∧
      find_cdf_min h1.cdf = CFloat.fin (8388417 / 8388608) ∧
      (8388417 / 8388608 : ℚ) < 1 ∧
      h1.cdf.getD 255 CFloat.nan = CFloat.fin (8388609 / 8388608) ∧
      corrector_quotient (8388609 / 8388608) (8388417 / 8388608) = 2099897 / 8192 ∧
      (256 : ℚ) < 2099897 / 8192 ∧
      to_uchar (2099897 / 8192) = 0 ∧ clamp 0 = 0 ∧
      (process_image_and_build_histogram dark_image dark_image_heap.uchar_image
        dark_image_heap.gray_image dark_image_heap.histogram
        (Schedule.sequential (640 * 480))).uchar_image.getD 6 0 = 255 ∧
      h1.uchar_image.getD 6 0 = 0 ∧ h1.output_image.getD 6 0 = 0 := by
  obtain ⟨h1, e1, e2, _, e4, e5, e6, e7⟩ := dark_image_pass Buf.input dark_image_heap
    (Schedule.sequential (640 * 480)) (sequential_valid (640 * 480)) dark_image_heap_allocated
    rfl
  obtain ⟨q1, q2, q3⟩ := dark_image_quotient
  refine ⟨h1, e1, e2, by norm_num, e4, q1, by norm_num, q2, q3, ?_, ?_, ?_⟩
  · rw [e5 6 (by decide)]
    rfl
  · rw [e6 6 (by decide)]
    rfl
  · rw [e7 6 (by decide)]
    decide!

/-- Claim C18: the failing input.  On `dark_image`, an image of 640 x 480
pixels with `cdf_min < 1`, the bytes `127 <= 255` are remapped to
`correct_color(CDF[127], cdf_min) = 73` and
`correct_color(CDF[255], cdf_min) = 0`: the quotient of the byte `255` is
`256.33...` and its conversion wraps.  The pass replaces the byte `127` of the
sample `3` by `73` and the byte `255` of the sample `6` by `0`. -/
theorem C18_corrector_not_order_preserving :
    ∃ h1, histogram_equalization 640 480 Buf.input dark_image_heap
        (Schedule.sequential (640 * 480)) = some h1 ∧
      find_cdf_min h1.cdf = CFloat.fin (8388417 / 8388608) ∧
      (8388417 / 8388608 : ℚ) < 1 ∧
      correct_color (h1.cdf.getD 127 CFloat.nan) (find_cdf_min h1.cdf) = some 73 ∧
      correct_color (h1.cdf.getD 255 CFloat.nan) (find_cdf_min h1.cdf) = some 0 ∧
      (process_image_and_build_histogram dark_image dark_image_heap.uchar_image
        dark_image_heap.gray_image dark_image_heap.histogram
        (Schedule.sequential (640 * 480))).uchar_image.getD 3 0 = 127 ∧
      (process_image_and_build_histogram dark_image dark_image_heap.uchar_image
        dark_image_heap.gray_image dark_image_heap.histogram
        (Schedule.sequential (640 * 480))).uchar_image.getD 6 0 = 255 ∧
      h1.uchar_image.getD 3 0 = 73 ∧ h1.uchar_image.getD 6 0 = 0 := by
  obtain ⟨h1, e1, e2, e3, e4, e5, e6, _⟩ := dark_image_pass Buf.input dark_image_heap
    (Schedule.sequential (640 * 480)) (sequential_valid (640 * 480)) dark_image_heap_allocated
    rfl
  obtain ⟨_, _, c127, c255⟩ := dark_image_correct_color
  refine ⟨h1, e1, e2, by norm_num, ?_, ?_, ?_, ?_, ?_, ?_⟩
  · rw [e2, e3, c127]
  · rw [e2, e4, c255]
  · rw [e5 3 (by decide)]
    rfl
  · rw [e5 6 (by decide)]
    rfl
  · rw [e6 3 (by decide)]
    rfl
  · rw [e6 6 (by decide)]
    rfl

end cp
